import Mathlib

/-!
# Verification of the DysmalPy parametric mass-model / kinematics core

Shallow embedding of the parts of the `dysmalpy` repository that the
frozen claims are about:

* `dysmalpy/models/geometry.py` — sky↔galaxy coordinate transforms;
* `dysmalpy/models/halos.py` — dark-matter halo profiles (`NFW`,
  `TwoPowerHalo`, `Burkert`, `Einasto`, `DekelZhao`, `LinearNFW`),
  virial-radius calculation, enclosed mass, circular velocity, and the
  dark-matter-fraction inversions;
* `dysmalpy/models.py` — `ModelSet` parameter bookkeeping
  (`_add_comp`, `set_parameter_value`, `set_parameter_fixed`,
  `update_parameters`), the `MassModel.circular_velocity` base method
  and the `Sersic` profile.

Python floats are modelled as real numbers (`ℝ`) where the claims are
about exact/ideal arithmetic, and as rationals (`ℚ`) where concrete
evaluation is needed.  Fallible code is modelled with `Except`-style
outcome types.  External collaborators (astropy constants/cosmology,
scipy special functions and `brentq`) are modelled by explicit
definitions or by function parameters, documented at each definition.
-/

namespace Dysmalpy

/-! ## Python-level outcome types -/

/-- Python exceptions that the embedded code can raise. -/
inductive PyErr where
  | valueError
  | keyError
  | typeError
  | indexError
  | attributeError
  | unboundLocalError
  | notImplementedError
  deriving DecidableEq, Repr

/-! ## Geometry (`dysmalpy/models/geometry.py`)

`Geometry.evaluate` maps sky coordinates to galaxy-frame coordinates;
`Geometry.inverse_coord_transform` maps galaxy-frame coordinates back to
the sky.  Angles are given in degrees and converted to radians inside
both methods. -/

/-- `Geometry.evaluate` (geometry.py lines 83–102): transform sky
coordinates `(x, y, z)` to galaxy-frame coordinates, given inclination
`inc` and position angle `pa` in degrees and center shifts
`xshift`, `yshift` (the `vel_shift` argument is unused by the code). -/
noncomputable def geometryEvaluate (inc pa xshift yshift : ℝ) (x y z : ℝ) :
    ℝ × ℝ × ℝ :=
  let inc' := Real.pi / 180 * inc
  let pa' := Real.pi / 180 * (pa - 90)
  let xsky := x - xshift
  let ysky := y - yshift
  let zsky := z
  let xtmp := xsky * Real.cos pa' + ysky * Real.sin pa'
  let ytmp := -xsky * Real.sin pa' + ysky * Real.cos pa'
  let ztmp := zsky
  let xgal := xtmp
  let ygal := ytmp * Real.cos inc' - ztmp * Real.sin inc'
  let zgal := ytmp * Real.sin inc' + ztmp * Real.cos inc'
  (xgal, ygal, zgal)

/-- `Geometry.inverse_coord_transform` (geometry.py lines 114–135):
transform galaxy-frame coordinates back to sky coordinates. -/
noncomputable def geometryInverse (inc pa xshift yshift : ℝ) (xgal ygal zgal : ℝ) :
    ℝ × ℝ × ℝ :=
  let inc' := Real.pi / 180 * inc
  let pa' := Real.pi / 180 * (pa - 90)
  let xtmp := xgal
  let ytmp := ygal * Real.cos inc' + zgal * Real.sin inc'
  let ztmp := -ygal * Real.sin inc' + zgal * Real.cos inc'
  let xsky := xtmp * Real.cos pa' - ytmp * Real.sin pa' + xshift
  let ysky := xtmp * Real.sin pa' + ytmp * Real.cos pa' + yshift
  let zsky := ztmp
  (xsky, ysky, zsky)

/-- The attribute names defined on the `Geometry` class: its five
`DysmalParameter` declarations (geometry.py lines 73–78).  There is no
attribute named `vel_shit`. -/
def geometryAttrNames : List String :=
  ["inc", "pa", "xshift", "yshift", "vel_shift"]

/-- Python attribute lookup on a `Geometry` instance: returns the
parameter's value, or raises `AttributeError` when the name is not a
defined attribute. -/
def geometryGetattr (vals : String → ℝ) (attr : String) : Except PyErr ℝ :=
  if attr ∈ geometryAttrNames then .ok (vals attr) else .error .attributeError

/-- `Geometry.coord_transform` (geometry.py lines 104–111): fills in the
parameter defaults, then calls
`self.evaluate(x, y, z, inc, pa, xshift, yshift, self.vel_shit)`.
The final argument reads the attribute `vel_shit` (a typo for
`vel_shift`), which is looked up through `geometryGetattr`. -/
noncomputable def geometryCoordTransform (vals : String → ℝ) (x y z : ℝ) :
    Except PyErr (ℝ × ℝ × ℝ) := do
  let inc := vals "inc"
  let pa := vals "pa"
  let xshift := vals "xshift"
  let yshift := vals "yshift"
  let _velshit ← geometryGetattr vals "vel_shit"
  return geometryEvaluate inc pa xshift yshift x y z

/-! ## `DarkMatterHalo.velocity_profile` (halos.py lines 107–115) -/

/-- `DarkMatterHalo.velocity_profile(r, model)`: raises
`NotImplementedError` when the owning model's
`kinematic_options.adiabatic_contract` flag is set, and otherwise
returns `self.circular_velocity(r)`.  The circular-velocity method of
the concrete halo is passed as the function `vcirc`. -/
def velocityProfile (vcirc : ℝ → ℝ) (adiabaticContract : Bool) (r : ℝ) :
    Except PyErr ℝ :=
  if adiabaticContract then .error .notImplementedError
  else .ok (vcirc r)

/-! ## Dark-matter-fraction inversions (halos.py)

The inversion methods share a structure: an edge-case ladder on `fdm`,
then a coarse grid scan of a root-finding objective, bracket selection,
and a call to `scipy.optimize.brentq`.  The objective closes over the
profile's `circular_velocity` (real-valued, profile-specific); it is
passed in as the function `vcircSq` mapping the candidate parameter to
the squared circular velocity at `r_fdm`.  Floats are modelled as
rationals; `np.NaN`, `np.inf`, `-np.inf` become dedicated outcome
constructors. -/

/-- Result of one of the `calc_*_from_fdm` inversion methods:
a float sentinel (`NaN`, `inf`, `-inf`), a raised exception, or a
finite numeric value. -/
inductive FdmOutcome where
  | nan
  | posInf
  | negInf
  | err (e : PyErr)
  | val (x : ℚ)
  deriving DecidableEq, Repr

/-- `true` iff the outcome is one of the directly-returned float
sentinels `NaN`, `inf`, `-inf`. -/
def FdmOutcome.isSentinel : FdmOutcome → Bool
  | .nan | .posInf | .negInf => true
  | _ => false

/-- `true` iff the outcome is a raised exception. -/
def FdmOutcome.isError : FdmOutcome → Bool
  | .err _ => true
  | _ => false

/-- `scipy.optimize.brentq(f, a, b)` (external collaborator): raises
`ValueError` when `f(a)` and `f(b)` have the same (nonzero) sign, i.e.
when the interval is not a verified bracket; otherwise returns a root.
The root actually computed is abstracted by the parameter `broot`. -/
def scipyBrentq (broot : (ℚ → ℚ) → ℚ → ℚ → ℚ) (f : ℚ → ℚ) (a b : ℚ) :
    Except PyErr ℚ :=
  if f a * f b > 0 then .error .valueError else .ok (broot f a b)

/-- `np.arange(-5, 50, 1.0)`: the coarse `mvirial` grid of
`DarkMatterHalo.calc_mvirial_from_fdm` (halos.py line 159). -/
def mtestGrid : List ℚ :=
  [-5, -4, -3, -2, -1, 0, 1, 2, 3, 4, 5, 6,
   7, 8, 9, 10, 11, 12, 13, 14, 15, 16, 17, 18,
   19, 20, 21, 22, 23, 24, 25, 26, 27, 28, 29, 30,
   31, 32, 33, 34, 35, 36, 37, 38, 39, 40, 41, 42,
   43, 44, 45, 46, 47, 48, 49]

/-- `np.arange(-50, 50, 1.)`: the coarse `alpha` grid of
`TwoPowerHalo.calc_alpha_from_fdm` (halos.py line 499), also used as
the `nEinasto` grid of `Einasto.calc_nEinasto_from_fdm` (line 987). -/
def alphtestGrid : List ℚ :=
  [-50, -49, -48, -47, -46, -45, -44, -43, -42, -41, -40, -39,
   -38, -37, -36, -35, -34, -33, -32, -31, -30, -29, -28, -27,
   -26, -25, -24, -23, -22, -21, -20, -19, -18, -17, -16, -15,
   -14, -13, -12, -11, -10, -9, -8, -7, -6, -5, -4, -3,
   -2, -1, 0, 1, 2, 3, 4, 5, 6, 7, 8, 9,
   10, 11, 12, 13, 14, 15, 16, 17, 18, 19, 20, 21,
   22, 23, 24, 25, 26, 27, 28, 29, 30, 31, 32, 33,
   34, 35, 36, 37, 38, 39, 40, 41, 42, 43, 44, 45,
   46, 47, 48, 49]

/-- `np.arange(0., 250., 5.0)`: the coarse `rB` grid of
`Burkert.calc_rB_from_fdm` (halos.py line 708). -/
def rBtestGrid : List ℚ :=
  [0, 5, 10, 15, 20, 25, 30, 35, 40, 45, 50, 55,
   60, 65, 70, 75, 80, 85, 90, 95, 100, 105, 110, 115,
   120, 125, 130, 135, 140, 145, 150, 155, 160, 165, 170, 175,
   180, 185, 190, 195, 200, 205, 210, 215, 220, 225, 230, 235,
   240, 245]

/-- The root-finding objective shared by the inversion methods:
`f(m) = circular_velocity(r_fdm)² − v_dm_target²` where
`v_dm_target² = v_bar(r_fdm)² / (1/fdm − 1)` and the candidate
parameter `m` enters through the profile's squared circular velocity
`vcircSq`.  (In float arithmetic `fdm = 1` makes the target `+inf`;
in this rational model it makes the target `0` by the
division-by-zero convention — in both cases execution proceeds into
the grid scan instead of returning a sentinel.) -/
def fdmObjective (vcircSq : ℚ → ℚ) (fdm vbarSq : ℚ) : ℚ → ℚ :=
  fun m => vcircSq m - vbarSq / (1 / fdm - 1)

/-- Strict bracket selection of `calc_mvirial_from_fdm`:
`a = grid[f < 0][-1]`, `b = grid[f > 0][0]`; a failed selection (no
sign change over the grid) raises `ValueError` (halos.py
lines 166–178). -/
def strictBracket (grid : List ℚ) (f : ℚ → ℚ) : Except PyErr (ℚ × ℚ) :=
  match (grid.filter (fun m => f m < 0)).getLast?,
      (grid.filter (fun m => f m > 0)).head? with
  | some a, some b => .ok (a, b)
  | _, _ => .error .valueError

/-- Forced bracket selection of the shape-parameter inversions: when
`a = grid[f < 0][-1]` raises, the pair `noNeg` of grid edges is
forced; when `b = grid[f > 0][0]` raises, the pair `noPos` is forced
("Even if not perfect, force in case of no convergence..."). -/
def forcedBracket (grid : List ℚ) (noNeg noPos : ℚ × ℚ) (f : ℚ → ℚ) :
    ℚ × ℚ :=
  match (grid.filter (fun m => f m < 0)).getLast? with
  | none => noNeg
  | some a =>
      match (grid.filter (fun m => f m > 0)).head? with
      | none => noPos
      | some b => (a, b)

/-- Propagate a `brentq` exception as a raised error, otherwise apply
`k` to the root. -/
def raiseOr (x : Except PyErr ℚ) (k : ℚ → FdmOutcome) : FdmOutcome :=
  match x with
  | .ok v => k v
  | .error e => .err e

/-- Catch a `brentq` exception and return `fallback` instead
(Burkert's `except: rB = np.average([a,b])`). -/
def valueOr (x : Except PyErr ℚ) (fallback : ℚ) : FdmOutcome :=
  match x with
  | .ok v => .val v
  | .error _ => .val fallback

/-- `DarkMatterHalo.calc_mvirial_from_fdm` (halos.py lines 119–188),
without adiabatic contraction.  The `fdm` parameter bounds are the
declared `(0, 1)`.  Edge-case ladder exactly as in the source; in the
`else` branch the target `v_dm²` is computed, the grid is scanned with
the objective `f m = vcircSq m - vtarget`, the bracket is
`a = mtest[vtest < 0][-1]`, `b = mtest[vtest > 0][0]`, and a failed
selection (no sign change over the grid) raises `ValueError`.
(The source's `np.isfinite(vsqr_dm_re_target)` test cannot fire in
exact rational arithmetic and is omitted.) -/
def calc_mvirial_from_fdm (broot : (ℚ → ℚ) → ℚ → ℚ → ℚ)
    (vcircSq : ℚ → ℚ) (fdm rFdm vbarSq : ℚ) : FdmOutcome :=
  if fdm > 1 ∨ fdm < 0 then .nan
  else if fdm = 1 then .posInf
  else if fdm = 0 then .negInf
  else if fdm < 1 / 10 ^ 10 then .negInf
  else if rFdm < 0 then .nan
  else
    match strictBracket mtestGrid (fdmObjective vcircSq fdm vbarSq) with
    | .error e => .err e
    | .ok ab =>
        raiseOr
          (scipyBrentq broot (fdmObjective vcircSq fdm vbarSq) ab.1 ab.2)
          .val

/-- `TwoPowerHalo.calc_alpha_from_fdm` (halos.py lines 470–517).  Only
the out-of-bounds check is performed; otherwise the grid is scanned
and, when a bracket endpoint selection fails, the bracket is *forced*
from grid edges (`alphtest[0], alphtest[1]` when no negative objective
value exists; `alphtest[-2], alphtest[-1]` when no positive one
exists), and `brentq` is called outside any `try`.  In float
arithmetic `fdm == 1` makes the target `+inf`; in this rational model
it makes the target `0` (division-by-zero convention) — in both cases
execution proceeds into the grid search instead of returning a
sentinel, which is the behaviour the claims are about. -/
def calc_alpha_from_fdm (broot : (ℚ → ℚ) → ℚ → ℚ → ℚ)
    (vcircSq : ℚ → ℚ) (fdm vbarSq : ℚ) : FdmOutcome :=
  if fdm > 1 ∨ fdm < 0 then .nan
  else
    raiseOr
      (scipyBrentq broot (fdmObjective vcircSq fdm vbarSq)
        (forcedBracket alphtestGrid (-50, -49) (48, 49)
          (fdmObjective vcircSq fdm vbarSq)).1
        (forcedBracket alphtestGrid (-50, -49) (48, 49)
          (fdmObjective vcircSq fdm vbarSq)).2)
      .val

/-- `Burkert.calc_rB_from_fdm` (halos.py lines 679–728).  Only the
out-of-bounds check is performed; bracket-selection failures force a
bracket from grid edges (`rBtest[0], rBtest[1]` when no positive
objective value exists; `rBtest[-2], rBtest[-1]` when no negative one
exists), and a failing `brentq` call is caught, returning
`np.average([a, b])` — the midpoint of the unverified bracket. -/
def calc_rB_from_fdm (broot : (ℚ → ℚ) → ℚ → ℚ → ℚ)
    (vcircSq : ℚ → ℚ) (fdm vbarSq : ℚ) : FdmOutcome :=
  if fdm > 1 ∨ fdm < 0 then .nan
  else
    valueOr
      (scipyBrentq broot (fdmObjective vcircSq fdm vbarSq)
        (forcedBracket rBtestGrid (240, 245) (0, 5)
          (fdmObjective vcircSq fdm vbarSq)).1
        (forcedBracket rBtestGrid (240, 245) (0, 5)
          (fdmObjective vcircSq fdm vbarSq)).2)
      (((forcedBracket rBtestGrid (240, 245) (0, 5)
          (fdmObjective vcircSq fdm vbarSq)).1 +
        (forcedBracket rBtestGrid (240, 245) (0, 5)
          (fdmObjective vcircSq fdm vbarSq)).2) / 2)

/-- `Einasto.calc_nEinasto_from_fdm` (halos.py lines 954–1006).  Only
the out-of-bounds check is performed; the bracket logic matches
`calc_alpha_from_fdm`.  The `brentq` result is assigned to the local
variable `alpha` (line 1002), but the method ends with
`return nEinasto` (line 1006): in the non-edge branch `nEinasto` is a
local variable (it is assigned in the edge branch) that was never
assigned, so a successful `brentq` call is followed by an
`UnboundLocalError`, and a failing one raises `ValueError`. -/
def calc_nEinasto_from_fdm (broot : (ℚ → ℚ) → ℚ → ℚ → ℚ)
    (vcircSq : ℚ → ℚ) (fdm vbarSq : ℚ) : FdmOutcome :=
  if fdm > 1 ∨ fdm < 0 then .nan
  else
    raiseOr
      (scipyBrentq broot (fdmObjective vcircSq fdm vbarSq)
        (forcedBracket alphtestGrid (-50, -49) (48, 49)
          (fdmObjective vcircSq fdm vbarSq)).1
        (forcedBracket alphtestGrid (-50, -49) (48, 49)
          (fdmObjective vcircSq fdm vbarSq)).2)
      (fun _ => .err .unboundLocalError)

/-- Edge-case contract of the spec (§4.2 / §8) for the fdm inversions,
written from the spec's words for the refinement comparison: `fdm`
outside `[0, 1]` → NaN; `fdm == 1` → `+inf`; `fdm == 0` or
`fdm < 1e-10` → `-inf`; `r_fdm < 0` → NaN; otherwise (`none`)
root-finding is entered. -/
def specFdmEdgeCases (fdm rFdm : ℚ) : Option FdmOutcome :=
  if fdm > 1 ∨ fdm < 0 then some .nan
  else if fdm = 1 then some .posInf
  else if fdm = 0 ∨ fdm < 1 / 10 ^ 10 then some .negInf
  else if rFdm < 0 then some .nan
  else none

/-! ## ModelSet parameter bookkeeping (`dysmalpy/models.py` lines 37–180)

Components are astropy `FittableModel`s as seen by `ModelSet`: an
ordered tuple of parameter names, a parallel array of values, and a
per-parameter `fixed` dict.  Python dicts (which iterate in insertion
order) are modelled as association lists; updating an existing key
keeps its position. -/

/-- Association-list lookup (Python dict read), keyed by `String`. -/
def alookup {α : Type} (d : List (String × α)) (k : String) : Option α :=
  match d with
  | [] => none
  | (k', v) :: rest => if k' = k then some v else alookup rest k

/-- Update key `k` of an association list to `v`, preserving position
(Python dict assignment). -/
def dictSet {α : Type} (d : List (String × α)) (k : String) (v : α) :
    List (String × α) :=
  if (alookup d k).isSome then
    d.map (fun p => if p.1 = k then (k, v) else p)
  else d ++ [(k, v)]

/-- Zero-based index of `p` in `names` (`list.index`), `none` when
absent (Python raises `ValueError`). -/
def pyIndex (names : List String) (p : String) : Option ℕ :=
  match names with
  | [] => none
  | q :: rest =>
      if q = p then some 0 else (pyIndex rest p).map (· + 1)

/-- Python list read `l[i]` with negative-index wrap-around; out of
range raises `IndexError`. -/
def pyListGet (l : List ℚ) (i : ℤ) : Except PyErr ℚ :=
  let j : ℤ := if i < 0 then (l.length : ℤ) + i else i
  if j < 0 then .error .indexError
  else
    match l.get? j.toNat with
    | some v => .ok v
    | none => .error .indexError

/-- Python list write `l[i] = v` with negative-index wrap-around; out
of range raises `IndexError`. -/
def pyListSet (l : List ℚ) (i : ℤ) (v : ℚ) : Except PyErr (List ℚ) :=
  let j : ℤ := if i < 0 then (l.length : ℤ) + i else i
  if j < 0 then .error .indexError
  else if j.toNat < l.length then .ok (l.set j.toNat v)
  else .error .indexError

/-- A model component as registered in a `ModelSet`: its name, ordered
parameter names, parameter values and `fixed` dict. -/
structure Comp where
  name : String
  paramNames : List String
  values : List ℚ
  fixed : List (String × Bool)
  deriving DecidableEq, Repr

/-- Wellformedness of a component as astropy guarantees it: distinct
parameter names, one value per parameter, and a `fixed` entry for each
parameter. -/
def Comp.WF (c : Comp) : Prop :=
  c.paramNames.Nodup ∧ c.values.length = c.paramNames.length ∧
    ∀ p ∈ c.paramNames, (alookup c.fixed p).isSome

/-- The component's `fixed` flag for parameter `p` (`model.fixed[n]`);
a miss is treated as fixed (it cannot occur for wellformed
components). -/
def Comp.isFixed (c : Comp) (p : String) : Bool :=
  (alookup c.fixed p).getD true

/-- Component type tag (`model._type`). -/
inductive CompType where
  | mass
  | geometry
  deriving DecidableEq, Repr

/-- `ModelSet.__init__` state (models.py lines 39–52): `parameters`
and `parameters_free` start as `None`. -/
structure ModelState where
  mass_components : List (String × Bool)
  components : List (String × Comp)
  parameters : Option (List ℚ)
  parameters_free : Option (List ℚ)
  fixedD : List (String × List (String × Bool))
  param_keys : List (String × List (String × ℕ))
  param_free_keys : List (String × List (String × ℤ))
  nparams : ℕ
  nparams_free : ℕ
  deriving DecidableEq, Repr

/-- The initial (empty) `ModelSet`. -/
def ModelState.init : ModelState :=
  ⟨[], [], none, none, [], [], [], 0, 0⟩

/-- `key_dict` of `_add_comp`: parameter `p` at position `i` maps to
flattened index `i + nparams`. -/
def buildKeyDict (names : List String) (base : ℕ) : List (String × ℕ) :=
  match names with
  | [] => []
  | p :: rest => (p, base) :: buildKeyDict rest (base + 1)

/-- `key_dict_free` of `_add_comp`: free parameters receive
consecutive indices starting at `nparams_free`, fixed parameters the
sentinel `-99`. -/
def buildFreeKeyDict (names : List String) (isFixed : String → Bool)
    (j : ℤ) : List (String × ℤ) :=
  match names with
  | [] => []
  | p :: rest =>
      if isFixed p then (p, -99) :: buildFreeKeyDict rest isFixed j
      else (p, j) :: buildFreeKeyDict rest isFixed (j + 1)

/-- The values of the component's non-fixed parameters, in declaration
order (the `pfree.append` loop of `_add_comp`). -/
def freeValues (c : Comp) : List ℚ :=
  ((c.paramNames.zip c.values).filter
    (fun pv => c.isFixed pv.1 = false)).map (·.2)

/-- The value of `self.parameters` read at the start of `_add_comp`
(empty before the first component). -/
def startPars (s : ModelState) : List ℚ :=
  match s.parameters with
  | none => []
  | some ps => ps

/-- The `pfree` list that `_add_comp` starts from: empty on the first
call, otherwise `self.parameters_free.tolist()`. -/
def startFree (s : ModelState) : List ℚ :=
  match s.parameters with
  | none => []
  | some _ => (s.parameters_free).getD []

/-- `ModelSet._add_comp` (models.py lines 92–130). -/
def addComp (s : ModelState) (c : Comp) : ModelState :=
  { mass_components := s.mass_components
    components := dictSet s.components c.name c
    parameters := some (startPars s ++ c.values)
    parameters_free := some (startFree s ++ freeValues c)
    fixedD := dictSet s.fixedD c.name c.fixed
    param_keys := dictSet s.param_keys c.name
      (buildKeyDict c.paramNames s.nparams)
    param_free_keys := dictSet s.param_free_keys c.name
      (buildFreeKeyDict c.paramNames c.isFixed (s.nparams_free : ℤ))
    nparams := s.nparams + c.paramNames.length
    nparams_free := (startFree s ++ freeValues c).length }

/-- `ModelSet.add_component` (models.py lines 54–90): a mass component
whose name is already registered raises `ValueError` (before any state
change); a geometry component overwrites the current geometry (with a
logged warning) and is recorded with `mass_components[name] = False`.
(The `name is None` renaming path is not modelled: all embedded
components carry a name.) -/
def add_component (s : ModelState) (c : Comp) (t : CompType) :
    Except PyErr ModelState :=
  match t with
  | .mass =>
      if (alookup s.mass_components c.name).isSome then .error .valueError
      else .ok (addComp
        { s with mass_components := dictSet s.mass_components c.name true } c)
  | .geometry =>
      .ok (addComp
        { s with mass_components := dictSet s.mass_components c.name false } c)

/-- `ModelSet.set_parameter_value` (models.py lines 132–149): unknown
component raises `KeyError`, unknown parameter raises `ValueError`
(both before any mutation); then the component's own copy, the full
vector and — if the parameter is currently not fixed — the free vector
are updated.  (The source performs the three writes in sequence; the
only mid-sequence failure would be the free-vector write through a
stale `-99` index on a parameter un-fixed after registration, which is
modelled as an error with no net state change.) -/
def set_parameter_value (s : ModelState) (mname pname : String) (v : ℚ) :
    Except PyErr ModelState := do
  let comp ← match alookup s.components mname with
    | none => .error PyErr.keyError
    | some c => .ok c
  let pi ← match pyIndex comp.paramNames pname with
    | none => .error PyErr.valueError
    | some i => .ok i
  let keyD ← match alookup s.param_keys mname with
    | none => .error PyErr.keyError
    | some d => .ok d
  let idx ← match alookup keyD pname with
    | none => .error PyErr.keyError
    | some i => .ok i
  let ps ← match s.parameters with
    | none => .error PyErr.typeError
    | some ps => .ok ps
  let ps' ← pyListSet ps (idx : ℤ) v
  if comp.isFixed pname = false then
    let fkeys ← match alookup s.param_free_keys mname with
      | none => .error PyErr.keyError
      | some d => .ok d
    let find ← match alookup fkeys pname with
      | none => .error PyErr.keyError
      | some i => .ok i
    let pf ← match s.parameters_free with
      | none => .error PyErr.typeError
      | some pf => .ok pf
    let pf' ← pyListSet pf find v
    return { s with
      components := dictSet s.components mname
        { comp with values := comp.values.set pi v }
      parameters := some ps'
      parameters_free := some pf' }
  else
    return { s with
      components := dictSet s.components mname
        { comp with values := comp.values.set pi v }
      parameters := some ps' }

/-- `ModelSet.set_parameter_fixed` (models.py lines 151–165): toggles
the flag in the component's `fixed` dict (aliased by
`self.fixed[model_name]`); it does **not** resize the free vector or
the free index maps. -/
def set_parameter_fixed (s : ModelState) (mname pname : String)
    (fix : Bool) : Except PyErr ModelState := do
  let comp ← match alookup s.components mname with
    | none => .error PyErr.keyError
    | some c => .ok c
  let _pi ← match pyIndex comp.paramNames pname with
    | none => .error PyErr.valueError
    | some i => .ok i
  return { s with
    components := dictSet s.components mname
      { comp with fixed := dictSet comp.fixed pname fix }
    fixedD := dictSet s.fixedD mname
      (dictSet ((alookup s.fixedD mname).getD []) pname fix) }

/-- The inner loop of `update_parameters` over one component's
`_param_free_keys` dict: for each `ind != -99`, write `theta[ind]`
through `set_parameter_value`. -/
def updateParamsInner (theta : List ℚ) (cmp : String) :
    ModelState → List (String × ℤ) → Except PyErr ModelState
  | s, [] => .ok s
  | s, (pp, ind) :: rest => do
      if ind ≠ -99 then
        let v ← pyListGet theta ind
        let s' ← set_parameter_value s cmp pp v
        updateParamsInner theta cmp s' rest
      else
        updateParamsInner theta cmp s rest

/-- The outer loop of `update_parameters` over `_param_free_keys`. -/
def updateParamsOuter (theta : List ℚ) :
    ModelState → List (String × List (String × ℤ)) → Except PyErr ModelState
  | s, [] => .ok s
  | s, (cmp, fkeys) :: rest => do
      let s' ← updateParamsInner theta cmp s fkeys
      updateParamsOuter theta s' rest

/-- `ModelSet.update_parameters` (models.py lines 167–180): raises
`ValueError` when `len(theta) != nparams_free` — before any mutation —
and otherwise writes `theta[free_index]` into every recorded free
(component, parameter) pair in index order via
`set_parameter_value`. -/
def update_parameters (s : ModelState) (theta : List ℚ) :
    Except PyErr ModelState :=
  if theta.length ≠ s.nparams_free then .error .valueError
  else updateParamsOuter theta s s.param_free_keys

/-- One caller-level operation on a `ModelSet`. -/
inductive MOp where
  | add (c : Comp) (t : CompType)
  | setValue (mname pname : String) (v : ℚ)
  | setFixed (mname pname : String) (fix : Bool)

/-- Apply one operation. -/
def applyOp (s : ModelState) : MOp → Except PyErr ModelState
  | .add c t => add_component s c t
  | .setValue m p v => set_parameter_value s m p v
  | .setFixed m p f => set_parameter_fixed s m p f

/-- Run one operation with caller-level exception handling: a raised
configuration error leaves the state as it was. -/
def stepOp (s : ModelState) (op : MOp) : ModelState :=
  match applyOp s op with
  | .ok s' => s'
  | .error _ => s

/-- Run a sequence of operations from a state. -/
def runOps (s : ModelState) (ops : List MOp) : ModelState :=
  ops.foldl stepOp s

/-- Number of parameters currently marked non-fixed, summed over all
registered components. -/
def freeParamCount (s : ModelState) : ℕ :=
  (s.components.map (fun nc =>
    (nc.2.paramNames.filter (fun p => nc.2.isFixed p = false)).length)).sum

/-- The current free parameter vector (`self.parameters_free`,
defaulting to empty before the first component is added). -/
def getFreeParams (s : ModelState) : List ℚ :=
  (s.parameters_free).getD []

/-! ### Specification view of a `ModelSet` state

A state produced by `add_component`/`set_parameter_value` calls is a
function of its ordered component list alone; the following
definitions compute that canonical state, which the invariant proofs
compare against. -/

/-- Number of non-fixed parameter names (with respect to the flag
function `fx`). -/
def freeCount (names : List String) (fx : String → Bool) : ℕ :=
  (names.filter (fun p => fx p = false)).length

/-- The free-value block of a name/value pairing (generalisation of
`freeValues` used by the invariant proofs). -/
def fvOf (names : List String) (values : List ℚ) (fx : String → Bool) :
    List ℚ :=
  ((names.zip values).filter (fun pv => fx pv.1 = false)).map (·.2)

/-- Position of parameter `p`'s value inside the component's free-value
block: the number of non-fixed parameters strictly before the first
occurrence of `p`. -/
def freeRank (names : List String) (fx : String → Bool) (p : String) : ℕ :=
  match names with
  | [] => 0
  | q :: rest =>
      if q = p then 0
      else (if fx q then 0 else 1) + freeRank rest fx p

/-- The concatenated full parameter vector of a component list. -/
def joinValues (comps : List (String × Comp)) : List ℚ :=
  (comps.map (fun nc => nc.2.values)).flatten

/-- The concatenated free parameter vector of a component list. -/
def joinFree (comps : List (String × Comp)) : List ℚ :=
  (comps.map (fun nc => freeValues nc.2)).flatten

/-- The `_param_keys` dicts produced by successive `_add_comp` calls:
component `k` gets `buildKeyDict` starting at the number of parameters
before it. -/
def specKeys : List (String × Comp) → ℕ → List (String × List (String × ℕ))
  | [], _ => []
  | (n, c) :: rest, base =>
      (n, buildKeyDict c.paramNames base) ::
        specKeys rest (base + c.paramNames.length)

/-- The `_param_free_keys` dicts produced by successive `_add_comp`
calls. -/
def specFreeKeys : List (String × Comp) → ℤ →
    List (String × List (String × ℤ))
  | [], _ => []
  | (n, c) :: rest, b =>
      (n, buildFreeKeyDict c.paramNames c.isFixed b) ::
        specFreeKeys rest (b + (freeValues c).length)

/-- The canonical `ModelSet` state holding exactly the components
`comps` (in insertion order) with mass-flags dict `mf`. -/
def buildState (mf : List (String × Bool)) (comps : List (String × Comp)) :
    ModelState :=
  { mass_components := mf
    components := comps
    parameters := if comps.isEmpty then none else some (joinValues comps)
    parameters_free := if comps.isEmpty then none else some (joinFree comps)
    fixedD := comps.map (fun nc => (nc.1, nc.2.fixed))
    param_keys := specKeys comps 0
    param_free_keys := specFreeKeys comps 0
    nparams := (joinValues comps).length
    nparams_free := (joinFree comps).length }

/-- Wellformedness of a component list: entries keyed by the
component's own name, wellformed components, distinct names. -/
def GoodComps (comps : List (String × Comp)) : Prop :=
  (∀ nc ∈ comps, nc.1 = nc.2.name ∧ nc.2.WF) ∧
    (comps.map (·.1)).Nodup

/-- Invariant of states reachable through `add_component` (with fresh
names) and `set_parameter_value`: the state is canonical for its
component list. -/
def InvV (s : ModelState) : Prop :=
  ∃ mf comps, GoodComps comps ∧ mf.map (·.1) = comps.map (·.1) ∧
    s = buildState mf comps

/-- States reachable from the empty `ModelSet` through successful
`add_component` calls (wellformed, name-keyed components with fresh
names) and successful `set_parameter_value` calls — the C6 scenario
without `set_parameter_fixed`. -/
inductive ReachV : ModelState → Prop where
  | init : ReachV ModelState.init
  | add {s s' : ModelState} (c : Comp) (t : CompType) :
      ReachV s → c.WF → c.name ∉ s.components.map (·.1) →
      add_component s c t = .ok s' → ReachV s'
  | set {s s' : ModelState} (m p : String) (v : ℚ) :
      ReachV s → set_parameter_value s m p v = .ok s' → ReachV s'

/-- Loop invariant for a run of `update_parameters` started on the
canonical state of `comps`: the current state is canonical for a
component list with the same names, parameter names and fixed flags
(only values differ), hence with the same free-index layout. -/
def UpdInv (mf : List (String × Bool)) (comps : List (String × Comp))
    (st : ModelState) : Prop :=
  ∃ comps', st = buildState mf comps' ∧ GoodComps comps' ∧
    specFreeKeys comps' 0 = specFreeKeys comps 0 ∧
    (joinFree comps').length = (joinFree comps).length ∧
    ∀ (n : String) (c : Comp), alookup comps n = some c →
      ∃ c', alookup comps' n = some c' ∧
        c'.paramNames = c.paramNames ∧ c'.isFixed = c.isFixed

/-! ### NFW numeric scenario (C1)

Real-number embedding of `DarkMatterHalo.calc_rvir`, `NFW.calc_rho0`,
`NFW.enclosed_mass` and `MassModel.circular_velocity`, with the astropy
constants modelled as the exact decimal values the library yields. -/

/-- `G.to(u.pc / u.Msun * (u.km / u.s) ** 2).value` (halos.py line 95):
the astropy gravitational constant in pc·(km/s)²/Msun. -/
def g_new_unit : ℚ := 4300917270036279 / 10 ^ 18

/-- `G.cgs.value` (CODATA gravitational constant, cgs). -/
def G_cgs : ℚ := 66743 / 10 ^ 12

/-- `Msun.cgs.value` (astropy solar mass in grams). -/
def Msun_cgs : ℚ := 1988409870698051 * 10 ^ 18

/-- `pc.cgs.value` (astropy parsec in centimetres). -/
def pc_cgs : ℚ := 30856775814913673 * 10 ^ 2

/-- `FlatLambdaCDM(H0, Om0).H(z).value` with the default zero radiation
density: `H0·√(Om0(1+z)³ + (1−Om0))` — the collaborator model of
`self.cosmo.H(self.z)` used by `calc_rvir` (halos.py line 96,
`_default_cosmo` line 30). -/
noncomputable def cosmoH (H0 Om0 z : ℝ) : ℝ :=
  H0 * Real.sqrt (Om0 * (1 + z) ^ 3 + (1 - Om0))

/-- `DarkMatterHalo.calc_rvir` (halos.py lines 73–99):
`(10**mvirial * (g_new_unit*1e-3) / (10*hz*1e-3)**2)**(1./3.)`. -/
noncomputable def calc_rvir (mvirial z H0 Om0 : ℝ) : ℝ :=
  (10 ^ mvirial * ((g_new_unit : ℝ) * (1/1000)) /
    (10 * cosmoH H0 Om0 z * (1/1000)) ^ 2) ^ ((1 : ℝ)/3)

/-- `NFW.calc_rho0` (halos.py lines 296–308):
`10**mvirial/(4π rvir³)·conc³ · 1/(log(1+conc) − conc/(1+conc))`. -/
noncomputable def nfw_calc_rho0 (mvirial conc z H0 Om0 : ℝ) : ℝ :=
  10 ^ mvirial / (4 * Real.pi * calc_rvir mvirial z H0 Om0 ^ 3) * conc ^ 3 *
    (1 / (Real.log (1 + conc) - conc / (1 + conc)))

/-- `NFW.enclosed_mass` (halos.py lines 270–293): `aa·bb` with
`aa = 4π·rho0·rvir³/conc³`, `bb = |log((rs+r)/rs) − r/(rs+r)|` and
`rs = rvir/conc`. -/
noncomputable def nfw_enclosed_mass (mvirial conc z H0 Om0 r : ℝ) : ℝ :=
  4 * Real.pi * nfw_calc_rho0 mvirial conc z H0 Om0 *
      calc_rvir mvirial z H0 Om0 ^ 3 / conc ^ 3 *
    |Real.log ((calc_rvir mvirial z H0 Om0 / conc + r) /
        (calc_rvir mvirial z H0 Om0 / conc)) -
      r / (calc_rvir mvirial z H0 Om0 / conc + r)|

/-- `MassModel.circular_velocity` (models.py lines 193–205), specialised
to the NFW enclosed mass:
`√(G.cgs·M(r)·Msun.cgs/(r·1000·pc.cgs))/1e5`. -/
noncomputable def nfw_circular_velocity (mvirial conc z H0 Om0 r : ℝ) : ℝ :=
  Real.sqrt ((G_cgs : ℝ) * nfw_enclosed_mass mvirial conc z H0 Om0 r *
    (Msun_cgs : ℝ) / (r * 1000 * (pc_cgs : ℝ))) / 100000

/-! ### Mass-profile enclosed masses (C5)

Embeddings of the `enclosed_mass` methods of the seven mass profiles.
The scipy special functions are modelled by their defining integrals:
`scp_spec.gammainc` (regularised lower incomplete gamma) by
`γ(s,x)/Γ(s)` and `scp_spec.hyp2f1` by the Euler integral
representation (valid in the parameter regime the code uses:
`c > b > 0`, argument `≤ 0`); `scp_spec.gammaincinv(2n, 0.5)` enters
`Sersic.enclosed_mass` only as the positive constant `bn`, kept as a
parameter. -/

/-- `scp_spec.gammainc` (regularised lower incomplete gamma). -/
noncomputable def gammainc (s x : ℝ) : ℝ :=
  (∫ t in (0:ℝ)..x, t ^ (s-1) * Real.exp (-t)) / Real.Gamma s

/-- `scp_spec.hyp2f1` via the Euler integral representation. -/
noncomputable def hyp2f1 (a b c z : ℝ) : ℝ :=
  Real.Gamma c / (Real.Gamma b * Real.Gamma (c - b)) *
    ∫ t in (0:ℝ)..1, t ^ (b-1) * (1-t) ^ (c-b-1) * (1 - z*t) ^ (-a)

/-- `Sersic.enclosed_mass` (models.py lines 238–249):
`10**total_mass · gammainc(2n, bn·(r/r_eff)**(1/n))` with
`bn = gammaincinv(2n, 0.5)`. -/
noncomputable def sersic_enclosed_mass (total_mass r_eff n bn r : ℝ) : ℝ :=
  10 ^ total_mass * gammainc (2*n) (bn * (r/r_eff) ^ ((1:ℝ)/n))

/-- `TwoPowerHalo.enclosed_mass` (halos.py lines 428–449). -/
noncomputable def twopower_enclosed_mass
    (mvirial conc alpha beta z H0 Om0 r : ℝ) : ℝ :=
  10 ^ mvirial * (r / calc_rvir mvirial z H0 Om0) ^ (3 - alpha) *
    (hyp2f1 (3-alpha) (beta-alpha) (4-alpha)
        (-r / (calc_rvir mvirial z H0 Om0 / conc)) /
      hyp2f1 (3-alpha) (beta-alpha) (4-alpha) (-conc))

/-- `Burkert.I` (halos.py lines 622–625). -/
noncomputable def burkert_I (rB r : ℝ) : ℝ :=
  1/4 * (Real.log (r^2 + rB^2) + 2 * Real.log (r + rB)
    - 2 * Real.arctan (r/rB) - 4 * Real.log rB)

/-- `Burkert.enclosed_mass` (halos.py lines 627–646). -/
noncomputable def burkert_enclosed_mass (mvirial rB z H0 Om0 r : ℝ) : ℝ :=
  10 ^ mvirial / burkert_I rB (calc_rvir mvirial z H0 Om0) * burkert_I rB r

/-- `Einasto.calc_rho0` (halos.py lines 905–922). -/
noncomputable def einasto_calc_rho0 (mvirial conc nE z H0 Om0 : ℝ) : ℝ :=
  10 ^ mvirial / (4 * Real.pi * nE *
    (calc_rvir mvirial z H0 Om0 / conc / (2*nE) ^ nE) ^ (3:ℕ) *
    (gammainc (3*nE) (2*nE * conc ^ ((1:ℝ)/nE)) * Real.Gamma (3*nE)))

/-- `Einasto.enclosed_mass` (halos.py lines 877–903). -/
noncomputable def einasto_enclosed_mass
    (mvirial conc nE z H0 Om0 r : ℝ) : ℝ :=
  4 * Real.pi * einasto_calc_rho0 mvirial conc nE z H0 Om0 *
    (calc_rvir mvirial z H0 Om0 / conc / (2*nE) ^ nE) ^ (3:ℕ) * nE *
    (gammainc (3*nE)
        (2*nE * (r / (calc_rvir mvirial z H0 Om0 / conc)) ^ ((1:ℝ)/nE)) *
      Real.Gamma (3*nE))

/-- `DekelZhao.calc_a_c` first component (halos.py lines 1180–1196):
`a = (1.5·s1 − 2(3.5−s1)·√0.01·√c2)/(1.5 − (3.5−s1)·√0.01·√c2)`. -/
noncomputable def dz_calc_a (s1 c2 : ℝ) : ℝ :=
  (3/2 * s1 - 2 * (7/2 - s1) * Real.sqrt (1/100) * Real.sqrt c2) /
    (3/2 - (7/2 - s1) * Real.sqrt (1/100) * Real.sqrt c2)

/-- `DekelZhao.calc_a_c` second component:
`c = ((s1−2)/((3.5−s1)·√0.01 − 1.5/√c2))²`. -/
noncomputable def dz_calc_c (s1 c2 : ℝ) : ℝ :=
  ((s1 - 2) / ((7/2 - s1) * Real.sqrt (1/100) - 3/2 / Real.sqrt c2)) ^ (2:ℕ)

/-- `DekelZhao.calc_mu` (halos.py lines 1225–1232). -/
noncomputable def dz_calc_mu (s1 c2 : ℝ) : ℝ :=
  dz_calc_c s1 c2 ^ (dz_calc_a s1 c2 - 3) *
    (1 + Real.sqrt (dz_calc_c s1 c2)) ^ (2 * (3 - dz_calc_a s1 c2))

/-- `DekelZhao.enclosed_mass` (halos.py lines 1156–1178):
`mu·mvir/(x^(a−3)·(1+√x)^(2(3−a)))` with `x = r/(rvir/c)`. -/
noncomputable def dz_enclosed_mass (mvirial s1 c2 z H0 Om0 r : ℝ) : ℝ :=
  dz_calc_mu s1 c2 * 10 ^ mvirial /
    ((r / (calc_rvir mvirial z H0 Om0 / dz_calc_c s1 c2)) ^
        (dz_calc_a s1 c2 - 3) *
      (1 + Real.sqrt (r / (calc_rvir mvirial z H0 Om0 / dz_calc_c s1 c2))) ^
        (2 * (3 - dz_calc_a s1 c2)))

/-- `LinearNFW.calc_rho0` (halos.py lines 1417–1431): as `NFW.calc_rho0`
but with the linear-units `mvirial` in place of `10**mvirial`. -/
noncomputable def linearnfw_calc_rho0 (mvirial conc z H0 Om0 : ℝ) : ℝ :=
  mvirial / (4 * Real.pi * calc_rvir mvirial z H0 Om0 ^ 3) * conc ^ 3 *
    (1 / (Real.log (1 + conc) - conc / (1 + conc)))

/-- `LinearNFW.enclosed_mass` (halos.py lines 1392–1415). -/
noncomputable def linearnfw_enclosed_mass
    (mvirial conc z H0 Om0 r : ℝ) : ℝ :=
  4 * Real.pi * linearnfw_calc_rho0 mvirial conc z H0 Om0 *
      calc_rvir mvirial z H0 Om0 ^ 3 / conc ^ 3 *
    |Real.log ((calc_rvir mvirial z H0 Om0 / conc + r) /
        (calc_rvir mvirial z H0 Om0 / conc)) -
      r / (calc_rvir mvirial z H0 Om0 / conc + r)|

/-- A concrete two-parameter component (`x` free, `y` fixed) used to
instantiate the `ModelSet` invariant theorems. -/
def wComp : Comp := ⟨"disk", ["x", "y"], [3, 4], [("x", false), ("y", true)]⟩

/-- The `ModelSet` state reached by adding `wComp` as a mass component
to the empty model. -/
def wState : ModelState := buildState [("disk", true)] [("disk", wComp)]

end Dysmalpy

namespace Dysmalpy

/-! ## Theorems for claims C8, C9, C10 -/

/-- **C8.** For every dark matter halo component (any circular-velocity
function `vcirc`) and every radius `r`: if the owning model's
`kinematic_options.adiabatic_contract` flag is enabled then
`velocity_profile` raises `NotImplementedError`, and if it is disabled
it returns `circular_velocity(r)`; the flag is never silently
ignored. -/
theorem velocity_profile_adiabatic_contract_flag
    (vcirc : ℝ → ℝ) (ac : Bool) (r : ℝ) :
    velocityProfile vcirc ac r =
      if ac then .error .notImplementedError else .ok (vcirc r) := by
  unfold velocityProfile
  cases ac <;> rfl

/-- **C9.** For all geometry parameters and input coordinates,
`inverse_coord_transform` applied to the output of `evaluate` with the
same parameters returns the original coordinates: the two transforms
are exact mutual inverses in real arithmetic. -/
theorem geometry_inverse_evaluate
    (inc pa xshift yshift x y z : ℝ) :
    (let g := geometryEvaluate inc pa xshift yshift x y z
     geometryInverse inc pa xshift yshift g.1 g.2.1 g.2.2) = (x, y, z) := by
  unfold geometryEvaluate geometryInverse
  have hc : Real.cos (Real.pi / 180 * inc) ^ 2
      + Real.sin (Real.pi / 180 * inc) ^ 2 = 1 := Real.cos_sq_add_sin_sq _
  have hp : Real.cos (Real.pi / 180 * (pa - 90)) ^ 2
      + Real.sin (Real.pi / 180 * (pa - 90)) ^ 2 = 1 := Real.cos_sq_add_sin_sq _
  set ci := Real.cos (Real.pi / 180 * inc) with hci
  set si := Real.sin (Real.pi / 180 * inc) with hsi
  set c := Real.cos (Real.pi / 180 * (pa - 90)) with hcp
  set s := Real.sin (Real.pi / 180 * (pa - 90)) with hsp
  simp only [Prod.mk.injEq]
  refine ⟨?_, ?_, ?_⟩
  · linear_combination ((x - xshift) * s ^ 2 - (y - yshift) * c * s) * hc
      + (x - xshift) * hp
  · linear_combination ((y - yshift) * c ^ 2 - (x - xshift) * c * s) * hc
      + (y - yshift) * hp
  · linear_combination z * hc

/-- **C10.** For every instance parameter assignment and every input,
`Geometry.coord_transform` fails with `AttributeError` before
returning: it reads the undefined attribute `vel_shit` (the declared
parameter is `vel_shift`), so this sky-to-galaxy entry point never
produces coordinates. -/
theorem geometry_coord_transform_always_attribute_error
    (vals : String → ℝ) (x y z : ℝ) :
    geometryCoordTransform vals x y z = .error .attributeError := by
  unfold geometryCoordTransform geometryGetattr
  rw [if_neg (by decide)]
  rfl

/-! ## Theorems for claims C2, C3, C4 -/

/-- Helper: a `raiseOr … .val` result is never a float sentinel. -/
theorem raiseOr_val_isSentinel (x : Except PyErr ℚ) :
    (raiseOr x .val).isSentinel = false := by
  cases x <;> rfl

/-- Helper: a `raiseOr … (fun _ => .err …)` result is never a float
sentinel. -/
theorem raiseOr_err_isSentinel (x : Except PyErr ℚ) (e : PyErr) :
    (raiseOr x (fun _ => .err e)).isSentinel = false := by
  cases x <;> rfl

/-- Helper: a `raiseOr … (fun _ => .err …)` result is always a raised
error. -/
theorem raiseOr_err_isError (x : Except PyErr ℚ) (e : PyErr) :
    (raiseOr x (fun _ => .err e)).isError = true := by
  cases x <;> rfl

/-- Helper: a `valueOr` result is never a float sentinel. -/
theorem valueOr_isSentinel (x : Except PyErr ℚ) (q : ℚ) :
    (valueOr x q).isSentinel = false := by
  cases x <;> rfl

/-- Helper: an outcome that is not a sentinel is not `+inf`. -/
theorem ne_posInf_of_not_sentinel {x : FdmOutcome}
    (h : x.isSentinel = false) : x ≠ FdmOutcome.posInf := by
  intro he
  subst he
  simp [FdmOutcome.isSentinel] at h

/-- **C2 counterexample.** The claim says `calc_alpha_from_fdm` returns
positive infinity at `fdm == 1`; instead the code proceeds into
root-finding (concretely, with unit baryon velocity and a
constant-velocity objective, it ends in a `ValueError` from `brentq`),
so the result is not `+inf`. -/
theorem calc_alpha_from_fdm_at_fdm_one_not_posInf :
    calc_alpha_from_fdm (fun _ _ _ => 0) (fun _ => 1) 1 1 ≠
      FdmOutcome.posInf := by
  unfold calc_alpha_from_fdm
  rw [if_neg (by norm_num)]
  exact ne_posInf_of_not_sentinel (raiseOr_val_isSentinel _)

/-- **C2 (amended).** The `calc_mvirial_from_fdm` inversion returns the
spec's edge-case sentinels directly, without root-finding; the
shape-parameter inversions (`calc_alpha_from_fdm`, `calc_rB_from_fdm`,
`calc_nEinasto_from_fdm`) return NaN only for `fdm` outside `[0, 1]`
and otherwise always proceed to root-finding (no sentinel), even at
`fdm ∈ {0, 1}`. -/
theorem fdm_inversion_edge_cases
    (broot : (ℚ → ℚ) → ℚ → ℚ → ℚ) (vcircSq : ℚ → ℚ)
    (fdm rFdm vbarSq : ℚ) :
    (∀ o, specFdmEdgeCases fdm rFdm = some o →
        calc_mvirial_from_fdm broot vcircSq fdm rFdm vbarSq = o)
    ∧ ((fdm > 1 ∨ fdm < 0) →
        calc_alpha_from_fdm broot vcircSq fdm vbarSq = .nan
        ∧ calc_rB_from_fdm broot vcircSq fdm vbarSq = .nan
        ∧ calc_nEinasto_from_fdm broot vcircSq fdm vbarSq = .nan)
    ∧ (¬(fdm > 1 ∨ fdm < 0) →
        (calc_alpha_from_fdm broot vcircSq fdm vbarSq).isSentinel = false
        ∧ (calc_rB_from_fdm broot vcircSq fdm vbarSq).isSentinel = false
        ∧ (calc_nEinasto_from_fdm broot vcircSq fdm vbarSq).isSentinel
            = false) := by
  refine ⟨?_, ?_, ?_⟩
  · intro o h
    unfold specFdmEdgeCases at h
    unfold calc_mvirial_from_fdm
    split_ifs at h ⊢ <;> try simp_all
    all_goals (exfalso; linarith)
  · intro h
    unfold calc_alpha_from_fdm calc_rB_from_fdm calc_nEinasto_from_fdm
    rw [if_pos h, if_pos h, if_pos h]
    exact ⟨rfl, rfl, rfl⟩
  · intro h
    unfold calc_alpha_from_fdm calc_rB_from_fdm calc_nEinasto_from_fdm
    rw [if_neg h, if_neg h, if_neg h]
    exact ⟨raiseOr_val_isSentinel _, valueOr_isSentinel _ _,
      raiseOr_err_isSentinel _ _⟩

/-- **C2 witness.** Concrete instances of each part of
`fdm_inversion_edge_cases`: `fdm = 1` gives `+inf` from the `mvirial`
inversion, `fdm = 2` gives NaN from the `alpha` inversion, and
`fdm = 1/2` gives a non-sentinel result from the `rB` inversion. -/
theorem fdm_inversion_edge_cases_witness :
    calc_mvirial_from_fdm (fun _ _ _ => 0) (fun _ => 1) 1 5 1 = .posInf
    ∧ calc_alpha_from_fdm (fun _ _ _ => 0) (fun _ => 1) 2 1 = .nan
    ∧ (calc_rB_from_fdm (fun _ _ _ => 0) (fun _ => 1) (1/2) 1).isSentinel
        = false := by
  refine ⟨?_, ?_, ?_⟩
  · exact (fdm_inversion_edge_cases (fun _ _ _ => 0) (fun _ => 1) 1 5 1).1
      FdmOutcome.posInf (by norm_num [specFdmEdgeCases])
  · exact ((fdm_inversion_edge_cases (fun _ _ _ => 0) (fun _ => 1) 2 1 1).2.1
      (by norm_num)).1
  · exact ((fdm_inversion_edge_cases (fun _ _ _ => 0) (fun _ => 1) (1/2) 1
      1).2.2 (by norm_num)).2.1

/-- **C3.** For every in-bounds dark-matter fraction, every baryonic
objective and every root result, `Einasto.calc_nEinasto_from_fdm`
raises an exception instead of returning the solved parameter: the
`brentq` result is assigned to `alpha` but the method returns the
unassigned local `nEinasto`, so the documented fdm round trip is
impossible for the Einasto halo. -/
theorem calc_nEinasto_from_fdm_always_raises
    (broot : (ℚ → ℚ) → ℚ → ℚ → ℚ) (vcircSq : ℚ → ℚ) (fdm vbarSq : ℚ)
    (h0 : 0 ≤ fdm) (h1 : fdm ≤ 1) :
    (calc_nEinasto_from_fdm broot vcircSq fdm vbarSq).isError = true := by
  unfold calc_nEinasto_from_fdm
  rw [if_neg (by push_neg; exact ⟨h1, h0⟩)]
  exact raiseOr_err_isError _ _

/-- **C3 witness.** The Einasto inversion at the failing input
`fdm = 1/2` (with a trivial baryon objective) raises. -/
theorem calc_nEinasto_from_fdm_always_raises_witness :
    (0:ℚ) ≤ 1/2 ∧ (1/2:ℚ) ≤ 1 ∧
    (calc_nEinasto_from_fdm (fun _ _ _ => 0) (fun _ => 0) (1/2) 1).isError
      = true :=
  ⟨by norm_num, by norm_num,
    calc_nEinasto_from_fdm_always_raises (fun _ _ _ => 0) (fun _ => 0)
      (1/2) 1 (by norm_num) (by norm_num)⟩

/-- **C4 counterexample.** With an objective that is negative on the
whole coarse grid (no sign change anywhere), `Burkert.calc_rB_from_fdm`
does not fail: it forces the bracket `(0, 5)` from the grid edges,
`brentq` rejects it, the exception is caught, and the midpoint `5/2` of
the unverified bracket is returned as a numeric estimate. -/
theorem calc_rB_from_fdm_unbracketed_returns_midpoint :
    calc_rB_from_fdm (fun _ _ _ => 0) (fun _ => 0) (1/2) 1 =
      FdmOutcome.val (5/2) := by
  have hf : fdmObjective (fun _ => 0) (1/2) 1 = fun _ => (-1 : ℚ) := by
    funext m
    norm_num [fdmObjective]
  have hfb : forcedBracket rBtestGrid (240, 245) (0, 5)
      (fun _ => (-1 : ℚ)) = (0, 5) := by
    unfold forcedBracket
    have hAll : rBtestGrid.filter (fun _ => decide ((-1:ℚ) < 0)) =
        rBtestGrid := by
      rw [List.filter_eq_self]
      intro m _
      norm_num
    have hNone : rBtestGrid.filter (fun _ => decide ((-1:ℚ) > 0)) = [] := by
      rw [List.filter_eq_nil_iff]
      intro m _
      norm_num
    rw [hAll, hNone]
    have hL : rBtestGrid.getLast? = some 245 := by norm_num [rBtestGrid]
    rw [hL]
    rfl
  unfold calc_rB_from_fdm
  rw [if_neg (by norm_num), hf, hfb]
  unfold scipyBrentq valueOr
  norm_num

/-- **C4 (amended).** When the coarse grid scan shows no sign change
(here: the objective is everywhere negative on the grid), the `mvirial`
inversion fails loudly with `ValueError`, but the Burkert `rB`
inversion instead returns the midpoint of a forced, unverified
bracket. -/
theorem fdm_inversion_unbracketed_policy
    (broot : (ℚ → ℚ) → ℚ → ℚ → ℚ) (vcircSq : ℚ → ℚ)
    (fdm rFdm vbarSq : ℚ)
    (hin : ¬(fdm > 1 ∨ fdm < 0)) (hne1 : ¬(fdm = 1)) (hne0 : ¬(fdm = 0))
    (heps : ¬(fdm < 1 / 10 ^ 10)) (hr : ¬(rFdm < 0)) :
    ((∀ m ∈ mtestGrid, vcircSq m - vbarSq / (1 / fdm - 1) < 0) →
        calc_mvirial_from_fdm broot vcircSq fdm rFdm vbarSq =
          .err .valueError)
    ∧ ((∀ m ∈ rBtestGrid, vcircSq m - vbarSq / (1 / fdm - 1) < 0) →
        calc_rB_from_fdm broot vcircSq fdm vbarSq = .val (5/2)) := by
  constructor
  · intro hneg
    unfold calc_mvirial_from_fdm
    rw [if_neg hin, if_neg hne1, if_neg hne0, if_neg heps, if_neg hr]
    have hsb : strictBracket mtestGrid (fdmObjective vcircSq fdm vbarSq) =
        .error .valueError := by
      unfold strictBracket
      have hpos : mtestGrid.filter
          (fun m => decide (fdmObjective vcircSq fdm vbarSq m > 0)) = [] := by
        rw [List.filter_eq_nil_iff]
        intro m hm
        simpa [fdmObjective] using not_lt.2 (le_of_lt (hneg m hm))
      rw [hpos]
      cases hL : (mtestGrid.filter
          (fun m => decide (fdmObjective vcircSq fdm vbarSq m < 0))).getLast?
        <;> rfl
    rw [hsb]
  · intro hneg
    unfold calc_rB_from_fdm
    rw [if_neg hin]
    have hfb : forcedBracket rBtestGrid (240, 245) (0, 5)
        (fdmObjective vcircSq fdm vbarSq) = (0, 5) := by
      unfold forcedBracket
      have hfull : rBtestGrid.filter
          (fun m => decide (fdmObjective vcircSq fdm vbarSq m < 0)) =
          rBtestGrid := by
        rw [List.filter_eq_self]
        intro m hm
        simpa [fdmObjective] using hneg m hm
      have hpos : rBtestGrid.filter
          (fun m => decide (fdmObjective vcircSq fdm vbarSq m > 0)) = [] := by
        rw [List.filter_eq_nil_iff]
        intro m hm
        simpa [fdmObjective] using not_lt.2 (le_of_lt (hneg m hm))
      rw [hfull, hpos]
      have hL : rBtestGrid.getLast? = some 245 := by norm_num [rBtestGrid]
      rw [hL]
      rfl
    have hf0 : fdmObjective vcircSq fdm vbarSq 0 < 0 := by
      simpa [fdmObjective] using hneg 0 (by norm_num [rBtestGrid])
    have hf5 : fdmObjective vcircSq fdm vbarSq 5 < 0 := by
      simpa [fdmObjective] using hneg 5 (by norm_num [rBtestGrid])
    rw [hfb]
    unfold scipyBrentq valueOr
    rw [if_pos (mul_pos_of_neg_of_neg hf0 hf5)]
    norm_num

/-! ### Association-list and index helper lemmas for the `ModelSet`
invariant -/

theorem alookup_none_of_not_mem {α : Type} (d : List (String × α))
    (k : String) (h : k ∉ d.map (·.1)) : alookup d k = none := by
  induction d with
  | nil => rfl
  | cons hd tl ih =>
      obtain ⟨k', v⟩ := hd
      simp only [List.map_cons, List.mem_cons] at h
      push_neg at h
      have hne : ¬(k' = k) := fun he => h.1 he.symm
      simp only [alookup, if_neg hne]
      exact ih h.2

theorem alookup_cons_self {α : Type} (k : String) (v : α)
    (tl : List (String × α)) : alookup ((k, v) :: tl) k = some v := by
  simp [alookup]

theorem dictSet_fresh {α : Type} (d : List (String × α)) (k : String)
    (v : α) (h : k ∉ d.map (·.1)) : dictSet d k v = d ++ [(k, v)] := by
  unfold dictSet
  rw [alookup_none_of_not_mem d k h]
  simp

theorem map_update_miss {α : Type} (k : String) (v : α)
    (tl : List (String × α)) (hk : k ∉ tl.map (·.1)) :
    tl.map (fun p => if p.1 = k then (k, v) else p) = tl := by
  induction tl with
  | nil => rfl
  | cons hd tl ih =>
      obtain ⟨k', c⟩ := hd
      simp only [List.map_cons, List.mem_cons] at hk
      push_neg at hk
      have hne : ¬(k' = k) := fun he => hk.1 he.symm
      simp only [List.map_cons, if_neg hne]
      rw [ih hk.2]

/-- Updating an existing key of an association list with nodup keys
rewrites exactly its (unique) entry, leaving the rest unchanged. -/
theorem dictSet_cons_hit {α : Type} (k : String) (c v : α)
    (tl : List (String × α)) (hk : k ∉ tl.map (·.1)) :
    dictSet ((k, c) :: tl) k v = (k, v) :: tl := by
  unfold dictSet
  rw [alookup_cons_self]
  simp only [Option.isSome_some, if_pos, List.map_cons, if_pos rfl]
  rw [map_update_miss k v tl hk]

theorem dictSet_cons_miss {α : Type} (k k' : String) (c v : α)
    (tl : List (String × α)) (hk : k' ≠ k) :
    dictSet ((k', c) :: tl) k v = (k', c) :: dictSet tl k v := by
  unfold dictSet
  simp only [alookup, if_neg hk]
  by_cases h : (alookup tl k).isSome
  · rw [if_pos h, if_pos h]
    simp [hk]
  · rw [if_neg h, if_neg h]
    simp

theorem pyIndex_lt_length (names : List String) (p : String) (i : ℕ)
    (h : pyIndex names p = some i) : i < names.length := by
  induction names generalizing i with
  | nil => simp [pyIndex] at h
  | cons q rest ih =>
      unfold pyIndex at h
      by_cases hq : q = p
      · rw [if_pos hq] at h
        injection h with h
        simp only [List.length_cons]
        omega
      · rw [if_neg hq] at h
        match hrec : pyIndex rest p with
        | none => rw [hrec] at h; simp at h
        | some j =>
            rw [hrec] at h
            simp only [Option.map_some'] at h
            injection h with h
            have := ih j hrec
            simp only [List.length_cons]
            omega

theorem pyIndex_get (names : List String) (p : String) (i : ℕ)
    (h : pyIndex names p = some i) : names.get? i = some p := by
  induction names generalizing i with
  | nil => simp [pyIndex] at h
  | cons q rest ih =>
      unfold pyIndex at h
      by_cases hq : q = p
      · rw [if_pos hq] at h
        injection h with h
        subst h
        simp [hq]
      · rw [if_neg hq] at h
        match hrec : pyIndex rest p with
        | none => rw [hrec] at h; simp at h
        | some j =>
            rw [hrec] at h
            simp only [Option.map_some'] at h
            injection h with h
            subst h
            simpa using ih j hrec

theorem list_set_self {α : Type} (l : List α) (i : ℕ) (v : α)
    (h : l.get? i = some v) : l.set i v = l := by
  induction l generalizing i with
  | nil => simp at h
  | cons hd tl ih =>
      cases i with
      | zero =>
          simp only [List.get?] at h
          injection h with h
          simp [h]
      | succ j =>
          simp only [List.get?] at h
          simp [ih j h]

theorem set_append_add {α : Type} (l₁ l₂ : List α) (i : ℕ) (v : α) :
    (l₁ ++ l₂).set (l₁.length + i) v = l₁ ++ l₂.set i v := by
  induction l₁ with
  | nil => simp
  | cons a t ih =>
      simp only [List.cons_append, List.length_cons]
      rw [Nat.succ_add]
      simp [ih]

theorem alookup_buildKeyDict (names : List String) (p : String) (b : ℕ) :
    alookup (buildKeyDict names b) p =
      (pyIndex names p).map (fun i => b + i) := by
  induction names generalizing b with
  | nil => rfl
  | cons q rest ih =>
      unfold buildKeyDict pyIndex
      by_cases hq : q = p
      · simp [alookup, hq]
      · simp only [alookup, if_neg hq, ih (b + 1)]
        cases pyIndex rest p with
        | none => rfl
        | some j =>
            simp only [Option.map_some']
            congr 1
            omega

theorem alookup_buildFreeKeyDict_fixed (names : List String) (p : String)
    (fx : String → Bool) (b : ℤ) (hmem : p ∈ names) (hfx : fx p = true) :
    alookup (buildFreeKeyDict names fx b) p = some (-99) := by
  induction names generalizing b with
  | nil => cases hmem
  | cons q rest ih =>
      unfold buildFreeKeyDict
      by_cases hq : q = p
      · subst hq
        rw [if_pos hfx]
        exact alookup_cons_self _ _ _
      · have hmem' : p ∈ rest := by
          rcases List.mem_cons.1 hmem with h | h
          · exact absurd h.symm hq
          · exact h
        by_cases hfq : fx q
        · rw [if_pos hfq]
          simp only [alookup, if_neg hq]
          exact ih b hmem'
        · rw [if_neg hfq]
          simp only [alookup, if_neg hq]
          exact ih (b + 1) hmem'

theorem alookup_buildFreeKeyDict_free (names : List String) (p : String)
    (fx : String → Bool) (b : ℤ) (hmem : p ∈ names) (hfx : fx p = false) :
    alookup (buildFreeKeyDict names fx b) p =
      some (b + freeRank names fx p) := by
  induction names generalizing b with
  | nil => cases hmem
  | cons q rest ih =>
      unfold buildFreeKeyDict
      by_cases hq : q = p
      · subst hq
        rw [hfx]
        simp only [Bool.false_eq_true, if_false]
        rw [alookup_cons_self]
        unfold freeRank
        rw [if_pos rfl]
        simp
      · have hmem' : p ∈ rest := by
          rcases List.mem_cons.1 hmem with h | h
          · exact absurd h.symm hq
          · exact h
        unfold freeRank
        rw [if_neg hq]
        by_cases hfq : fx q
        · rw [if_pos hfq, if_pos hfq]
          simp only [alookup, if_neg hq]
          rw [ih b hmem']
          congr 1
          omega
        · rw [if_neg hfq, if_neg hfq]
          simp only [alookup, if_neg hq]
          rw [ih (b + 1) hmem']
          congr 1
          push_cast
          omega

theorem buildFreeKeyDict_keys (names : List String) (fx : String → Bool)
    (b : ℤ) : (buildFreeKeyDict names fx b).map (·.1) = names := by
  induction names generalizing b with
  | nil => rfl
  | cons q rest ih =>
      unfold buildFreeKeyDict
      by_cases hfq : fx q
      · rw [if_pos hfq]
        simp [ih]
      · rw [if_neg hfq]
        simp [ih]

theorem buildFreeKeyDict_mem_facts (names : List String)
    (fx : String → Bool) (b : ℤ) :
    ∀ pz ∈ buildFreeKeyDict names fx b,
      pz.1 ∈ names ∧
        (pz.2 = -99 ∨ (b ≤ pz.2 ∧ pz.2 < b + freeCount names fx)) := by
  induction names generalizing b with
  | nil => intro pz h; cases h
  | cons q rest ih =>
      have hcount : ∀ br : Bool, freeCount (q :: rest) fx =
          (if fx q then 0 else 1) + freeCount rest fx := by
        intro br
        unfold freeCount
        by_cases hfq : fx q <;> simp [List.filter_cons, hfq, freeCount] <;>
          omega
      intro pz hpz
      unfold buildFreeKeyDict at hpz
      by_cases hfq : fx q
      · rw [if_pos hfq] at hpz
        rcases List.mem_cons.1 hpz with h | h
        · subst h
          exact ⟨List.mem_cons_self _ _, Or.inl rfl⟩
        · obtain ⟨h1, h2⟩ := ih b pz h
          refine ⟨List.mem_cons_of_mem _ h1, ?_⟩
          rcases h2 with h2 | h2
          · exact Or.inl h2
          · refine Or.inr ⟨h2.1, ?_⟩
            rw [hcount true, if_pos hfq]
            push_cast
            omega
      · rw [if_neg hfq] at hpz
        rcases List.mem_cons.1 hpz with h | h
        · subst h
          refine ⟨List.mem_cons_self _ _, Or.inr ⟨le_refl _, ?_⟩⟩
          rw [hcount false, if_neg hfq]
          have : 1 ≤ freeCount rest fx + 1 := by omega
          push_cast
          omega
        · obtain ⟨h1, h2⟩ := ih (b + 1) pz h
          refine ⟨List.mem_cons_of_mem _ h1, ?_⟩
          rcases h2 with h2 | h2
          · exact Or.inl h2
          · refine Or.inr ⟨by omega, ?_⟩
            rw [hcount false, if_neg hfq]
            push_cast
            push_cast at h2
            omega

theorem alookup_of_mem_nodup {α : Type} (d : List (String × α))
    (hnd : (d.map (·.1)).Nodup) :
    ∀ pz ∈ d, alookup d pz.1 = some pz.2 := by
  induction d with
  | nil => intro pz h; cases h
  | cons hd tl ih =>
      obtain ⟨k, v⟩ := hd
      simp only [List.map_cons, List.nodup_cons] at hnd
      intro pz hpz
      rcases List.mem_cons.1 hpz with h | h
      · subst h
        exact alookup_cons_self _ _ _
      · have hne : k ≠ pz.1 := by
          intro he
          exact hnd.1 (he ▸ List.mem_map_of_mem (·.1) h)
        simp only [alookup, if_neg hne]
        exact ih hnd.2 pz h

theorem fvOf_length (names : List String) (values : List ℚ)
    (fx : String → Bool) (hlen : values.length = names.length) :
    (fvOf names values fx).length = freeCount names fx := by
  induction names generalizing values with
  | nil => cases values <;> simp_all [fvOf, freeCount]
  | cons q rest ih =>
      cases values with
      | nil => simp at hlen
      | cons v vrest =>
          simp only [List.length_cons, Nat.succ_inj'] at hlen
          unfold fvOf freeCount
          simp only [List.zip_cons_cons, List.filter_cons]
          by_cases hfq : fx q
          · simp only [hfq]
            simpa [fvOf, freeCount] using ih vrest hlen
          · simp only [hfq]
            simpa [fvOf, freeCount] using ih vrest hlen

theorem fvOf_get (names : List String) (values : List ℚ)
    (fx : String → Bool) (p : String) (i : ℕ)
    (hi : pyIndex names p = some i) (hfx : fx p = false) :
    (fvOf names values fx).get? (freeRank names fx p) = values.get? i := by
  induction names generalizing values i with
  | nil => simp [pyIndex] at hi
  | cons q rest ih =>
      cases values with
      | nil =>
          simp [fvOf]
      | cons v vrest =>
          unfold pyIndex at hi
          by_cases hq : q = p
          · rw [if_pos hq] at hi
            injection hi with hi
            subst hi
            unfold fvOf freeRank
            rw [if_pos hq]
            subst hq
            simp [List.filter_cons, hfx]
          · rw [if_neg hq] at hi
            match hrec : pyIndex rest p with
            | none => rw [hrec] at hi; simp at hi
            | some j =>
                rw [hrec] at hi
                simp only [Option.map_some'] at hi
                injection hi with hi
                subst hi
                unfold fvOf freeRank
                rw [if_neg hq]
                simp only [List.zip_cons_cons, List.filter_cons]
                by_cases hfq : fx q
                · simp only [hfq, if_true]
                  simpa [fvOf] using ih vrest j hrec
                · have hfq' : fx q = false := by simpa using hfq
                  simp only [hfq', Bool.false_eq_true, if_false, decide_True,
                    if_true, List.map_cons]
                  rw [Nat.add_comm 1 (freeRank rest fx p), List.get?_cons_succ]
                  simpa [fvOf] using ih vrest j hrec

theorem fvOf_set_free (names : List String) (values : List ℚ)
    (fx : String → Bool) (p : String) (i : ℕ) (v : ℚ)
    (hi : pyIndex names p = some i) (hfx : fx p = false) :
    fvOf names (values.set i v) fx =
      (fvOf names values fx).set (freeRank names fx p) v := by
  induction names generalizing values i with
  | nil => simp [pyIndex] at hi
  | cons q rest ih =>
      cases values with
      | nil =>
          simp [fvOf]
      | cons v₀ vrest =>
          unfold pyIndex at hi
          by_cases hq : q = p
          · rw [if_pos hq] at hi
            injection hi with hi
            subst hi
            unfold fvOf freeRank
            rw [if_pos hq]
            subst hq
            simp [List.filter_cons, hfx]
          · rw [if_neg hq] at hi
            match hrec : pyIndex rest p with
            | none => rw [hrec] at hi; simp at hi
            | some j =>
                rw [hrec] at hi
                simp only [Option.map_some'] at hi
                injection hi with hi
                subst hi
                unfold fvOf freeRank
                rw [if_neg hq]
                simp only [List.set_cons_succ, List.zip_cons_cons,
                  List.filter_cons]
                by_cases hfq : fx q
                · simp only [hfq, if_true]
                  simpa [fvOf] using ih vrest j hrec
                · have hfq' : fx q = false := by simpa using hfq
                  simp only [hfq', Bool.false_eq_true, if_false, decide_True,
                    if_true, List.map_cons]
                  rw [Nat.add_comm 1 (freeRank rest fx p), List.set_cons_succ]
                  simpa [fvOf] using ih vrest j hrec

theorem fvOf_set_fixed (names : List String) (values : List ℚ)
    (fx : String → Bool) (p : String) (i : ℕ) (v : ℚ)
    (hi : pyIndex names p = some i) (hfx : fx p = true) :
    fvOf names (values.set i v) fx = fvOf names values fx := by
  induction names generalizing values i with
  | nil => simp [pyIndex] at hi
  | cons q rest ih =>
      cases values with
      | nil => simp [fvOf]
      | cons v₀ vrest =>
          unfold pyIndex at hi
          by_cases hq : q = p
          · rw [if_pos hq] at hi
            injection hi with hi
            subst hi
            unfold fvOf
            subst hq
            simp [List.filter_cons, hfx]
          · rw [if_neg hq] at hi
            match hrec : pyIndex rest p with
            | none => rw [hrec] at hi; simp at hi
            | some j =>
                rw [hrec] at hi
                simp only [Option.map_some'] at hi
                injection hi with hi
                subst hi
                unfold fvOf
                simp only [List.set_cons_succ, List.zip_cons_cons,
                  List.filter_cons]
                by_cases hfq : fx q
                · simp only [hfq, if_true]
                  simpa [fvOf] using ih vrest j hrec
                · simp only [hfq]
                  simpa [fvOf] using ih vrest j hrec

theorem freeRank_lt_freeCount (names : List String) (fx : String → Bool)
    (p : String) (hmem : p ∈ names) (hfx : fx p = false) :
    freeRank names fx p < freeCount names fx := by
  induction names with
  | nil => cases hmem
  | cons q rest ih =>
      unfold freeRank freeCount
      simp only [List.filter_cons]
      by_cases hq : q = p
      · rw [if_pos hq]
        subst hq
        simp [hfx]
      · rw [if_neg hq]
        have hmem' : p ∈ rest := by
          rcases List.mem_cons.1 hmem with h | h
          · exact absurd h.symm hq
          · exact h
        have := ih hmem'
        by_cases hfq : fx q <;> simp_all [freeCount] <;> omega

theorem joinValues_cons (n : String) (c : Comp)
    (rest : List (String × Comp)) :
    joinValues ((n, c) :: rest) = c.values ++ joinValues rest := by
  simp [joinValues]

theorem joinFree_cons (n : String) (c : Comp)
    (rest : List (String × Comp)) :
    joinFree ((n, c) :: rest) = freeValues c ++ joinFree rest := by
  simp [joinFree]

theorem freeValues_eq_fvOf (c : Comp) :
    freeValues c = fvOf c.paramNames c.values c.isFixed := rfl

/-- Full-vector synchronisation: for a registered component and one of
its parameters, `_param_keys` points into `parameters` at the
component's value, and writing there rewrites exactly that value. -/
theorem comps_value_sync (comps : List (String × Comp)) (b : ℕ)
    (hwf : ∀ nc ∈ comps, nc.2.WF)
    (hnd : (comps.map (·.1)).Nodup)
    (m : String) (c : Comp) (hc : alookup comps m = some c)
    (p : String) (i : ℕ) (hi : pyIndex c.paramNames p = some i) :
    ∃ off : ℕ,
      alookup (specKeys comps b) m =
        some (buildKeyDict c.paramNames (b + off)) ∧
      off + i < (joinValues comps).length ∧
      (joinValues comps).get? (off + i) = c.values.get? i ∧
      ∀ v : ℚ, (joinValues comps).set (off + i) v =
        joinValues (dictSet comps m { c with values := c.values.set i v }) := by
  induction comps generalizing b with
  | nil => simp [alookup] at hc
  | cons hd rest ih =>
      obtain ⟨n₀, c₀⟩ := hd
      simp only [List.map_cons, List.nodup_cons] at hnd
      have hwf₀ : c₀.WF := hwf (n₀, c₀) (List.mem_cons_self _ _)
      have hwfr : ∀ nc ∈ rest, nc.2.WF :=
        fun nc h => hwf nc (List.mem_cons_of_mem _ h)
      have hlen₀ : c₀.values.length = c₀.paramNames.length := hwf₀.2.1
      by_cases hn : n₀ = m
      · subst hn
        rw [alookup_cons_self] at hc
        injection hc with hc
        subst hc
        have hlt : i < c₀.values.length := by
          rw [hlen₀]
          exact pyIndex_lt_length _ _ _ hi
        refine ⟨0, ?_, ?_, ?_, ?_⟩
        · unfold specKeys
          rw [alookup_cons_self, Nat.add_zero]
        · rw [joinValues_cons]
          simp only [List.length_append, Nat.zero_add]
          omega
        · rw [joinValues_cons, Nat.zero_add, List.get?_append hlt]
        · intro v
          rw [joinValues_cons, Nat.zero_add, List.set_append_left _ _ hlt,
            dictSet_cons_hit _ _ _ _ hnd.1, joinValues_cons]
      · simp only [alookup, if_neg hn] at hc
        obtain ⟨off', h1, h2, h3, h4⟩ :=
          ih (b + c₀.paramNames.length) hwfr hnd.2 hc
        refine ⟨c₀.values.length + off', ?_, ?_, ?_, ?_⟩
        · unfold specKeys
          simp only [alookup, if_neg hn]
          rw [h1, hlen₀]
          congr 2
          omega
        · rw [joinValues_cons]
          simp only [List.length_append]
          omega
        · rw [joinValues_cons]
          have : c₀.values.length + off' + i =
              c₀.values.length + (off' + i) := by omega
          rw [this, List.get?_append_right (by omega)]
          simpa using h3
        · intro v
          rw [joinValues_cons]
          have harr : c₀.values.length + off' + i =
              c₀.values.length + (off' + i) := by omega
          rw [harr, set_append_add, h4 v, dictSet_cons_miss _ _ _ _ _ hn,
            joinValues_cons]

/-- Free-vector synchronisation for a currently non-fixed parameter:
`_param_free_keys` points into `parameters_free` at the component's
value, and writing there rewrites exactly that value. -/
theorem comps_free_sync (comps : List (String × Comp)) (fb : ℤ)
    (hwf : ∀ nc ∈ comps, nc.2.WF)
    (hnd : (comps.map (·.1)).Nodup)
    (m : String) (c : Comp) (hc : alookup comps m = some c)
    (p : String) (i : ℕ) (hi : pyIndex c.paramNames p = some i)
    (hfx : c.isFixed p = false) :
    ∃ off : ℕ,
      alookup (specFreeKeys comps fb) m =
        some (buildFreeKeyDict c.paramNames c.isFixed (fb + off)) ∧
      off + freeRank c.paramNames c.isFixed p < (joinFree comps).length ∧
      (joinFree comps).get? (off + freeRank c.paramNames c.isFixed p) =
        c.values.get? i ∧
      ∀ v : ℚ,
        (joinFree comps).set (off + freeRank c.paramNames c.isFixed p) v =
        joinFree (dictSet comps m { c with values := c.values.set i v }) := by
  induction comps generalizing fb with
  | nil => simp [alookup] at hc
  | cons hd rest ih =>
      obtain ⟨n₀, c₀⟩ := hd
      simp only [List.map_cons, List.nodup_cons] at hnd
      have hwf₀ : c₀.WF := hwf (n₀, c₀) (List.mem_cons_self _ _)
      have hwfr : ∀ nc ∈ rest, nc.2.WF :=
        fun nc h => hwf nc (List.mem_cons_of_mem _ h)
      have hlen₀ : c₀.values.length = c₀.paramNames.length := hwf₀.2.1
      by_cases hn : n₀ = m
      · subst hn
        rw [alookup_cons_self] at hc
        injection hc with hc
        subst hc
        have hmem : p ∈ c₀.paramNames :=
          List.get?_mem (pyIndex_get _ _ _ hi)
        have hrank : freeRank c₀.paramNames c₀.isFixed p <
            (freeValues c₀).length := by
          rw [freeValues_eq_fvOf, fvOf_length _ _ _ hlen₀]
          exact freeRank_lt_freeCount _ _ _ hmem hfx
        refine ⟨0, ?_, ?_, ?_, ?_⟩
        · unfold specFreeKeys
          rw [alookup_cons_self]
          norm_num
        · rw [joinFree_cons]
          simp only [List.length_append, Nat.zero_add]
          omega
        · rw [joinFree_cons, Nat.zero_add, List.get?_append hrank,
            freeValues_eq_fvOf]
          exact fvOf_get _ _ _ _ _ hi hfx
        · intro v
          rw [joinFree_cons, Nat.zero_add, List.set_append_left _ _ hrank,
            dictSet_cons_hit _ _ _ _ hnd.1, joinFree_cons]
          congr 1
          rw [freeValues_eq_fvOf, freeValues_eq_fvOf]
          exact (fvOf_set_free _ _ _ _ _ _ hi hfx).symm
      · simp only [alookup, if_neg hn] at hc
        obtain ⟨off', h1, h2, h3, h4⟩ :=
          ih (fb + (freeValues c₀).length) hwfr hnd.2 hc
        refine ⟨(freeValues c₀).length + off', ?_, ?_, ?_, ?_⟩
        · unfold specFreeKeys
          simp only [alookup, if_neg hn]
          rw [h1]
          congr 2
          push_cast
          omega
        · rw [joinFree_cons]
          simp only [List.length_append]
          omega
        · rw [joinFree_cons]
          have : (freeValues c₀).length + off' +
              freeRank c.paramNames c.isFixed p =
              (freeValues c₀).length +
                (off' + freeRank c.paramNames c.isFixed p) := by omega
          rw [this, List.get?_append_right (by omega)]
          simpa using h3
        · intro v
          rw [joinFree_cons]
          have harr : (freeValues c₀).length + off' +
              freeRank c.paramNames c.isFixed p =
              (freeValues c₀).length +
                (off' + freeRank c.paramNames c.isFixed p) := by omega
          rw [harr, set_append_add, h4 v, dictSet_cons_miss _ _ _ _ _ hn,
            joinFree_cons]

/-- Writing a currently fixed parameter leaves the free vector's
contents unchanged. -/
theorem comps_free_fixed (comps : List (String × Comp))
    (hnd : (comps.map (·.1)).Nodup)
    (m : String) (c : Comp) (hc : alookup comps m = some c)
    (p : String) (i : ℕ) (hi : pyIndex c.paramNames p = some i)
    (hfx : c.isFixed p = true) (v : ℚ) :
    joinFree (dictSet comps m { c with values := c.values.set i v }) =
      joinFree comps := by
  induction comps with
  | nil => simp [alookup] at hc
  | cons hd rest ih =>
      obtain ⟨n₀, c₀⟩ := hd
      simp only [List.map_cons, List.nodup_cons] at hnd
      by_cases hn : n₀ = m
      · subst hn
        rw [alookup_cons_self] at hc
        injection hc with hc
        subst hc
        rw [dictSet_cons_hit _ _ _ _ hnd.1, joinFree_cons, joinFree_cons]
        congr 1
        rw [freeValues_eq_fvOf, freeValues_eq_fvOf]
        exact fvOf_set_fixed _ _ _ _ _ _ hi hfx
      · simp only [alookup, if_neg hn] at hc
        rw [dictSet_cons_miss _ _ _ _ _ hn, joinFree_cons, joinFree_cons,
          ih hnd.2 hc]

theorem specKeys_dictSet_values (comps : List (String × Comp)) (b : ℕ)
    (m : String) (c c' : Comp)
    (hnd : (comps.map (·.1)).Nodup) (hc : alookup comps m = some c)
    (hname : c.paramNames = c'.paramNames) :
    specKeys (dictSet comps m c') b = specKeys comps b := by
  induction comps generalizing b with
  | nil => simp [alookup] at hc
  | cons hd rest ih =>
      obtain ⟨n₀, c₀⟩ := hd
      simp only [List.map_cons, List.nodup_cons] at hnd
      by_cases hn : n₀ = m
      · subst hn
        rw [alookup_cons_self] at hc
        injection hc with hc
        subst hc
        rw [dictSet_cons_hit _ _ _ _ hnd.1]
        unfold specKeys
        rw [hname]
      · rw [dictSet_cons_miss _ _ _ _ _ hn]
        unfold specKeys
        simp only [alookup, if_neg hn] at hc
        rw [ih _ hnd.2 hc]

theorem specFreeKeys_dictSet_values (comps : List (String × Comp)) (b : ℤ)
    (m : String) (c c' : Comp)
    (hnd : (comps.map (·.1)).Nodup) (hc : alookup comps m = some c)
    (hname : c.paramNames = c'.paramNames)
    (hfix : c.isFixed = c'.isFixed)
    (hflen : (freeValues c).length = (freeValues c').length) :
    specFreeKeys (dictSet comps m c') b = specFreeKeys comps b := by
  induction comps generalizing b with
  | nil => simp [alookup] at hc
  | cons hd rest ih =>
      obtain ⟨n₀, c₀⟩ := hd
      simp only [List.map_cons, List.nodup_cons] at hnd
      by_cases hn : n₀ = m
      · subst hn
        rw [alookup_cons_self] at hc
        injection hc with hc
        subst hc
        rw [dictSet_cons_hit _ _ _ _ hnd.1]
        unfold specFreeKeys
        rw [hname, hfix, hflen]
      · rw [dictSet_cons_miss _ _ _ _ _ hn]
        unfold specFreeKeys
        simp only [alookup, if_neg hn] at hc
        rw [ih _ hnd.2 hc]

theorem fixedD_dictSet_values (comps : List (String × Comp))
    (m : String) (c c' : Comp)
    (hnd : (comps.map (·.1)).Nodup) (hc : alookup comps m = some c)
    (hfix : c.fixed = c'.fixed) :
    (dictSet comps m c').map (fun nc => (nc.1, nc.2.fixed)) =
      comps.map (fun nc => (nc.1, nc.2.fixed)) := by
  induction comps with
  | nil => simp [alookup] at hc
  | cons hd rest ih =>
      obtain ⟨n₀, c₀⟩ := hd
      simp only [List.map_cons, List.nodup_cons] at hnd
      by_cases hn : n₀ = m
      · subst hn
        rw [alookup_cons_self] at hc
        injection hc with hc
        subst hc
        rw [dictSet_cons_hit _ _ _ _ hnd.1]
        simp only [List.map_cons]
        rw [hfix]
      · rw [dictSet_cons_miss _ _ _ _ _ hn]
        simp only [List.map_cons]
        simp only [alookup, if_neg hn] at hc
        rw [ih hnd.2 hc]

theorem dictSet_keys_of_mem {α : Type} (d : List (String × α)) (k : String)
    (v : α) (h : (alookup d k).isSome) :
    (dictSet d k v).map (·.1) = d.map (·.1) := by
  unfold dictSet
  rw [if_pos h]
  rw [List.map_map]
  apply List.map_congr_left
  intro p _
  by_cases hp : p.1 = k
  · simp [hp]
  · simp [hp]

theorem dictSet_mem_lookup {α : Type} (d : List (String × α)) (k : String)
    (v : α) (h : (alookup d k).isSome) :
    alookup (dictSet d k v) k = some v := by
  induction d with
  | nil => simp [alookup] at h
  | cons hd tl ih =>
      obtain ⟨k', w⟩ := hd
      by_cases hk : k' = k
      · subst hk
        unfold dictSet
        rw [alookup_cons_self]
        simp only [Option.isSome_some, if_true, List.map_cons, if_pos rfl]
        exact alookup_cons_self _ _ _
      · rw [dictSet_cons_miss _ _ _ _ _ hk]
        simp only [alookup, if_neg hk]
        apply ih
        simpa [alookup, if_neg hk] using h

theorem specKeys_keys (comps : List (String × Comp)) (b : ℕ) :
    (specKeys comps b).map (·.1) = comps.map (·.1) := by
  induction comps generalizing b with
  | nil => rfl
  | cons hd rest ih =>
      obtain ⟨n₀, c₀⟩ := hd
      unfold specKeys
      simp only [List.map_cons]
      rw [ih]

theorem specFreeKeys_keys (comps : List (String × Comp)) (b : ℤ) :
    (specFreeKeys comps b).map (·.1) = comps.map (·.1) := by
  induction comps generalizing b with
  | nil => rfl
  | cons hd rest ih =>
      obtain ⟨n₀, c₀⟩ := hd
      unfold specFreeKeys
      simp only [List.map_cons]
      rw [ih]

theorem joinValues_length_eq (comps : List (String × Comp))
    (hwf : ∀ nc ∈ comps, nc.2.WF) :
    (joinValues comps).length =
      (comps.map (fun nc => nc.2.paramNames.length)).sum := by
  induction comps with
  | nil => rfl
  | cons hd rest ih =>
      obtain ⟨n₀, c₀⟩ := hd
      rw [joinValues_cons]
      simp only [List.length_append, List.map_cons, List.sum_cons]
      rw [ih (fun nc h => hwf nc (List.mem_cons_of_mem _ h)),
        (hwf (n₀, c₀) (List.mem_cons_self _ _)).2.1]

theorem joinFree_length_sum (comps : List (String × Comp)) :
    (joinFree comps).length =
      (comps.map (fun nc => (freeValues nc.2).length)).sum := by
  induction comps with
  | nil => rfl
  | cons hd rest ih =>
      obtain ⟨n₀, c₀⟩ := hd
      rw [joinFree_cons]
      simp only [List.length_append, List.map_cons, List.sum_cons]
      rw [ih]

theorem specKeys_append (comps : List (String × Comp)) (n : String)
    (c : Comp) (b : ℕ) :
    specKeys (comps ++ [(n, c)]) b =
      specKeys comps b ++
        [(n, buildKeyDict c.paramNames
          (b + (comps.map (fun nc => nc.2.paramNames.length)).sum))] := by
  induction comps generalizing b with
  | nil => simp [specKeys]
  | cons hd rest ih =>
      obtain ⟨n₀, c₀⟩ := hd
      simp only [List.cons_append]
      unfold specKeys
      rw [ih]
      simp only [List.map_cons, List.sum_cons, List.cons_append]
      rw [Nat.add_assoc]

theorem specFreeKeys_append (comps : List (String × Comp)) (n : String)
    (c : Comp) (b : ℤ) :
    specFreeKeys (comps ++ [(n, c)]) b =
      specFreeKeys comps b ++
        [(n, buildFreeKeyDict c.paramNames c.isFixed
          (b + ((comps.map (fun nc => (freeValues nc.2).length)).sum : ℕ)))] := by
  induction comps generalizing b with
  | nil => simp [specFreeKeys]
  | cons hd rest ih =>
      obtain ⟨n₀, c₀⟩ := hd
      simp only [List.cons_append]
      unfold specFreeKeys
      rw [ih]
      simp only [List.map_cons, List.sum_cons, List.cons_append]
      congr 2
      push_cast
      ring

/-- `_add_comp` on a canonical state with a fresh, wellformed component
appends it, producing the canonical state of the extended list. -/
theorem addComp_spec (mf : List (String × Bool))
    (comps : List (String × Comp)) (c : Comp)
    (hwf : ∀ nc ∈ comps, nc.2.WF) (hcwf : c.WF)
    (hfresh : c.name ∉ comps.map (·.1)) :
    addComp (buildState mf comps) c =
      buildState mf (comps ++ [(c.name, c)]) := by
  have hne : (comps ++ [(c.name, c)]).isEmpty = false := by
    cases comps <;> rfl
  have hjv : joinValues (comps ++ [(c.name, c)]) =
      joinValues comps ++ c.values := by
    simp [joinValues]
  have hjf : joinFree (comps ++ [(c.name, c)]) =
      joinFree comps ++ freeValues c := by
    simp [joinFree]
  have hsp : startPars (buildState mf comps) = joinValues comps := by
    unfold startPars buildState
    by_cases hemp : comps.isEmpty = true
    · rw [List.isEmpty_iff] at hemp
      subst hemp
      simp [joinValues]
    · rw [if_neg hemp]
  have hsf : startFree (buildState mf comps) = joinFree comps := by
    unfold startFree buildState
    by_cases hemp : comps.isEmpty = true
    · rw [List.isEmpty_iff] at hemp
      subst hemp
      simp [joinFree]
    · rw [if_neg hemp, if_neg hemp]
      rfl
  unfold addComp
  rw [hsp, hsf]
  unfold buildState
  rw [ModelState.mk.injEq]
  refine ⟨rfl, ?_, ?_, ?_, ?_, ?_, ?_, ?_, ?_⟩
  · exact dictSet_fresh _ _ _ hfresh
  · rw [hne]
    simp only [Bool.false_eq_true, if_false]
    rw [hjv]
  · rw [hne]
    simp only [Bool.false_eq_true, if_false]
    rw [hjf]
  · have : c.name ∉ (comps.map (fun nc => (nc.1, nc.2.fixed))).map (·.1) := by
      simpa [List.map_map, Function.comp] using hfresh
    rw [dictSet_fresh _ _ _ this]
    simp
  · have : c.name ∉ (specKeys comps 0).map (·.1) := by
      rw [specKeys_keys]
      exact hfresh
    rw [dictSet_fresh _ _ _ this, specKeys_append]
    rw [joinValues_length_eq comps hwf]
    simp
  · have : c.name ∉ (specFreeKeys comps 0).map (·.1) := by
      rw [specFreeKeys_keys]
      exact hfresh
    rw [dictSet_fresh _ _ _ this, specFreeKeys_append]
    rw [joinFree_length_sum comps]
    simp
  · rw [hjv]
    simp only [List.length_append]
    rw [hcwf.2.1]
  · rw [hjf]

theorem exbind_ok {α β : Type} (a : α) (f : α → Except PyErr β) :
    (Except.ok a >>= f : Except PyErr β) = f a := rfl

theorem expure_ok {α : Type} (a : α) :
    (pure a : Except PyErr α) = Except.ok a := rfl

theorem pyListSet_int (l : List ℚ) (z : ℤ) (v : ℚ) (h0 : 0 ≤ z)
    (h : z.toNat < l.length) :
    pyListSet l z v = .ok (l.set z.toNat v) := by
  simp only [pyListSet, if_neg (show ¬ z < 0 by omega), if_pos h]

theorem pyListSet_nat (l : List ℚ) (n : ℕ) (v : ℚ) (h : n < l.length) :
    pyListSet l (n : ℤ) v = .ok (l.set n v) := by
  have := pyListSet_int l (n : ℤ) v (by omega) (by simpa using h)
  simpa using this

theorem pyListGet_int (l : List ℚ) (z : ℤ) (v : ℚ) (h0 : 0 ≤ z)
    (h : l.get? z.toNat = some v) :
    pyListGet l z = .ok v := by
  simp only [pyListGet, if_neg (show ¬ z < 0 by omega), h]

theorem alookup_mem {α : Type} (d : List (String × α)) (k : String)
    (v : α) (h : alookup d k = some v) : (k, v) ∈ d := by
  induction d with
  | nil => simp [alookup] at h
  | cons hd tl ih =>
      obtain ⟨k', w⟩ := hd
      by_cases hk : k' = k
      · subst hk
        rw [alookup_cons_self] at h
        injection h with h
        subst h
        exact List.mem_cons_self _ _
      · simp only [alookup, if_neg hk] at h
        exact List.mem_cons_of_mem _ (ih h)

theorem dictSet_isEmpty_false {α : Type} (d : List (String × α))
    (k : String) (v : α) (hne : d ≠ []) :
    (dictSet d k v).isEmpty = false := by
  cases d with
  | nil => exact absurd rfl hne
  | cons hd tl =>
      obtain ⟨k', w⟩ := hd
      by_cases hk : k' = k
      · subst hk
        unfold dictSet
        rw [alookup_cons_self]
        simp
      · rw [dictSet_cons_miss _ _ _ _ _ hk]
        rfl

/-- `set_parameter_value` on a canonical state, for an existing
component and parameter, succeeds and produces the canonical state of
the value-updated component list (models.py lines 132–149: the three
writes keep the component copy, the full vector and the free vector
synchronised). -/
theorem set_value_spec (mf : List (String × Bool))
    (comps : List (String × Comp)) (m p : String) (v : ℚ)
    (c : Comp) (i : ℕ)
    (hwf : ∀ nc ∈ comps, nc.2.WF)
    (hnd : (comps.map (·.1)).Nodup)
    (hc : alookup comps m = some c)
    (hi : pyIndex c.paramNames p = some i) :
    set_parameter_value (buildState mf comps) m p v =
      .ok (buildState mf
        (dictSet comps m { c with values := c.values.set i v })) := by
  have hcwf : c.WF := hwf (m, c) (alookup_mem _ _ _ hc)
  have hcompsne : comps ≠ [] := by
    intro he
    rw [he] at hc
    simp [alookup] at hc
  have hcne : comps.isEmpty = false := by
    cases comps
    · exact absurd rfl hcompsne
    · rfl
  have hcne' : (dictSet comps m
      { c with values := c.values.set i v }).isEmpty = false :=
    dictSet_isEmpty_false _ _ _ hcompsne
  obtain ⟨off, hkd, hlt, hget, hset⟩ :=
    comps_value_sync comps 0 hwf hnd m c hc p i hi
  have hmem : p ∈ c.paramNames := List.get?_mem (pyIndex_get _ _ _ hi)
  unfold set_parameter_value
  have hcomp : (buildState mf comps).components = comps := rfl
  have hkeys : (buildState mf comps).param_keys = specKeys comps 0 := rfl
  have hpars : (buildState mf comps).parameters = some (joinValues comps) := by
    unfold buildState
    simp only [hcne, Bool.false_eq_true, if_false]
  have hparsf : (buildState mf comps).parameters_free =
      some (joinFree comps) := by
    unfold buildState
    simp only [hcne, Bool.false_eq_true, if_false]
  rw [hcomp, hc]
  simp only [exbind_ok, hi, hkeys, hkd, Nat.zero_add, alookup_buildKeyDict,
    Option.map_some', hpars]
  rw [pyListSet_nat _ _ _ (show off + i < (joinValues comps).length by omega)]
  simp only [exbind_ok]
  by_cases hfx : c.isFixed p = false
  · rw [if_pos hfx]
    obtain ⟨off₂, hfkd, hlt₂, hget₂, hset₂⟩ :=
      comps_free_sync comps 0 hwf hnd m c hc p i hi hfx
    have hfkeys : (buildState mf comps).param_free_keys =
        specFreeKeys comps 0 := rfl
    simp only [exbind_ok, hfkeys, hfkd,
      alookup_buildFreeKeyDict_free _ _ _ _ hmem hfx, hparsf, zero_add]
    have hz : (0 : ℤ) ≤ (off₂ : ℤ) + (freeRank c.paramNames c.isFixed p : ℤ) := by
      positivity
    have hzt : ((off₂ : ℤ) + (freeRank c.paramNames c.isFixed p : ℤ)).toNat =
        off₂ + freeRank c.paramNames c.isFixed p := by
      omega
    rw [pyListSet_int _ _ _ hz (by rw [hzt]; omega)]
    simp only [exbind_ok, hzt, expure_ok]
    rw [Except.ok.injEq]
    unfold buildState
    rw [ModelState.mk.injEq]
    have hfx' : c.isFixed = Comp.isFixed { c with values := c.values.set i v } := rfl
    have hflen : (freeValues c).length =
        (freeValues { c with values := c.values.set i v }).length := by
      rw [freeValues_eq_fvOf, freeValues_eq_fvOf]
      show (fvOf c.paramNames c.values c.isFixed).length =
        (fvOf c.paramNames (c.values.set i v) c.isFixed).length
      rw [fvOf_set_free _ _ _ _ _ _ hi hfx]
      simp
    refine ⟨rfl, rfl, ?_, ?_, ?_, ?_, ?_, ?_, ?_⟩
    · simp [hcne', hset v]
    · simp [hcne', hset₂ v]
    · exact (fixedD_dictSet_values comps m c
        { c with values := c.values.set i v } hnd hc rfl).symm
    · exact (specKeys_dictSet_values comps 0 m c
        { c with values := c.values.set i v } hnd hc rfl).symm
    · exact (specFreeKeys_dictSet_values comps 0 m c
        { c with values := c.values.set i v } hnd hc rfl hfx' hflen).symm
    · rw [← hset v]
      simp
    · rw [← hset₂ v]
      simp
  · rw [if_neg hfx]
    have hfxT : c.isFixed p = true := by
      revert hfx
      cases c.isFixed p <;> simp
    rw [expure_ok, Except.ok.injEq]
    unfold buildState
    rw [ModelState.mk.injEq]
    have hjff : joinFree (dictSet comps m
        { c with values := c.values.set i v }) = joinFree comps :=
      comps_free_fixed comps hnd m c hc p i hi hfxT v
    have hfx' : c.isFixed = Comp.isFixed { c with values := c.values.set i v } := rfl
    have hflen : (freeValues c).length =
        (freeValues { c with values := c.values.set i v }).length := by
      rw [freeValues_eq_fvOf, freeValues_eq_fvOf]
      show (fvOf c.paramNames c.values c.isFixed).length =
        (fvOf c.paramNames (c.values.set i v) c.isFixed).length
      rw [fvOf_set_fixed _ _ _ _ _ _ hi hfxT]
    refine ⟨rfl, rfl, ?_, ?_, ?_, ?_, ?_, ?_, ?_⟩
    · simp [hcne', hset v]
    · simp [hcne, hcne', hjff]
    · exact (fixedD_dictSet_values comps m c
        { c with values := c.values.set i v } hnd hc rfl).symm
    · exact (specKeys_dictSet_values comps 0 m c
        { c with values := c.values.set i v } hnd hc rfl).symm
    · exact (specFreeKeys_dictSet_values comps 0 m c
        { c with values := c.values.set i v } hnd hc rfl hfx' hflen).symm
    · rw [← hset v]
      simp
    · rw [hjff]

theorem dictSet_self {α : Type} (d : List (String × α)) (k : String)
    (v : α) (hnd : (d.map (·.1)).Nodup) (h : alookup d k = some v) :
    dictSet d k v = d := by
  induction d with
  | nil => simp [alookup] at h
  | cons hd tl ih =>
      obtain ⟨k', w⟩ := hd
      simp only [List.map_cons, List.nodup_cons] at hnd
      by_cases hk : k' = k
      · subst hk
        rw [alookup_cons_self] at h
        injection h with h
        subst h
        rw [dictSet_cons_hit _ _ _ _ hnd.1]
      · simp only [alookup, if_neg hk] at h
        rw [dictSet_cons_miss _ _ _ _ _ hk, ih hnd.2 h]

theorem pyIndex_isSome (names : List String) (p : String)
    (hmem : p ∈ names) : ∃ i, pyIndex names p = some i := by
  induction names with
  | nil => cases hmem
  | cons q rest ih =>
      by_cases hq : q = p
      · exact ⟨0, by unfold pyIndex; rw [if_pos hq]⟩
      · have hm' : p ∈ rest := by
          rcases List.mem_cons.1 hmem with h | h
          · exact absurd h.symm hq
          · exact h
        obtain ⟨i, hi⟩ := ih hm'
        exact ⟨i + 1, by unfold pyIndex; rw [if_neg hq, hi]; rfl⟩

theorem dictSet_mem {α : Type} (d : List (String × α)) (k : String)
    (v : α) : ∀ x ∈ dictSet d k v, x ∈ d ∨ x = (k, v) := by
  unfold dictSet
  by_cases h : (alookup d k).isSome
  · rw [if_pos h]
    intro x hx
    obtain ⟨y, hy, hxy⟩ := List.mem_map.1 hx
    by_cases hy1 : y.1 = k
    · right
      rw [if_pos hy1] at hxy
      exact hxy.symm
    · left
      rw [if_neg hy1] at hxy
      exact hxy ▸ hy
  · rw [if_neg h]
    intro x hx
    rcases List.mem_append.1 hx with h1 | h1
    · exact Or.inl h1
    · exact Or.inr (List.mem_singleton.1 h1)

theorem exbind_err {α β : Type} (e : PyErr) (f : α → Except PyErr β) :
    (Except.error e >>= f : Except PyErr β) = .error e := rfl

theorem set_value_err_nocomp (s : ModelState) (m p : String) (v : ℚ)
    (h : alookup s.components m = none) :
    set_parameter_value s m p v = .error .keyError := by
  unfold set_parameter_value
  rw [h]
  rfl

theorem set_value_err_noparam (s : ModelState) (m p : String) (v : ℚ)
    (c : Comp) (hc : alookup s.components m = some c)
    (hp : pyIndex c.paramNames p = none) :
    set_parameter_value s m p v = .error .valueError := by
  unfold set_parameter_value
  simp only [hc, hp, exbind_ok, exbind_err]

theorem alookup_isSome_of_mem {α : Type} (d : List (String × α))
    (k : String) (h : k ∈ d.map (·.1)) : (alookup d k).isSome := by
  induction d with
  | nil => simp at h
  | cons hd tl ih =>
      obtain ⟨k', v⟩ := hd
      by_cases hk : k' = k
      · subst hk
        rw [alookup_cons_self]
        rfl
      · simp only [alookup, if_neg hk]
        apply ih
        simp only [List.map_cons, List.mem_cons] at h
        rcases h with h | h
        · exact absurd h.symm hk
        · exact h

theorem alookup_dictSet_ne {α : Type} (d : List (String × α))
    (k k' : String) (v : α) (hnd : (d.map (·.1)).Nodup) (h : k' ≠ k) :
    alookup (dictSet d k v) k' = alookup d k' := by
  induction d with
  | nil =>
      rw [dictSet_fresh _ _ _ (by simp)]
      simp only [List.nil_append]
      unfold alookup
      rw [if_neg (fun he => h he.symm)]
      rfl
  | cons hd tl ih =>
      obtain ⟨k₀, w⟩ := hd
      simp only [List.map_cons, List.nodup_cons] at hnd
      by_cases h₀ : k₀ = k
      · subst h₀
        rw [dictSet_cons_hit _ _ _ _ hnd.1]
        unfold alookup
        rw [if_neg (fun he => h he.symm), if_neg (fun he => h he.symm)]
      · rw [dictSet_cons_miss _ _ _ _ _ h₀]
        unfold alookup
        by_cases he : k₀ = k'
        · rw [if_pos he, if_pos he]
        · rw [if_neg he, if_neg he]
          exact ih hnd.2

theorem specFreeKeys_entry (comps : List (String × Comp)) (n : String) :
    ∀ (c : Comp) (b : ℤ) (fkeys : List (String × ℤ)),
      alookup comps n = some c →
      alookup (specFreeKeys comps b) n = some fkeys →
      ∃ b0 : ℤ, fkeys = buildFreeKeyDict c.paramNames c.isFixed b0 := by
  induction comps with
  | nil =>
      intro c b fkeys hc _
      simp [alookup] at hc
  | cons hd rest ih =>
      obtain ⟨n₀, c₀⟩ := hd
      intro c b fkeys hc hf
      unfold specFreeKeys at hf
      by_cases hn : n₀ = n
      · subst hn
        rw [alookup_cons_self] at hc
        injection hc with hc
        subst hc
        rw [alookup_cons_self] at hf
        injection hf with hf
        exact ⟨b, hf.symm⟩
      · simp only [alookup, if_neg hn] at hc hf
        exact ih c _ fkeys hc hf

theorem getFreeParams_buildState (mf : List (String × Bool))
    (comps : List (String × Comp)) :
    getFreeParams (buildState mf comps) = joinFree comps := by
  cases comps <;> rfl

theorem freeParamCount_buildState (mf : List (String × Bool))
    (comps : List (String × Comp)) (hwf : ∀ nc ∈ comps, nc.2.WF) :
    freeParamCount (buildState mf comps) = (joinFree comps).length := by
  unfold freeParamCount
  have hc : (buildState mf comps).components = comps := rfl
  rw [hc, joinFree_length_sum]
  congr 1
  apply List.map_congr_left
  intro nc hnc
  rw [freeValues_eq_fvOf, fvOf_length _ _ _ (hwf nc hnc).2.1]
  rfl

theorem goodComps_dictSet_update (comps : List (String × Comp))
    (m : String) (c : Comp) (i : ℕ) (v : ℚ) (hg : GoodComps comps)
    (hc : alookup comps m = some c) :
    GoodComps (dictSet comps m { c with values := c.values.set i v }) := by
  obtain ⟨hent, hnd⟩ := hg
  constructor
  · intro nc hnc
    rcases dictSet_mem _ _ _ nc hnc with h | h
    · exact hent nc h
    · subst h
      have hmc := hent (m, c) (alookup_mem _ _ _ hc)
      refine ⟨hmc.1, ?_⟩
      obtain ⟨h1, h2, h3⟩ := hmc.2
      exact ⟨h1, by simpa using h2, h3⟩
  · rw [dictSet_keys_of_mem _ _ _ (by rw [hc]; rfl)]
    exact hnd

theorem free_entry_resolve (comps : List (String × Comp))
    (hwf : ∀ nc ∈ comps, nc.2.WF) (hnd : (comps.map (·.1)).Nodup)
    (m : String) (c : Comp) (hc : alookup comps m = some c) (b0 : ℤ)
    (hfkd0 : alookup (specFreeKeys comps 0) m =
      some (buildFreeKeyDict c.paramNames c.isFixed b0))
    (p : String) (ind : ℤ)
    (hpmem : (p, ind) ∈ buildFreeKeyDict c.paramNames c.isFixed b0)
    (hind : ind ≠ -99) :
    ∃ i : ℕ, pyIndex c.paramNames p = some i ∧ c.isFixed p = false ∧
      0 ≤ ind ∧ ind.toNat < (joinFree comps).length ∧
      (joinFree comps).get? ind.toNat = c.values.get? i := by
  have hcwf : c.WF := hwf (m, c) (alookup_mem _ _ _ hc)
  have hkeysnd : ((buildFreeKeyDict c.paramNames c.isFixed b0).map
      (·.1)).Nodup := by
    rw [buildFreeKeyDict_keys]
    exact hcwf.1
  have hlook : alookup (buildFreeKeyDict c.paramNames c.isFixed b0) p =
      some ind := alookup_of_mem_nodup _ hkeysnd (p, ind) hpmem
  have hpn : p ∈ c.paramNames := by
    have := List.mem_map_of_mem (·.1) hpmem
    rwa [buildFreeKeyDict_keys] at this
  by_cases hfx : c.isFixed p = true
  · rw [alookup_buildFreeKeyDict_fixed _ _ _ _ hpn hfx] at hlook
    injection hlook with hlook
    exact absurd hlook.symm hind
  · have hfx' : c.isFixed p = false := by
      revert hfx
      cases c.isFixed p <;> simp
    obtain ⟨i, hi⟩ := pyIndex_isSome _ _ hpn
    obtain ⟨off₂, hfkd, hlt₂, hget₂, hset₂⟩ :=
      comps_free_sync comps 0 hwf hnd m c hc p i hi hfx'
    rw [hfkd0] at hfkd
    injection hfkd with hfkd
    have hb0 : (0 : ℤ) + (off₂ : ℤ) +
        (freeRank c.paramNames c.isFixed p : ℤ) =
        b0 + (freeRank c.paramNames c.isFixed p : ℤ) := by
      have h1 := alookup_buildFreeKeyDict_free c.paramNames p c.isFixed
        b0 hpn hfx'
      have h2 := alookup_buildFreeKeyDict_free c.paramNames p c.isFixed
        (0 + (off₂ : ℤ)) hpn hfx'
      rw [hfkd] at h1
      rw [h2] at h1
      exact Option.some.inj h1
    have hindeq : ind = b0 + (freeRank c.paramNames c.isFixed p : ℤ) := by
      have h1 := alookup_buildFreeKeyDict_free c.paramNames p c.isFixed
        b0 hpn hfx'
      rw [hlook] at h1
      exact Option.some.inj h1
    have htn : ind.toNat = off₂ + freeRank c.paramNames c.isFixed p := by
      omega
    refine ⟨i, hi, hfx', by omega, by omega, ?_⟩
    rw [htn]
    exact hget₂

theorem set_value_noop (mf : List (String × Bool))
    (comps : List (String × Comp)) (m p : String) (c : Comp) (i : ℕ)
    (v : ℚ) (hwf : ∀ nc ∈ comps, nc.2.WF)
    (hnd : (comps.map (·.1)).Nodup)
    (hc : alookup comps m = some c) (hi : pyIndex c.paramNames p = some i)
    (hv : c.values.get? i = some v) :
    set_parameter_value (buildState mf comps) m p v =
      .ok (buildState mf comps) := by
  rw [set_value_spec mf comps m p v c i hwf hnd hc hi]
  have h1 : ({ c with values := c.values.set i v } : Comp) = c := by
    rw [list_set_self _ _ _ hv]
  rw [h1, dictSet_self _ _ _ hnd hc]

theorem updateParamsInner_noop (theta : List ℚ) (cmp : String)
    (s : ModelState) (fkeys : List (String × ℤ))
    (h : ∀ (p : String) (ind : ℤ), (p, ind) ∈ fkeys → ind ≠ -99 →
      ∃ v, pyListGet theta ind = Except.ok v ∧
        set_parameter_value s cmp p v = Except.ok s) :
    updateParamsInner theta cmp s fkeys = .ok s := by
  induction fkeys with
  | nil => rfl
  | cons hd tl ih =>
      obtain ⟨p, ind⟩ := hd
      unfold updateParamsInner
      by_cases hind : ind ≠ -99
      · rw [if_pos hind]
        obtain ⟨v, hgv, hsv⟩ := h p ind (List.mem_cons_self _ _) hind
        rw [hgv]
        simp only [exbind_ok]
        rw [hsv]
        simp only [exbind_ok]
        exact ih (fun p' ind' hm => h p' ind' (List.mem_cons_of_mem _ hm))
      · rw [if_neg hind]
        exact ih (fun p' ind' hm => h p' ind' (List.mem_cons_of_mem _ hm))

theorem updateParamsOuter_noop (theta : List ℚ) (s : ModelState)
    (entries : List (String × List (String × ℤ)))
    (h : ∀ (n : String) (fkeys : List (String × ℤ)),
      (n, fkeys) ∈ entries → updateParamsInner theta n s fkeys = .ok s) :
    updateParamsOuter theta s entries = .ok s := by
  induction entries with
  | nil => rfl
  | cons hd tl ih =>
      obtain ⟨n, fkeys⟩ := hd
      unfold updateParamsOuter
      rw [h n fkeys (List.mem_cons_self _ _)]
      simp only [exbind_ok]
      exact ih (fun n' f' hm => h n' f' (List.mem_cons_of_mem _ hm))

theorem update_roundtrip_buildState (mf : List (String × Bool))
    (comps : List (String × Comp)) (hg : GoodComps comps) :
    update_parameters (buildState mf comps) (joinFree comps) =
      .ok (buildState mf comps) := by
  obtain ⟨hent, hnd⟩ := hg
  have hwf : ∀ nc ∈ comps, nc.2.WF := fun nc hm => (hent nc hm).2
  unfold update_parameters
  have hlen : (joinFree comps).length = (buildState mf comps).nparams_free :=
    rfl
  rw [if_neg (show ¬ (joinFree comps).length ≠
    (buildState mf comps).nparams_free from fun hne => hne hlen)]
  have hpf : (buildState mf comps).param_free_keys = specFreeKeys comps 0 :=
    rfl
  rw [hpf]
  apply updateParamsOuter_noop
  intro n fkeys hm
  have hknd : ((specFreeKeys comps 0).map (·.1)).Nodup := by
    rw [specFreeKeys_keys]
    exact hnd
  have hfkd0 : alookup (specFreeKeys comps 0) n = some fkeys :=
    alookup_of_mem_nodup _ hknd (n, fkeys) hm
  have hnmem : n ∈ comps.map (·.1) := by
    have := List.mem_map_of_mem (·.1) hm
    rwa [specFreeKeys_keys] at this
  obtain ⟨c, hcn⟩ : ∃ c, alookup comps n = some c := by
    have := alookup_isSome_of_mem comps n hnmem
    cases hcc : alookup comps n with
    | none => rw [hcc] at this; cases this
    | some c => exact ⟨c, rfl⟩
  obtain ⟨b0, hb0⟩ := specFreeKeys_entry comps n c 0 fkeys hcn hfkd0
  subst hb0
  apply updateParamsInner_noop
  intro p ind hpmem hind
  obtain ⟨i, hi, hfx, h0, hlt, hget⟩ := free_entry_resolve comps hwf hnd
    n c hcn b0 hfkd0 p ind hpmem hind
  have hcwf : c.WF := hwf (n, c) (alookup_mem _ _ _ hcn)
  have hilt : i < c.values.length := by
    rw [hcwf.2.1]
    exact pyIndex_lt_length _ _ _ hi
  obtain ⟨v, hv⟩ : ∃ v, c.values.get? i = some v := by
    rw [List.get?_eq_get hilt]
    exact ⟨_, rfl⟩
  refine ⟨v, pyListGet_int _ _ _ h0 (hget.trans hv), ?_⟩
  exact set_value_noop mf comps n p c i v hwf hnd hcn hi hv

theorem reachV_invV (s : ModelState) (h : ReachV s) : InvV s := by
  induction h with
  | init =>
      refine ⟨[], [], ⟨?_, List.nodup_nil⟩, rfl, rfl⟩
      intro nc hnc
      cases hnc
  | @add s₀ s₁ c t hre hcwf hfresh hok ih =>
      obtain ⟨mf, comps, hg, hkeys, hs⟩ := ih
      subst hs
      have hfresh' : c.name ∉ comps.map (·.1) := hfresh
      have hwf : ∀ nc ∈ comps, nc.2.WF := fun nc hm => (hg.1 nc hm).2
      have hmf : c.name ∉ mf.map (·.1) := by
        rw [hkeys]
        exact hfresh'
      have hgood' : GoodComps (comps ++ [(c.name, c)]) := by
        constructor
        · intro nc hnc
          rcases List.mem_append.1 hnc with h1 | h1
          · exact hg.1 nc h1
          · rw [List.mem_singleton.1 h1]
            exact ⟨rfl, hcwf⟩
        · rw [List.map_append]
          rw [List.nodup_append]
          refine ⟨hg.2, List.nodup_singleton _, ?_⟩
          intro a ha hb
          simp only [List.map_cons, List.map_nil, List.mem_singleton] at hb
          subst hb
          exact hfresh' ha
      cases t with
      | mass =>
          unfold add_component at hok
          by_cases hms :
              (alookup (buildState mf comps).mass_components c.name).isSome = true
          · rw [if_pos hms] at hok
            cases hok
          · rw [if_neg hms] at hok
            injection hok with hok
            have hok2 : addComp (buildState (dictSet mf c.name true) comps) c
                = s₁ := hok
            rw [addComp_spec _ comps c hwf hcwf hfresh'] at hok2
            refine ⟨dictSet mf c.name true, comps ++ [(c.name, c)],
              hgood', ?_, hok2.symm⟩
            rw [dictSet_fresh _ _ _ hmf, List.map_append, List.map_append,
              hkeys]
            simp
      | geometry =>
          unfold add_component at hok
          injection hok with hok
          have hok2 : addComp (buildState (dictSet mf c.name false) comps) c
              = s₁ := hok
          rw [addComp_spec _ comps c hwf hcwf hfresh'] at hok2
          refine ⟨dictSet mf c.name false, comps ++ [(c.name, c)],
            hgood', ?_, hok2.symm⟩
          rw [dictSet_fresh _ _ _ hmf, List.map_append, List.map_append,
            hkeys]
          simp
  | set m p v hre hok ih =>
      obtain ⟨mf, comps, hg, hkeys, hs⟩ := ih
      subst hs
      have hwf : ∀ nc ∈ comps, nc.2.WF := fun nc hm => (hg.1 nc hm).2
      cases hcn : alookup comps m with
      | none =>
          rw [set_value_err_nocomp _ _ _ _ hcn] at hok
          cases hok
      | some c =>
          cases hpi : pyIndex c.paramNames p with
          | none =>
              rw [set_value_err_noparam _ _ _ _ c hcn hpi] at hok
              cases hok
          | some i =>
              rw [set_value_spec mf comps m p v c i hwf hg.2 hcn hpi] at hok
              injection hok with hok
              refine ⟨mf,
                dictSet comps m { c with values := c.values.set i v },
                goodComps_dictSet_update comps m c i v hg hcn, ?_,
                hok.symm⟩
              rw [dictSet_keys_of_mem _ _ _ (by rw [hcn]; rfl)]
              exact hkeys

theorem updateParamsInner_ok (theta : List ℚ) (cmp : String)
    (R : ModelState → Prop) (fkeys : List (String × ℤ))
    (hstep : ∀ (p : String) (ind : ℤ), (p, ind) ∈ fkeys → ind ≠ -99 →
      ∀ s, R s → ∃ v, pyListGet theta ind = Except.ok v ∧
        ∃ s', set_parameter_value s cmp p v = Except.ok s' ∧ R s') :
    ∀ s, R s → ∃ s', updateParamsInner theta cmp s fkeys = .ok s' ∧ R s' := by
  induction fkeys with
  | nil =>
      intro s hs
      exact ⟨s, rfl, hs⟩
  | cons hd tl ih =>
      obtain ⟨p, ind⟩ := hd
      intro s hs
      unfold updateParamsInner
      by_cases hind : ind ≠ -99
      · rw [if_pos hind]
        obtain ⟨v, hgv, s₁, hsv, hs₁⟩ :=
          hstep p ind (List.mem_cons_self _ _) hind s hs
        rw [hgv]
        simp only [exbind_ok]
        rw [hsv]
        simp only [exbind_ok]
        exact ih (fun p' ind' hm =>
          hstep p' ind' (List.mem_cons_of_mem _ hm)) s₁ hs₁
      · rw [if_neg hind]
        exact ih (fun p' ind' hm =>
          hstep p' ind' (List.mem_cons_of_mem _ hm)) s hs

theorem updateParamsOuter_ok (theta : List ℚ) (R : ModelState → Prop)
    (entries : List (String × List (String × ℤ)))
    (hstep : ∀ (n : String) (fkeys : List (String × ℤ)),
      (n, fkeys) ∈ entries →
      ∀ s, R s → ∃ s', updateParamsInner theta n s fkeys = .ok s' ∧ R s') :
    ∀ s, R s → ∃ s', updateParamsOuter theta s entries = .ok s' ∧ R s' := by
  induction entries with
  | nil =>
      intro s hs
      exact ⟨s, rfl, hs⟩
  | cons hd tl ih =>
      obtain ⟨n, fkeys⟩ := hd
      intro s hs
      unfold updateParamsOuter
      obtain ⟨s₁, h₁, hs₁⟩ := hstep n fkeys (List.mem_cons_self _ _) s hs
      rw [h₁]
      simp only [exbind_ok]
      exact ih (fun n' f' hm => hstep n' f' (List.mem_cons_of_mem _ hm)) s₁ hs₁

theorem updInv_step (mf : List (String × Bool))
    (comps : List (String × Comp)) (hg : GoodComps comps) (theta : List ℚ)
    (hlen : theta.length = (joinFree comps).length)
    (n : String) (fkeys : List (String × ℤ))
    (hm : (n, fkeys) ∈ specFreeKeys comps 0) :
    ∀ st, UpdInv mf comps st →
      ∃ s', updateParamsInner theta n st fkeys = .ok s' ∧
        UpdInv mf comps s' := by
  have hknd : ((specFreeKeys comps 0).map (·.1)).Nodup := by
    rw [specFreeKeys_keys]
    exact hg.2
  have hfkd0 : alookup (specFreeKeys comps 0) n = some fkeys :=
    alookup_of_mem_nodup _ hknd (n, fkeys) hm
  have hnmem : n ∈ comps.map (·.1) := by
    have := List.mem_map_of_mem (·.1) hm
    rwa [specFreeKeys_keys] at this
  obtain ⟨c, hcn⟩ : ∃ c, alookup comps n = some c := by
    have := alookup_isSome_of_mem comps n hnmem
    cases hcc : alookup comps n with
    | none => rw [hcc] at this; cases this
    | some c => exact ⟨c, rfl⟩
  obtain ⟨b0, hb0⟩ := specFreeKeys_entry comps n c 0 fkeys hcn hfkd0
  subst hb0
  apply updateParamsInner_ok theta n (UpdInv mf comps)
  intro p ind hpmem hind st hst
  obtain ⟨comps', hst', hg', hsf', hlen', htrans⟩ := hst
  subst hst'
  obtain ⟨c', hc', hnames, hfix⟩ := htrans n c hcn
  have hwf' : ∀ nc ∈ comps', nc.2.WF := fun nc hm' => (hg'.1 nc hm').2
  have hnd' := hg'.2
  have hpmem' : (p, ind) ∈ buildFreeKeyDict c'.paramNames c'.isFixed b0 := by
    rw [hnames, hfix]
    exact hpmem
  have hfkd0' : alookup (specFreeKeys comps' 0) n =
      some (buildFreeKeyDict c'.paramNames c'.isFixed b0) := by
    rw [hsf', hfkd0, hnames, hfix]
  obtain ⟨i, hi, hfx, h0, hlt, hget⟩ := free_entry_resolve comps' hwf' hnd'
    n c' hc' b0 hfkd0' p ind hpmem' hind
  have hltθ : ind.toNat < theta.length := by
    rw [hlen, ← hlen']
    exact hlt
  obtain ⟨v, hv⟩ : ∃ v, theta.get? ind.toNat = some v := by
    rw [List.get?_eq_get hltθ]
    exact ⟨_, rfl⟩
  refine ⟨v, pyListGet_int _ _ _ h0 hv, ?_⟩
  refine ⟨buildState mf
      (dictSet comps' n { c' with values := c'.values.set i v }),
    set_value_spec mf comps' n p v c' i hwf' hnd' hc' hi, ?_⟩
  obtain ⟨off₂, hfkd₂, hlt₂, hget₂, hset₂⟩ :=
    comps_free_sync comps' 0 hwf' hnd' n c' hc' p i hi hfx
  have hflen : (freeValues c').length =
      (freeValues { c' with values := c'.values.set i v }).length := by
    rw [freeValues_eq_fvOf, freeValues_eq_fvOf]
    show (fvOf c'.paramNames c'.values c'.isFixed).length =
      (fvOf c'.paramNames (c'.values.set i v) c'.isFixed).length
    rw [fvOf_set_free _ _ _ _ _ _ hi hfx]
    simp
  refine ⟨dictSet comps' n { c' with values := c'.values.set i v }, rfl,
    goodComps_dictSet_update comps' n c' i v hg' hc', ?_, ?_, ?_⟩
  · rw [specFreeKeys_dictSet_values comps' 0 n c'
      { c' with values := c'.values.set i v } hnd' hc' rfl rfl hflen]
    exact hsf'
  · rw [← hset₂ v]
    simp [hlen']
  · intro n₁ c₁ hc₁
    by_cases hn₁ : n₁ = n
    · subst hn₁
      rw [hcn] at hc₁
      injection hc₁ with hc₁
      subst hc₁
      refine ⟨{ c' with values := c'.values.set i v },
        dictSet_mem_lookup _ _ _ (by rw [hc']; rfl), hnames, hfix⟩
    · obtain ⟨c₁', h₁, h₂, h₃⟩ := htrans n₁ c₁ hc₁
      exact ⟨c₁', by rw [alookup_dictSet_ne _ _ _ _ hnd' hn₁]; exact h₁,
        h₂, h₃⟩

theorem update_parameters_ok (mf : List (String × Bool))
    (comps : List (String × Comp)) (hg : GoodComps comps) (theta : List ℚ)
    (hlen : theta.length = (joinFree comps).length) :
    ∃ s', update_parameters (buildState mf comps) theta = .ok s' := by
  unfold update_parameters
  have hlen' : theta.length = (buildState mf comps).nparams_free := hlen
  rw [if_neg (show ¬ theta.length ≠ (buildState mf comps).nparams_free from
    fun hne => hne hlen')]
  have hpf : (buildState mf comps).param_free_keys = specFreeKeys comps 0 :=
    rfl
  rw [hpf]
  obtain ⟨s', hs', _⟩ := updateParamsOuter_ok theta (UpdInv mf comps)
    (specFreeKeys comps 0)
    (fun n fkeys hm => updInv_step mf comps hg theta hlen n fkeys hm)
    (buildState mf comps)
    ⟨comps, rfl, hg, rfl, rfl, fun n c hc => ⟨c, hc, rfl, rfl⟩⟩
  exact ⟨s', hs'⟩

/-- **C4 witness.** A concrete everywhere-negative objective: the
`mvirial` inversion raises `ValueError` while the Burkert inversion
returns `5/2`. -/
theorem fdm_inversion_unbracketed_policy_witness :
    calc_mvirial_from_fdm (fun _ _ _ => 0) (fun _ => 0) (1/2) 1 1 =
        .err .valueError
    ∧ calc_rB_from_fdm (fun _ _ _ => 0) (fun _ => 1) (1/2) 2 =
        .val (5/2) := by
  have h := fdm_inversion_unbracketed_policy (fun _ _ _ => 0) (fun _ => 0)
    (1/2) 1 1 (by norm_num) (by norm_num) (by norm_num) (by norm_num)
    (by norm_num)
  have h' := fdm_inversion_unbracketed_policy (fun _ _ _ => 0) (fun _ => 1)
    (1/2) 1 2 (by norm_num) (by norm_num) (by norm_num) (by norm_num)
    (by norm_num)
  exact ⟨h.1 (fun m _ => by norm_num), h'.2 (fun m _ => by norm_num)⟩

/-- **C6 counterexample.** One component with a single non-fixed
parameter, then one `set_parameter_fixed` call: the free vector kept by
the `ModelSet` still has length 1 while the count of currently
non-fixed parameters is 0 — `set_parameter_fixed` (models.py lines
151–165) never resizes `parameters_free` or the free index maps, so
the claimed invariant fails for sequences containing it. -/
theorem set_fixed_breaks_free_invariant :
    (getFreeParams (runOps ModelState.init
      [MOp.add ⟨"disk", ["x"], [1], [("x", false)]⟩ CompType.mass,
       MOp.setFixed "disk" "x" true])).length = 1 ∧
    freeParamCount (runOps ModelState.init
      [MOp.add ⟨"disk", ["x"], [1], [("x", false)]⟩ CompType.mass,
       MOp.setFixed "disk" "x" true]) = 0 := ⟨rfl, rfl⟩

/-- **C6.** [amended: sequences of `add_component` and
`set_parameter_value` only] After any sequence of successful
`add_component` calls (wellformed components with fresh names) and
successful `set_parameter_value` calls, the length of the free
parameter vector equals the total count over all components of
parameters currently marked non-fixed, and the round trip
`update_parameters(get_free_parameters())` succeeds and leaves the
whole state (hence every parameter value) unchanged.  With
`set_parameter_fixed` in the sequence the invariant fails (see the
counterexample). -/
theorem modelset_free_invariant_roundtrip (s : ModelState)
    (h : ReachV s) :
    (getFreeParams s).length = freeParamCount s ∧
      update_parameters s (getFreeParams s) = .ok s := by
  obtain ⟨mf, comps, hg, hkeys, hs⟩ := reachV_invV s h
  subst hs
  constructor
  · rw [getFreeParams_buildState,
      freeParamCount_buildState _ _ (fun nc hm => (hg.1 nc hm).2)]
  · rw [getFreeParams_buildState]
    exact update_roundtrip_buildState mf comps hg

/-- **C6 witness.** The invariant and round trip instantiated at the
concrete state holding one two-parameter component (one free, one
fixed parameter). -/
theorem modelset_free_invariant_roundtrip_witness :
    (getFreeParams wState).length = freeParamCount wState ∧
      update_parameters wState (getFreeParams wState) = .ok wState :=
  modelset_free_invariant_roundtrip wState
    (ReachV.add wComp CompType.mass ReachV.init
      ⟨by decide, rfl, by decide⟩ (by simp [ModelState.init]) rfl)

/-- **C7.** For every `ModelSet` state reachable through the public
mutation API and every parameter vector `theta`: `update_parameters`
returns the length-mismatch `ValueError` exactly when
`len(theta) ≠ nparams_free`; the check precedes the write loop (the
error is produced with no `set_parameter_value` call, so no parameter
is modified); and when the length matches, the write loop — which
writes `theta[free_index]` into every free (component, parameter) pair
in index order via `set_parameter_value` — runs to completion. -/
theorem update_parameters_length_check (s : ModelState) (hs : ReachV s)
    (theta : List ℚ) :
    (update_parameters s theta = .error .valueError ↔
      theta.length ≠ s.nparams_free) ∧
    (theta.length = s.nparams_free →
      ∃ s', update_parameters s theta = .ok s') := by
  obtain ⟨mf, comps, hg, hkeys, hseq⟩ := reachV_invV s hs
  subst hseq
  have hsucc : theta.length = (buildState mf comps).nparams_free →
      ∃ s', update_parameters (buildState mf comps) theta = .ok s' :=
    fun hlen => update_parameters_ok mf comps hg theta hlen
  constructor
  · constructor
    · intro herr hlen
      obtain ⟨s', hs'⟩ := hsucc hlen
      rw [hs'] at herr
      cases herr
    · intro hlen
      unfold update_parameters
      rw [if_pos hlen]
  · exact hsucc

theorem calc_rvir_1613_eq :
    calc_rvir 12 (1613/1000) 70 (3/10) =
      (4300917270036279000/2965621178359 : ℝ) ^ ((1:ℝ)/3) := by
  unfold calc_rvir cosmoH
  have hq : (3/10:ℝ) * (1 + 1613/1000) ^ 3 + (1 - 3/10) =
      60522881191/10^10 := by norm_num
  rw [hq]
  have hs2 : Real.sqrt (60522881191/10^10 : ℝ) ^ 2 = 60522881191/10^10 :=
    Real.sq_sqrt (by norm_num)
  have h12 : (10:ℝ) ^ (12:ℝ) = 10 ^ (12:ℕ) := by
    rw [show (12:ℝ) = ((12:ℕ):ℝ) by norm_num, Real.rpow_natCast]
  rw [h12]
  congr 1
  have hd : (10 * (70 * Real.sqrt (60522881191/10^10 : ℝ)) * (1/1000)) ^ 2 =
      49/100 * (60522881191/10^10) := by
    have h : (10 * (70 * Real.sqrt (60522881191/10^10 : ℝ)) * (1/1000)) ^ 2 =
        490000/10^6 * Real.sqrt (60522881191/10^10 : ℝ) ^ 2 := by
      ring
    rw [h, hs2]
    norm_num
  rw [hd]
  norm_num [g_new_unit]

theorem calc_rvir_1613_bounds :
    (1131917/10^4 : ℝ) ≤ calc_rvir 12 (1613/1000) 70 (3/10) ∧
      calc_rvir 12 (1613/1000) 70 (3/10) ≤ 1131919/10^4 := by
  rw [calc_rvir_1613_eq]
  rw [show (1:ℝ)/3 = ((3:ℕ):ℝ)⁻¹ by norm_num]
  constructor
  · rw [show (1131917/10^4 : ℝ) =
        ((1131917/10^4:ℝ)^(3:ℕ)) ^ (((3:ℕ):ℝ))⁻¹ from
      (Real.pow_rpow_inv_natCast (by norm_num) (by norm_num)).symm]
    exact Real.rpow_le_rpow (by positivity) (by norm_num) (by positivity)
  · rw [show (1131919/10^4 : ℝ) =
        ((1131919/10^4:ℝ)^(3:ℕ)) ^ (((3:ℕ):ℝ))⁻¹ from
      (Real.pow_rpow_inv_natCast (by norm_num) (by norm_num)).symm]
    exact Real.rpow_le_rpow (by positivity) (by norm_num) (by positivity)

theorem neg_log_one_sub_bounds (x : ℝ) (n : ℕ) (h0 : 0 ≤ x) (h1 : x < 1) :
    (∑ i in Finset.range n, x ^ (i+1) / (i+1)) - x^(n+1)/(1-x) ≤
        -Real.log (1 - x) ∧
      -Real.log (1 - x) ≤
        (∑ i in Finset.range n, x ^ (i+1) / (i+1)) + x^(n+1)/(1-x) := by
  have habs : |x| = x := abs_of_nonneg h0
  have h := Real.abs_log_sub_add_sum_range_le (by rw [habs]; exact h1) n
  rw [habs, abs_le] at h
  constructor <;> linarith [h.1, h.2]

theorem log_six_eq :
    Real.log 6 = 2 * Real.log (4/3) + 3 * Real.log (3/2) := by
  have key : ((4:ℝ)/3)^(2:ℕ) * ((3:ℝ)/2)^(3:ℕ) = 6 := by norm_num
  rw [← key, Real.log_mul (by positivity) (by positivity),
    Real.log_pow, Real.log_pow]
  push_cast
  ring

theorem log_six_bounds :
    (17917/10^4 : ℝ) ≤ Real.log 6 ∧ Real.log 6 ≤ 17918/10^4 := by
  have b1 := neg_log_one_sub_bounds (1/4) 8 (by norm_num) (by norm_num)
  have b2 := neg_log_one_sub_bounds (1/3) 10 (by norm_num) (by norm_num)
  simp only [Finset.sum_range_succ, Finset.sum_range_zero] at b1 b2
  norm_num at b1 b2
  have h6 : Real.log 6 = 2 * -Real.log (3/4 : ℝ) + 3 * -Real.log (2/3 : ℝ) := by
    rw [show (-Real.log (3/4 : ℝ)) = Real.log (4/3 : ℝ) by
        rw [show ((4:ℝ)/3) = ((3:ℝ)/4)⁻¹ by norm_num, Real.log_inv],
      show (-Real.log (2/3 : ℝ)) = Real.log (3/2 : ℝ) by
        rw [show ((3:ℝ)/2) = ((2:ℝ)/3)⁻¹ by norm_num, Real.log_inv]]
    exact log_six_eq
  rw [h6]
  constructor <;> linarith [b1.1, b1.2, b2.1, b2.2]

theorem log_term_lower :
    (10474894/10^8 : ℝ) ≤ Real.log (1256919/1131919) := by
  have b := neg_log_one_sub_bounds (125000/1256919) 6 (by norm_num)
    (by norm_num)
  have h : Real.log ((1256919:ℝ)/1131919) =
      -Real.log (1 - 125000/1256919) := by
    rw [show (1:ℝ) - 125000/1256919 = 1131919/1256919 by norm_num,
      show ((1256919:ℝ)/1131919) = ((1131919:ℝ)/1256919)⁻¹ by norm_num,
      Real.log_inv]
  rw [h]
  simp only [Finset.sum_range_succ, Finset.sum_range_zero] at b
  have hb1 := b.1
  norm_num at hb1 ⊢
  linarith [hb1]

theorem log_term_upper :
    Real.log (1256917/1131917) ≤ (10474934/10^8 : ℝ) := by
  have b := neg_log_one_sub_bounds (125000/1256917) 6 (by norm_num)
    (by norm_num)
  have h : Real.log ((1256917:ℝ)/1131917) =
      -Real.log (1 - 125000/1256917) := by
    rw [show (1:ℝ) - 125000/1256917 = 1131917/1256917 by norm_num,
      show ((1256917:ℝ)/1131917) = ((1131917:ℝ)/1256917)⁻¹ by norm_num,
      Real.log_inv]
  rw [h]
  simp only [Finset.sum_range_succ, Finset.sum_range_zero] at b
  have hb2 := b.2
  norm_num at hb2 ⊢
  linarith [hb2]

/-- **C1 counterexample.** At the claimed redshift `z = 0` (where
`E(0) = 1` and `H(0) = 70`), `calc_rvir` for `mvirial = 12` exceeds
200 kpc — not within any small tolerance of the claimed
113.19184480200144 kpc.  The claim's `z = 0` contradicts the seeded
regression values, which the test suite obtains at `z = 1.613`. -/
theorem calc_rvir_z0_not_close :
    ¬ |calc_rvir 12 0 70 (3/10) - 11319184480200144/10^14| ≤
      (1/10^6) * (11319184480200144/10^14) := by
  intro habs
  have h200 : (200 : ℝ) < calc_rvir 12 0 70 (3/10) := by
    unfold calc_rvir cosmoH
    have hq : (3/10:ℝ) * (1 + 0) ^ 3 + (1 - 3/10) = 1 := by norm_num
    rw [hq, Real.sqrt_one]
    have h12 : (10:ℝ) ^ (12:ℝ) = 10 ^ (12:ℕ) := by
      rw [show (12:ℝ) = ((12:ℕ):ℝ) by norm_num, Real.rpow_natCast]
    rw [h12]
    have hX : (10:ℝ) ^ (12:ℕ) * ((g_new_unit : ℝ) * (1/1000)) /
        (10 * (70 * 1) * (1/1000)) ^ 2 = 430091727003627900/49000000000 := by
      norm_num [g_new_unit]
    rw [hX]
    rw [show (1:ℝ)/3 = ((3:ℕ):ℝ)⁻¹ by norm_num]
    rw [show (200:ℝ) = ((200:ℝ)^(3:ℕ)) ^ (((3:ℕ):ℝ))⁻¹ from
      (Real.pow_rpow_inv_natCast (by norm_num) (by norm_num)).symm]
    exact Real.rpow_lt_rpow (by positivity) (by norm_num) (by norm_num)
  rw [abs_le] at habs
  have h1 : (1/10^6 : ℝ) * (11319184480200144/10^14) ≤ 1 := by norm_num
  have h2 : (11319184480200144/10^14 : ℝ) ≤ 114 := by norm_num
  linarith [habs.2]

set_option maxHeartbeats 1600000 in
/-- **C1.** [amended: the seeded regression values hold at the test
suite's redshift `z = 1.613`, not at the claimed `z = 0`; tolerance
established here: 10⁻³ relative] For the NFW halo with `mvirial = 12`,
`conc = 5`, `z = 1.613`, `H0 = 70`, `Om0 = 0.3`: `calc_rvir` is within
10⁻³ relative of 113.19184480200144 kpc, `enclosed_mass(2.5)` within
10⁻³ of 5529423277.0931425 Msun, and `circular_velocity(2.5)` within
10⁻³ of 97.53274745638375 km/s. -/
theorem nfw_test_scenario_values :
    |calc_rvir 12 (1613/1000) 70 (3/10) - 11319184480200144/10^14| ≤
      (1/10^3) * (11319184480200144/10^14) ∧
    |nfw_enclosed_mass 12 5 (1613/1000) 70 (3/10) (5/2) -
        55294232770931425/10^7| ≤ (1/10^3) * (55294232770931425/10^7) ∧
    |nfw_circular_velocity 12 5 (1613/1000) 70 (3/10) (5/2) -
        9753274745638375/10^14| ≤ (1/10^3) * (9753274745638375/10^14) := by
  obtain ⟨R, hRdef, hrL, hrU⟩ :
      ∃ R, calc_rvir 12 (1613/1000) 70 (3/10) = R ∧
        (1131917/10^4 : ℝ) ≤ R ∧ R ≤ 1131919/10^4 :=
    ⟨_, rfl, calc_rvir_1613_bounds.1, calc_rvir_1613_bounds.2⟩
  have hRpos : (0:ℝ) < R := by
    have h : (0:ℝ) < 1131917/10^4 := by norm_num
    linarith
  have h6 := log_six_bounds
  have hbpos : (0:ℝ) < Real.log 6 - 5/6 := by linarith [h6.1]
  have h2R : (0:ℝ) < 2*R := by linarith
  have h2R25 : (0:ℝ) < 2*R + 25 := by linarith
  have hR52 : (0:ℝ) < R/5 + 5/2 := by linarith
  have hmenc : nfw_enclosed_mass 12 5 (1613/1000) 70 (3/10) (5/2) =
      10 ^ (12:ℕ) * (1/(Real.log 6 - 5/6)) *
        |Real.log (1 + 25/(2*R)) - 25/(2*R + 25)| := by
    unfold nfw_enclosed_mass nfw_calc_rho0
    rw [hRdef]
    have h12 : (10:ℝ) ^ (12:ℝ) = 10 ^ (12:ℕ) := by
      rw [show (12:ℝ) = ((12:ℕ):ℝ) by norm_num, Real.rpow_natCast]
    rw [h12]
    have e0 : Real.log (1 + 5 : ℝ) = Real.log 6 := by norm_num
    rw [e0]
    have e1 : (R/5 + 5/2)/(R/5) = 1 + 25/(2*R) := by
      field_simp
      ring
    have e2 : (5:ℝ)/2/(R/5 + 5/2) = 25/(2*R + 25) := by
      rw [div_eq_div_iff hR52.ne' h2R25.ne']
      ring
    rw [e1, e2]
    rw [show (5:ℝ)/(1+5) = 5/6 by norm_num]
    congr 1
    have key : ∀ x : ℝ,
        4 * Real.pi * (10^(12:ℕ) / (4 * Real.pi * R^3) * 5^3 * x) *
          R^3 / 5^3 = 10^(12:ℕ) * x := by
      intro x
      field_simp [Real.pi_ne_zero, hRpos.ne']
      ring
    exact key _
  have ht1 : (1256919/1131919 : ℝ) ≤ 1 + 25/(2*R) := by
    have h : (125000/1131919 : ℝ) ≤ 25/(2*R) := by
      rw [div_le_div_iff (by norm_num) h2R]
      linarith
    linarith
  have ht2 : 1 + 25/(2*R) ≤ (1256917/1131917 : ℝ) := by
    have h : 25/(2*R) ≤ (125000/1131917 : ℝ) := by
      rw [div_le_div_iff h2R (by norm_num)]
      linarith
    linarith
  have hlog_lb : (10474894/10^8 : ℝ) ≤ Real.log (1 + 25/(2*R)) := by
    refine le_trans log_term_lower ?_
    exact Real.log_le_log (by norm_num) ht1
  have hlog_ub : Real.log (1 + 25/(2*R)) ≤ (10474934/10^8 : ℝ) := by
    refine le_trans ?_ log_term_upper
    exact Real.log_le_log (by linarith [ht1]) ht2
  have hf_lb : (125000/1256919 : ℝ) ≤ 25/(2*R + 25) := by
    rw [div_le_div_iff (by norm_num) h2R25]
    linarith
  have hf_ub : 25/(2*R + 25) ≤ (125000/1256917 : ℝ) := by
    rw [div_le_div_iff h2R25 (by norm_num)]
    linarith
  have hbbpos : (0:ℝ) < Real.log (1 + 25/(2*R)) - 25/(2*R + 25) := by
    have h : (0:ℝ) < 10474894/10^8 - 125000/1256917 := by norm_num
    linarith
  have habs2 : |Real.log (1 + 25/(2*R)) - 25/(2*R + 25)| =
      Real.log (1 + 25/(2*R)) - 25/(2*R + 25) := abs_of_pos hbbpos
  have haa_lb : (1:ℝ)/(17918/10^4 - 5/6) ≤ 1/(Real.log 6 - 5/6) := by
    apply one_div_le_one_div_of_le hbpos
    linarith [h6.2]
  have haa_ub : 1/(Real.log 6 - 5/6) ≤ (1:ℝ)/(17917/10^4 - 5/6) := by
    apply one_div_le_one_div_of_le (by norm_num)
    linarith [h6.1]
  have hstep_lb :
      (1/(17918/10^4 - 5/6) : ℝ) * (10474894/10^8 - 125000/1256917) ≤
        1/(Real.log 6 - 5/6) *
          (Real.log (1 + 25/(2*R)) - 25/(2*R + 25)) := by
    apply mul_le_mul haa_lb (by linarith) (by norm_num)
      (le_of_lt (one_div_pos.mpr hbpos))
  have hstep_ub :
      1/(Real.log 6 - 5/6) *
          (Real.log (1 + 25/(2*R)) - 25/(2*R + 25)) ≤
        (1/(17917/10^4 - 5/6) : ℝ) * (10474934/10^8 - 125000/1256919) := by
    apply mul_le_mul haa_ub (by linarith) (le_of_lt hbbpos) (by norm_num)
  have hql : ((10:ℝ)^(12:ℕ)) * (1/(17918/10^4 - 5/6)) *
      (10474894/10^8 - 125000/1256917) =
      99910851269700000000/18070695709 := by
    norm_num
  have hqu : ((10:ℝ)^(12:ℕ)) * (1/(17917/10^4 - 5/6)) *
      (10474934/10^8 - 125000/1256919) =
      66614356834600000000/12045892723 := by
    norm_num
  have hM_lb : (99910851269700000000/18070695709 : ℝ) ≤
      nfw_enclosed_mass 12 5 (1613/1000) 70 (3/10) (5/2) := by
    rw [hmenc, habs2, ← hql]
    linarith [hstep_lb]
  have hM_ub : nfw_enclosed_mass 12 5 (1613/1000) 70 (3/10) (5/2) ≤
      (66614356834600000000/12045892723 : ℝ) := by
    rw [hmenc, habs2, ← hqu]
    linarith [hstep_ub]
  refine ⟨?_, ?_, ?_⟩
  · rw [hRdef, abs_le]
    constructor <;> linarith
  · rw [abs_le]
    constructor
    · linarith [hM_lb]
    · linarith [hM_ub]
  · unfold nfw_circular_velocity
    obtain ⟨M, hMdef, hMl, hMu⟩ :
        ∃ M, nfw_enclosed_mass 12 5 (1613/1000) 70 (3/10) (5/2) = M ∧
          (99910851269700000000/18070695709 : ℝ) ≤ M ∧
          M ≤ 66614356834600000000/12045892723 :=
      ⟨_, rfl, hM_lb, hM_ub⟩
    rw [hMdef]
    have hcoef : (G_cgs:ℝ) * M * (Msun_cgs:ℝ) / (5/2 * 1000 * (pc_cgs:ℝ)) =
        (530849760000000071572/30856775814913673 : ℝ) * M := by
      rw [show ((G_cgs : ℚ) : ℝ) = 66743/10^12 by norm_num [G_cgs],
        show ((Msun_cgs : ℚ) : ℝ) = 1988409870698051*10^18 by
          norm_num [Msun_cgs],
        show ((pc_cgs : ℚ) : ℝ) = 30856775814913673*10^2 by
          norm_num [pc_cgs]]
      field_simp
      ring
    have hE_lb : ((9752/100:ℝ)*100000)^2 ≤
        (G_cgs:ℝ) * M * (Msun_cgs:ℝ) / (5/2 * 1000 * (pc_cgs:ℝ)) := by
      rw [hcoef]
      nlinarith [hMl]
    have hE_ub : (G_cgs:ℝ) * M * (Msun_cgs:ℝ) /
        (5/2 * 1000 * (pc_cgs:ℝ)) ≤ ((9754/100:ℝ)*100000)^2 := by
      rw [hcoef]
      nlinarith [hMu]
    have hsq_lb : (9752/100:ℝ)*100000 ≤
        Real.sqrt ((G_cgs:ℝ) * M * (Msun_cgs:ℝ) /
          (5/2 * 1000 * (pc_cgs:ℝ))) := by
      rw [show ((9752/100:ℝ)*100000) =
          Real.sqrt (((9752/100:ℝ)*100000)^2) from
        (Real.sqrt_sq (by norm_num)).symm]
      exact Real.sqrt_le_sqrt hE_lb
    have hsq_ub : Real.sqrt ((G_cgs:ℝ) * M * (Msun_cgs:ℝ) /
        (5/2 * 1000 * (pc_cgs:ℝ))) ≤ (9754/100:ℝ)*100000 := by
      rw [show ((9754/100:ℝ)*100000) =
          Real.sqrt (((9754/100:ℝ)*100000)^2) from
        (Real.sqrt_sq (by norm_num)).symm]
      exact Real.sqrt_le_sqrt hE_ub
    rw [abs_le]
    constructor
    · linarith [hsq_lb]
    · linarith [hsq_ub]

theorem nfw_bb_monotone (rs r₁ r₂ : ℝ) (hrs : 0 < rs) (h0 : 0 ≤ r₁)
    (h12 : r₁ ≤ r₂) :
    Real.log ((rs + r₁)/rs) - r₁/(rs + r₁) ≤
      Real.log ((rs + r₂)/rs) - r₂/(rs + r₂) := by
  have hA : (0:ℝ) < rs + r₁ := by linarith
  have hB : (0:ℝ) < rs + r₂ := by linarith
  have hlog : Real.log ((rs + r₂)/rs) - Real.log ((rs + r₁)/rs) =
      Real.log ((rs + r₂)/(rs + r₁)) := by
    rw [Real.log_div hB.ne' hrs.ne', Real.log_div hA.ne' hrs.ne',
      Real.log_div hB.ne' hA.ne']
    ring
  have hkey : 1 - (rs + r₁)/(rs + r₂) ≤ Real.log ((rs + r₂)/(rs + r₁)) := by
    have h := Real.log_le_sub_one_of_pos (div_pos hA hB)
    have hinv : Real.log ((rs + r₁)/(rs + r₂)) =
        -Real.log ((rs + r₂)/(rs + r₁)) := by
      rw [← Real.log_inv]
      congr 1
      rw [inv_div]
    rw [hinv] at h
    linarith
  have hfrac : r₂/(rs + r₂) - r₁/(rs + r₁) ≤ 1 - (rs + r₁)/(rs + r₂) := by
    have e1 : r₂/(rs + r₂) - r₁/(rs + r₁) =
        rs*(r₂ - r₁)/((rs + r₁)*(rs + r₂)) := by
      field_simp
      ring
    have e2 : 1 - (rs + r₁)/(rs + r₂) =
        (r₂ - r₁)*(rs + r₁)/((rs + r₁)*(rs + r₂)) := by
      field_simp
      ring
    rw [e1, e2]
    apply (div_le_div_right (by positivity)).mpr
    nlinarith [mul_nonneg (sub_nonneg.mpr h12) h0]
  linarith [hkey, hfrac, hlog]

theorem nfw_bb_nonneg (rs r : ℝ) (hrs : 0 < rs) (h0 : 0 ≤ r) :
    0 ≤ Real.log ((rs + r)/rs) - r/(rs + r) := by
  have h := nfw_bb_monotone rs 0 r hrs le_rfl h0
  have h0' : Real.log ((rs + 0)/rs) - 0/(rs + 0) = 0 := by
    rw [add_zero, div_self hrs.ne', Real.log_one]
    ring
  linarith

theorem nfw_binv_pos (c : ℝ) (hc : 0 < c) :
    0 < Real.log (1 + c) - c/(1 + c) := by
  have h1c : (0:ℝ) < 1 + c := by linarith
  have h := Real.log_lt_sub_one_of_pos
    (show (0:ℝ) < 1/(1+c) from by positivity)
    (show (1:ℝ)/(1+c) ≠ 1 from by
      intro he
      rw [div_eq_one_iff_eq h1c.ne'] at he
      linarith)
  rw [show Real.log (1/(1+c)) = -Real.log (1+c) from by
    rw [← Real.log_inv]
    congr 1
    rw [inv_eq_one_div]] at h
  have he : (1:ℝ)/(1+c) - 1 = -(c/(1+c)) := by
    field_simp
  rw [he] at h
  linarith

theorem gammainc_integrand_integrable (s x : ℝ) (hs : 0 < s) (hx : 0 ≤ x) :
    IntervalIntegrable (fun t => t ^ (s-1) * Real.exp (-t))
      MeasureTheory.volume 0 x := by
  apply IntervalIntegrable.mono_fun'
    (intervalIntegral.intervalIntegrable_rpow' (by linarith : (-1:ℝ) < s-1))
  · rw [Set.uIoc_of_le hx]
    apply ContinuousOn.aestronglyMeasurable _ measurableSet_Ioc
    intro t ht
    apply ContinuousWithinAt.mul
    · exact (Real.continuousAt_rpow_const t (s-1)
        (Or.inl (ne_of_gt ht.1))).continuousWithinAt
    · exact (Real.continuous_exp.comp continuous_neg).continuousAt.continuousWithinAt
  · rw [Set.uIoc_of_le hx]
    refine (MeasureTheory.ae_restrict_iff' measurableSet_Ioc).mpr ?_
    filter_upwards with t ht
    have ht0 : (0:ℝ) < t := ht.1
    have hexp : Real.exp (-t) ≤ 1 := by
      rw [show (1:ℝ) = Real.exp 0 from Real.exp_zero.symm]
      exact Real.exp_le_exp.mpr (by linarith)
    rw [Real.norm_eq_abs, abs_of_nonneg
      (mul_nonneg (Real.rpow_nonneg ht0.le _) (Real.exp_pos _).le)]
    calc t ^ (s-1) * Real.exp (-t) ≤ t ^ (s-1) * 1 :=
          mul_le_mul_of_nonneg_left hexp (Real.rpow_nonneg ht0.le _)
      _ = t ^ (s-1) := mul_one _

theorem gammainc_mono (s x₁ x₂ : ℝ) (hs : 0 < s) (h0 : 0 ≤ x₁)
    (h12 : x₁ ≤ x₂) : gammainc s x₁ ≤ gammainc s x₂ := by
  unfold gammainc
  rw [div_le_div_right (Real.Gamma_pos_of_pos hs)]
  have hi1 := gammainc_integrand_integrable s x₁ hs h0
  have hmid : IntervalIntegrable (fun t => t ^ (s-1) * Real.exp (-t))
      MeasureTheory.volume x₁ x₂ := by
    apply (gammainc_integrand_integrable s x₂ hs (le_trans h0 h12)).mono_set'
    rw [Set.uIoc_of_le h12, Set.uIoc_of_le (le_trans h0 h12)]
    exact Set.Ioc_subset_Ioc h0 le_rfl
  rw [← intervalIntegral.integral_add_adjacent_intervals hi1 hmid]
  have hpos : 0 ≤ ∫ t in x₁..x₂, t ^ (s-1) * Real.exp (-t) := by
    apply intervalIntegral.integral_nonneg h12
    intro u hu
    exact mul_nonneg (Real.rpow_nonneg (le_trans h0 hu.1) _)
      (Real.exp_pos _).le
  linarith

theorem gammainc_nonneg (s x : ℝ) (hs : 0 < s) (hx : 0 ≤ x) :
    0 ≤ gammainc s x := by
  unfold gammainc
  apply div_nonneg _ (Real.Gamma_pos_of_pos hs).le
  apply intervalIntegral.integral_nonneg hx
  intro u hu
  exact mul_nonneg (Real.rpow_nonneg hu.1 _) (Real.exp_pos _).le

theorem gammainc_zero (s : ℝ) : gammainc s 0 = 0 := by
  unfold gammainc
  rw [intervalIntegral.integral_same, zero_div]

theorem sersic_profile (total_mass r_eff n bn : ℝ) (hre : 0 < r_eff)
    (hn : 0 < n) (hbn : 0 < bn) :
    (∀ r₁ r₂ : ℝ, 0 ≤ r₁ → r₁ ≤ r₂ →
      sersic_enclosed_mass total_mass r_eff n bn r₁ ≤
        sersic_enclosed_mass total_mass r_eff n bn r₂) ∧
    sersic_enclosed_mass total_mass r_eff n bn 0 = 0 := by
  constructor
  · intro r₁ r₂ h0 h12
    unfold sersic_enclosed_mass
    apply mul_le_mul_of_nonneg_left _
      (Real.rpow_pos_of_pos (by norm_num) _).le
    apply gammainc_mono _ _ _ (by linarith)
      (mul_nonneg hbn.le (Real.rpow_nonneg (div_nonneg h0 hre.le) _))
    apply mul_le_mul_of_nonneg_left _ hbn.le
    exact Real.rpow_le_rpow (div_nonneg h0 hre.le)
      ((div_le_div_right hre).mpr h12) (by positivity)
  · unfold sersic_enclosed_mass
    rw [zero_div, Real.zero_rpow (by positivity : (1:ℝ)/n ≠ 0)]
    rw [mul_zero, gammainc_zero, mul_zero]

theorem einasto_profile (mvirial conc nE z H0 Om0 : ℝ) (hc : 0 < conc)
    (hn : 0 < nE) (hrv : 0 < calc_rvir mvirial z H0 Om0) :
    (∀ r₁ r₂ : ℝ, 0 ≤ r₁ → r₁ ≤ r₂ →
      einasto_enclosed_mass mvirial conc nE z H0 Om0 r₁ ≤
        einasto_enclosed_mass mvirial conc nE z H0 Om0 r₂) ∧
    einasto_enclosed_mass mvirial conc nE z H0 Om0 0 = 0 := by
  have hrs : 0 < calc_rvir mvirial z H0 Om0 / conc := div_pos hrv hc
  have hh : 0 < calc_rvir mvirial z H0 Om0 / conc / (2*nE) ^ nE :=
    div_pos hrs (Real.rpow_pos_of_pos (by linarith) _)
  have hrho : 0 ≤ einasto_calc_rho0 mvirial conc nE z H0 Om0 := by
    unfold einasto_calc_rho0
    apply div_nonneg (Real.rpow_pos_of_pos (by norm_num) _).le
    have hg0 : 0 ≤ gammainc (3*nE) (2*nE * conc ^ ((1:ℝ)/nE)) := by
      apply gammainc_nonneg _ _ (by linarith)
      exact mul_nonneg (by linarith) (Real.rpow_nonneg hc.le _)
    apply mul_nonneg
    · apply mul_nonneg _ (pow_nonneg hh.le _)
      apply mul_nonneg (by positivity) hn.le
    · exact mul_nonneg hg0
        (Real.Gamma_pos_of_pos (by linarith : (0:ℝ) < 3*nE)).le
  have hpre : 0 ≤ 4 * Real.pi * einasto_calc_rho0 mvirial conc nE z H0 Om0 *
      (calc_rvir mvirial z H0 Om0 / conc / (2*nE) ^ nE) ^ (3:ℕ) * nE := by
    apply mul_nonneg _ hn.le
    apply mul_nonneg _ (pow_nonneg hh.le _)
    exact mul_nonneg (by positivity) hrho
  constructor
  · intro r₁ r₂ h0 h12
    unfold einasto_enclosed_mass
    apply mul_le_mul_of_nonneg_left _ hpre
    apply mul_le_mul_of_nonneg_right _
      (Real.Gamma_pos_of_pos (by linarith : (0:ℝ) < 3*nE)).le
    apply gammainc_mono _ _ _ (by linarith)
      (mul_nonneg (by linarith) (Real.rpow_nonneg (div_nonneg h0 hrs.le) _))
    apply mul_le_mul_of_nonneg_left _ (by linarith : (0:ℝ) ≤ 2*nE)
    exact Real.rpow_le_rpow (div_nonneg h0 hrs.le)
      ((div_le_div_right hrs).mpr h12) (by positivity)
  · unfold einasto_enclosed_mass
    rw [zero_div, Real.zero_rpow (by positivity : (1:ℝ)/nE ≠ 0)]
    rw [mul_zero, gammainc_zero, zero_mul, mul_zero]

theorem nfw_profile (mvirial conc z H0 Om0 : ℝ) (hc : 0 < conc)
    (hrv : 0 < calc_rvir mvirial z H0 Om0) :
    (∀ r₁ r₂ : ℝ, 0 ≤ r₁ → r₁ ≤ r₂ →
      nfw_enclosed_mass mvirial conc z H0 Om0 r₁ ≤
        nfw_enclosed_mass mvirial conc z H0 Om0 r₂) ∧
    nfw_enclosed_mass mvirial conc z H0 Om0 0 = 0 := by
  obtain ⟨R, hRdef, hR⟩ : ∃ R, calc_rvir mvirial z H0 Om0 = R ∧ 0 < R :=
    ⟨_, rfl, hrv⟩
  have hrs : 0 < R / conc := div_pos hR hc
  have haa : ∀ x : ℝ,
      4 * Real.pi * (10 ^ mvirial / (4*Real.pi*R^3) * conc^3 * x) *
        R^3 / conc^3 = 10 ^ mvirial * x := by
    intro x
    field_simp [Real.pi_ne_zero, hR.ne', hc.ne']
    ring
  constructor
  · intro r₁ r₂ h0 h12
    unfold nfw_enclosed_mass nfw_calc_rho0
    rw [hRdef, haa]
    rw [abs_of_nonneg (nfw_bb_nonneg _ _ hrs h0),
      abs_of_nonneg (nfw_bb_nonneg _ _ hrs (le_trans h0 h12))]
    apply mul_le_mul_of_nonneg_left (nfw_bb_monotone _ _ _ hrs h0 h12)
    exact (mul_pos (Real.rpow_pos_of_pos (by norm_num) _)
      (one_div_pos.mpr (nfw_binv_pos conc hc))).le
  · unfold nfw_enclosed_mass
    rw [hRdef, add_zero, div_self hrs.ne', Real.log_one, zero_div,
      sub_zero, abs_zero, mul_zero]

theorem linearnfw_profile (mvirial conc z H0 Om0 : ℝ) (hm : 0 < mvirial)
    (hc : 0 < conc) (hrv : 0 < calc_rvir mvirial z H0 Om0) :
    (∀ r₁ r₂ : ℝ, 0 ≤ r₁ → r₁ ≤ r₂ →
      linearnfw_enclosed_mass mvirial conc z H0 Om0 r₁ ≤
        linearnfw_enclosed_mass mvirial conc z H0 Om0 r₂) ∧
    linearnfw_enclosed_mass mvirial conc z H0 Om0 0 = 0 := by
  obtain ⟨R, hRdef, hR⟩ : ∃ R, calc_rvir mvirial z H0 Om0 = R ∧ 0 < R :=
    ⟨_, rfl, hrv⟩
  have hrs : 0 < R / conc := div_pos hR hc
  have haa : ∀ x : ℝ,
      4 * Real.pi * (mvirial / (4*Real.pi*R^3) * conc^3 * x) *
        R^3 / conc^3 = mvirial * x := by
    intro x
    field_simp [Real.pi_ne_zero, hR.ne', hc.ne']
    ring
  constructor
  · intro r₁ r₂ h0 h12
    unfold linearnfw_enclosed_mass linearnfw_calc_rho0
    rw [hRdef, haa]
    rw [abs_of_nonneg (nfw_bb_nonneg _ _ hrs h0),
      abs_of_nonneg (nfw_bb_nonneg _ _ hrs (le_trans h0 h12))]
    apply mul_le_mul_of_nonneg_left (nfw_bb_monotone _ _ _ hrs h0 h12)
    exact (mul_pos hm (one_div_pos.mpr (nfw_binv_pos conc hc))).le
  · unfold linearnfw_enclosed_mass
    rw [hRdef, add_zero, div_self hrs.ne', Real.log_one, zero_div,
      sub_zero, abs_zero, mul_zero]

theorem burkert_I_hasDeriv (rB r : ℝ) (hrB : 0 < rB) (hr : 0 ≤ r) :
    HasDerivAt (burkert_I rB) (r^2/((r^2+rB^2)*(r+rB))) r := by
  have h1 : (0:ℝ) < r^2 + rB^2 := by positivity
  have h2 : (0:ℝ) < r + rB := by linarith
  have hd1 : HasDerivAt (fun x : ℝ => x^2 + rB^2) (2*r) r := by
    simpa using (hasDerivAt_pow 2 r).add_const (rB^2)
  have hd2 : HasDerivAt (fun x : ℝ => Real.log (x^2 + rB^2))
      (2*r/(r^2+rB^2)) r := hd1.log h1.ne'
  have hd3 : HasDerivAt (fun x : ℝ => Real.log (x + rB)) (1/(r+rB)) r := by
    have h := ((hasDerivAt_id r).add_const rB).log h2.ne'
    simpa using h
  have hd4 : HasDerivAt (fun x : ℝ => Real.arctan (x/rB))
      (1/(1+(r/rB)^2) * (1/rB)) r := by
    have hdiv : HasDerivAt (fun x : ℝ => x/rB) (1/rB) r := by
      simpa using (hasDerivAt_id r).div_const rB
    exact (Real.hasDerivAt_arctan (r/rB)).comp r hdiv
  have hI : HasDerivAt (burkert_I rB)
      (1/4 * (2*r/(r^2+rB^2) + 2*(1/(r+rB)) -
        2*(1/(1+(r/rB)^2) * (1/rB)))) r := by
    unfold burkert_I
    exact ((((hd2.add (hd3.const_mul 2)).sub (hd4.const_mul 2)).sub_const
      (4 * Real.log rB)).const_mul (1/4))
  convert hI using 1
  field_simp
  ring

theorem burkert_I_strictMono (rB : ℝ) (hrB : 0 < rB) :
    StrictMonoOn (burkert_I rB) (Set.Ici 0) := by
  apply strictMonoOn_of_deriv_pos (convex_Ici 0)
  · intro x hx
    exact (burkert_I_hasDeriv rB x hrB hx).continuousAt.continuousWithinAt
  · intro x hx
    rw [interior_Ici] at hx
    rw [(burkert_I_hasDeriv rB x hrB hx.le).deriv]
    have h1 : (0:ℝ) < x^2 + rB^2 := by positivity
    have h2 : (0:ℝ) < x + rB := by linarith [hx.le]
    exact div_pos (pow_pos hx 2) (mul_pos h1 h2)

theorem burkert_I_zero (rB : ℝ) (hrB : 0 < rB) : burkert_I rB 0 = 0 := by
  unfold burkert_I
  rw [show (0:ℝ)^2 + rB^2 = rB^2 by ring, Real.log_pow, zero_add,
    zero_div, Real.arctan_zero]
  push_cast
  ring

theorem burkert_profile (mvirial rB z H0 Om0 : ℝ) (hrB : 0 < rB)
    (hrv : 0 < calc_rvir mvirial z H0 Om0) :
    (∀ r₁ r₂ : ℝ, 0 ≤ r₁ → r₁ ≤ r₂ →
      burkert_enclosed_mass mvirial rB z H0 Om0 r₁ ≤
        burkert_enclosed_mass mvirial rB z H0 Om0 r₂) ∧
    burkert_enclosed_mass mvirial rB z H0 Om0 0 = 0 := by
  obtain ⟨R, hRdef, hR⟩ : ∃ R, calc_rvir mvirial z H0 Om0 = R ∧ 0 < R :=
    ⟨_, rfl, hrv⟩
  have hpos : 0 < burkert_I rB R := by
    have h := burkert_I_strictMono rB hrB (Set.left_mem_Ici)
      (Set.mem_Ici.mpr hR.le) hR
    rw [burkert_I_zero rB hrB] at h
    exact h
  constructor
  · intro r₁ r₂ h0 h12
    unfold burkert_enclosed_mass
    rw [hRdef]
    apply mul_le_mul_of_nonneg_left _
      (div_nonneg (Real.rpow_pos_of_pos (by norm_num) _).le hpos.le)
    exact (burkert_I_strictMono rB hrB).monotoneOn (Set.mem_Ici.mpr h0)
      (Set.mem_Ici.mpr (le_trans h0 h12)) h12
  · unfold burkert_enclosed_mass
    rw [burkert_I_zero rB hrB, mul_zero]

theorem tp_int_integrable (p q e zz : ℝ) (hp : 0 ≤ p) (hq : 0 ≤ q)
    (hz : zz ≤ 0) :
    IntervalIntegrable (fun t => t^p * (1-t)^q * (1 - zz*t)^(-e))
      MeasureTheory.volume 0 1 := by
  apply ContinuousOn.intervalIntegrable
  intro t ht
  rw [Set.uIcc_of_le (by norm_num : (0:ℝ) ≤ 1)] at ht
  have h1 : (0:ℝ) < 1 - zz*t := by nlinarith [ht.1, ht.2]
  apply ContinuousWithinAt.mul
  apply ContinuousWithinAt.mul
  · exact (Real.continuousAt_rpow_const t p (Or.inr hp)).continuousWithinAt
  · have hcont : ContinuousAt (fun x : ℝ => 1 - x) t := by fun_prop
    exact (hcont.rpow_const (Or.inr hq)).continuousWithinAt
  · have hcont : ContinuousAt (fun x : ℝ => 1 - zz*x) t := by fun_prop
    exact (hcont.rpow_const (Or.inl h1.ne')).continuousWithinAt

theorem tp_int_pos (p q e zz : ℝ) (hp : 0 ≤ p) (hq : 0 ≤ q)
    (hz : zz ≤ 0) :
    0 < ∫ t in (0:ℝ)..1, t^p * (1-t)^q * (1 - zz*t)^(-e) := by
  apply intervalIntegral.intervalIntegral_pos_of_pos_on
    (tp_int_integrable p q e zz hp hq hz)
  · intro t ht
    have h1 : (0:ℝ) < 1 - zz*t := by nlinarith [ht.1, ht.2]
    exact mul_pos (mul_pos (Real.rpow_pos_of_pos ht.1 _)
      (Real.rpow_pos_of_pos (by linarith [ht.2]) _))
      (Real.rpow_pos_of_pos h1 _)
  · norm_num

theorem tp_J_integrable (p q e rs r : ℝ) (hp : 0 ≤ p) (hq : 0 ≤ q)
    (he : 0 ≤ e) (hrs : 0 < rs) (hr : 0 ≤ r) :
    IntervalIntegrable (fun t => t^p * (1-t)^q * (r/(1+(r/rs)*t))^e)
      MeasureTheory.volume 0 1 := by
  apply ContinuousOn.intervalIntegrable
  intro t ht
  rw [Set.uIcc_of_le (by norm_num : (0:ℝ) ≤ 1)] at ht
  have h1 : (0:ℝ) < 1 + (r/rs)*t := by
    have h2 : 0 ≤ (r/rs)*t := mul_nonneg (div_nonneg hr hrs.le) ht.1
    linarith
  apply ContinuousWithinAt.mul
  apply ContinuousWithinAt.mul
  · exact (Real.continuousAt_rpow_const t p (Or.inr hp)).continuousWithinAt
  · have hcont : ContinuousAt (fun x : ℝ => 1 - x) t := by fun_prop
    exact (hcont.rpow_const (Or.inr hq)).continuousWithinAt
  · have hcont : ContinuousAt (fun x : ℝ => r/(1+(r/rs)*x)) t :=
      ContinuousAt.div continuousAt_const (by fun_prop) h1.ne'
    exact (hcont.rpow_const (Or.inr he)).continuousWithinAt

theorem tp_G_mono (p q e rs r₁ r₂ : ℝ) (hp : 0 ≤ p) (hq : 0 ≤ q)
    (he : 0 ≤ e) (hrs : 0 < rs) (h0 : 0 ≤ r₁) (h12 : r₁ ≤ r₂) :
    r₁^e * ∫ t in (0:ℝ)..1, t^p * (1-t)^q * (1 - (-r₁/rs)*t)^(-e) ≤
    r₂^e * ∫ t in (0:ℝ)..1, t^p * (1-t)^q * (1 - (-r₂/rs)*t)^(-e) := by
  have hkey : ∀ r : ℝ, 0 ≤ r →
      r^e * ∫ t in (0:ℝ)..1, t^p * (1-t)^q * (1 - (-r/rs)*t)^(-e) =
      ∫ t in (0:ℝ)..1, t^p * (1-t)^q * (r/(1+(r/rs)*t))^e := by
    intro r hr
    rw [← intervalIntegral.integral_const_mul]
    apply intervalIntegral.integral_congr
    intro t ht
    rw [Set.uIcc_of_le (by norm_num : (0:ℝ) ≤ 1)] at ht
    have h1 : (0:ℝ) < 1 + (r/rs)*t := by
      have h2 : 0 ≤ (r/rs)*t := mul_nonneg (div_nonneg hr hrs.le) ht.1
      linarith
    have e1 : (1 : ℝ) - (-r/rs)*t = 1 + (r/rs)*t := by ring
    show r^e * (t^p * (1-t)^q * (1 - (-r/rs)*t)^(-e)) =
      t^p * (1-t)^q * (r/(1+(r/rs)*t))^e
    rw [e1, Real.rpow_neg h1.le, Real.div_rpow hr h1.le]
    field_simp
    ring
  rw [hkey r₁ h0, hkey r₂ (le_trans h0 h12)]
  apply intervalIntegral.integral_mono_on (by norm_num)
  · exact tp_J_integrable p q e rs r₁ hp hq he hrs h0
  · exact tp_J_integrable p q e rs r₂ hp hq he hrs (le_trans h0 h12)
  · intro t ht
    apply mul_le_mul_of_nonneg_left _
      (mul_nonneg (Real.rpow_nonneg ht.1 _)
        (Real.rpow_nonneg (by linarith [ht.2]) _))
    have h1 : (0:ℝ) < 1 + (r₁/rs)*t := by
      have h2 : 0 ≤ (r₁/rs)*t := mul_nonneg (div_nonneg h0 hrs.le) ht.1
      linarith
    have h2 : (0:ℝ) < 1 + (r₂/rs)*t := by
      have h3 : 0 ≤ (r₂/rs)*t :=
        mul_nonneg (div_nonneg (le_trans h0 h12) hrs.le) ht.1
      linarith
    apply Real.rpow_le_rpow (div_nonneg h0 h1.le) _ he
    rw [div_le_div_iff h1 h2]
    have ht0 : 0 ≤ t := ht.1
    have hb : r₁ * ((r₂/rs)*t) = r₂ * ((r₁/rs)*t) := by ring
    nlinarith [hb, h12]

theorem twopower_profile (mvirial conc alpha beta z H0 Om0 : ℝ)
    (hα0 : 0 ≤ alpha) (hα3 : alpha < 3) (hβ1 : alpha + 1 ≤ beta)
    (hβ3 : beta ≤ 3) (hc : 0 < conc)
    (hrv : 0 < calc_rvir mvirial z H0 Om0) :
    (∀ r₁ r₂ : ℝ, 0 ≤ r₁ → r₁ ≤ r₂ →
      twopower_enclosed_mass mvirial conc alpha beta z H0 Om0 r₁ ≤
        twopower_enclosed_mass mvirial conc alpha beta z H0 Om0 r₂) ∧
    twopower_enclosed_mass mvirial conc alpha beta z H0 Om0 0 = 0 := by
  obtain ⟨R, hRdef, hR⟩ : ∃ R, calc_rvir mvirial z H0 Om0 = R ∧ 0 < R :=
    ⟨_, rfl, hrv⟩
  have hrs : 0 < R/conc := div_pos hR hc
  have hp : 0 ≤ beta - alpha - 1 := by linarith
  have hq : 0 ≤ 4 - alpha - (beta - alpha) - 1 := by linarith
  have he : 0 ≤ 3 - alpha := by linarith
  have hgam : 0 < Real.Gamma (4-alpha) /
      (Real.Gamma (beta-alpha) * Real.Gamma (4-alpha-(beta-alpha))) := by
    apply div_pos (Real.Gamma_pos_of_pos (by linarith))
    exact mul_pos (Real.Gamma_pos_of_pos (by linarith))
      (Real.Gamma_pos_of_pos (by linarith))
  have hIc : 0 < ∫ t in (0:ℝ)..1, t^(beta-alpha-1) *
      (1-t)^(4-alpha-(beta-alpha)-1) * (1 - -conc*t)^(-(3-alpha)) :=
    tp_int_pos _ _ _ _ hp hq (by linarith)
  have hC : 0 ≤ 10^mvirial / R^(3-alpha) / (∫ t in (0:ℝ)..1,
      t^(beta-alpha-1) * (1-t)^(4-alpha-(beta-alpha)-1) *
        (1 - -conc*t)^(-(3-alpha))) :=
    div_nonneg (div_nonneg (Real.rpow_pos_of_pos (by norm_num) _).le
      (Real.rpow_pos_of_pos hR _).le) hIc.le
  have hEq : ∀ r : ℝ, 0 ≤ r →
      twopower_enclosed_mass mvirial conc alpha beta z H0 Om0 r =
        (10^mvirial / R^(3-alpha) / (∫ t in (0:ℝ)..1,
          t^(beta-alpha-1) * (1-t)^(4-alpha-(beta-alpha)-1) *
            (1 - -conc*t)^(-(3-alpha)))) *
        (r^(3-alpha) * ∫ t in (0:ℝ)..1,
          t^(beta-alpha-1) * (1-t)^(4-alpha-(beta-alpha)-1) *
            (1 - -r/(R/conc)*t)^(-(3-alpha))) := by
    intro r hr
    unfold twopower_enclosed_mass hyp2f1
    rw [hRdef]
    rw [mul_div_mul_left _ _ hgam.ne']
    rw [Real.div_rpow hr hR.le]
    ring
  constructor
  · intro r₁ r₂ h0 h12
    rw [hEq r₁ h0, hEq r₂ (le_trans h0 h12)]
    apply mul_le_mul_of_nonneg_left _ hC
    exact tp_G_mono _ _ _ _ _ _ hp hq he hrs h0 h12
  · unfold twopower_enclosed_mass
    rw [hRdef, zero_div,
      Real.zero_rpow (show (3:ℝ)-alpha ≠ 0 from ne_of_gt (by linarith)),
      mul_zero, zero_mul]

theorem cosmoH_70_z0 : cosmoH 70 (3/10) 0 = 70 := by
  unfold cosmoH
  rw [show (3/10:ℝ) * (1+0)^3 + (1 - 3/10) = 1 by norm_num, Real.sqrt_one]
  norm_num

theorem calc_rvir_pos (mvirial z H0 Om0 : ℝ)
    (hH : 0 < cosmoH H0 Om0 z) : 0 < calc_rvir mvirial z H0 Om0 := by
  unfold calc_rvir
  apply Real.rpow_pos_of_pos
  apply div_pos
  · apply mul_pos (Real.rpow_pos_of_pos (by norm_num) _)
    norm_num [g_new_unit]
  · apply pow_pos
    nlinarith

theorem dz_defaults_a : dz_calc_a (3/2) 25 = 1/2 := by
  unfold dz_calc_a
  rw [show (1/100:ℝ) = (1/10)^2 by norm_num, Real.sqrt_sq (by norm_num),
    show (25:ℝ) = 5^2 by norm_num, Real.sqrt_sq (by norm_num)]
  norm_num

theorem dz_defaults_c : dz_calc_c (3/2) 25 = 25 := by
  unfold dz_calc_c
  rw [show (1/100:ℝ) = (1/10)^2 by norm_num, Real.sqrt_sq (by norm_num),
    show (25:ℝ) = 5^2 by norm_num, Real.sqrt_sq (by norm_num)]
  norm_num

theorem dz_y_mono (x₁ x₂ : ℝ) (h0 : 0 ≤ x₁) (h12 : x₁ ≤ x₂) :
    x₁ / (1 + Real.sqrt x₁)^(2:ℕ) ≤ x₂ / (1 + Real.sqrt x₂)^(2:ℕ) := by
  have h0' : 0 ≤ x₂ := le_trans h0 h12
  have huv : Real.sqrt x₁ ≤ Real.sqrt x₂ := Real.sqrt_le_sqrt h12
  have hu0 : 0 ≤ Real.sqrt x₁ := Real.sqrt_nonneg _
  have hv0 : 0 ≤ Real.sqrt x₂ := Real.sqrt_nonneg _
  have hu2 : Real.sqrt x₁ ^ (2:ℕ) = x₁ := Real.sq_sqrt h0
  have hv2 : Real.sqrt x₂ ^ (2:ℕ) = x₂ := Real.sq_sqrt h0'
  obtain ⟨u, hud⟩ : ∃ u, Real.sqrt x₁ = u := ⟨_, rfl⟩
  obtain ⟨v, hvd⟩ : ∃ v, Real.sqrt x₂ = v := ⟨_, rfl⟩
  rw [hud] at huv hu0 hu2 ⊢
  rw [hvd] at huv hv0 hv2 ⊢
  have h1 : (0:ℝ) < (1 + u)^(2:ℕ) := pow_pos (by linarith) 2
  have h2 : (0:ℝ) < (1 + v)^(2:ℕ) := pow_pos (by linarith) 2
  rw [div_le_div_iff h1 h2, ← hu2, ← hv2]
  nlinarith [mul_nonneg (mul_nonneg hu0 hv0) (sub_nonneg.mpr huv),
    mul_self_le_mul_self hu0 huv]

theorem dz_profile (mvirial s1 c2 z H0 Om0 : ℝ)
    (ha : dz_calc_a s1 c2 < 3) (hcpos : 0 < dz_calc_c s1 c2)
    (hrv : 0 < calc_rvir mvirial z H0 Om0) :
    (∀ r₁ r₂ : ℝ, 0 ≤ r₁ → r₁ ≤ r₂ →
      dz_enclosed_mass mvirial s1 c2 z H0 Om0 r₁ ≤
        dz_enclosed_mass mvirial s1 c2 z H0 Om0 r₂) ∧
    dz_enclosed_mass mvirial s1 c2 z H0 Om0 0 = 0 := by
  obtain ⟨R, hRdef, hR⟩ : ∃ R, calc_rvir mvirial z H0 Om0 = R ∧ 0 < R :=
    ⟨_, rfl, hrv⟩
  obtain ⟨a, hadef, ha3⟩ : ∃ a, dz_calc_a s1 c2 = a ∧ a < 3 := ⟨_, rfl, ha⟩
  obtain ⟨c, hcdef, hc0⟩ : ∃ c, dz_calc_c s1 c2 = c ∧ 0 < c :=
    ⟨_, rfl, hcpos⟩
  have hrs : 0 < R / c := div_pos hR hc0
  have hw : 0 < 3 - a := by linarith
  have hmu : 0 ≤ dz_calc_mu s1 c2 := by
    unfold dz_calc_mu
    exact mul_nonneg (Real.rpow_nonneg (by positivity) _)
      (Real.rpow_nonneg (by positivity) _)
  have hEq : ∀ r : ℝ, 0 < r →
      dz_enclosed_mass mvirial s1 c2 z H0 Om0 r =
        dz_calc_mu s1 c2 * 10^mvirial *
          ((r/(R/c)) / (1 + Real.sqrt (r/(R/c)))^(2:ℕ))^(3-a) := by
    intro r hrpos
    unfold dz_enclosed_mass
    rw [hRdef, hcdef, hadef]
    have hx : 0 < r/(R/c) := div_pos hrpos hrs
    have hsx : 0 ≤ Real.sqrt (r/(R/c)) := Real.sqrt_nonneg _
    have h1sx : (0:ℝ) < 1 + Real.sqrt (r/(R/c)) := by linarith
    have e1 : (r/(R/c))^(a-3) = ((r/(R/c))^(3-a))⁻¹ := by
      rw [show a-3 = -(3-a) by ring, Real.rpow_neg hx.le]
    have e2 : (1 + Real.sqrt (r/(R/c)))^(2*(3-a)) =
        ((1 + Real.sqrt (r/(R/c)))^(2:ℕ))^(3-a) := by
      rw [Real.rpow_mul h1sx.le, Real.rpow_two]
    have e3 : ((r/(R/c)) / (1 + Real.sqrt (r/(R/c)))^(2:ℕ))^(3-a) =
        (r/(R/c))^(3-a) / ((1 + Real.sqrt (r/(R/c)))^(2:ℕ))^(3-a) :=
      Real.div_rpow hx.le (pow_nonneg h1sx.le 2) (3-a)
    rw [e1, e2, e3]
    have hA : (0:ℝ) < (r/(R/c))^(3-a) := Real.rpow_pos_of_pos hx _
    have hB : (0:ℝ) < ((1 + Real.sqrt (r/(R/c)))^(2:ℕ))^(3-a) :=
      Real.rpow_pos_of_pos (pow_pos h1sx 2) _
    field_simp
  have hzero : dz_enclosed_mass mvirial s1 c2 z H0 Om0 0 = 0 := by
    unfold dz_enclosed_mass
    rw [hRdef, hcdef, hadef, zero_div,
      Real.zero_rpow (sub_neg.mpr ha3).ne, zero_mul, div_zero]
  have hnn : ∀ r : ℝ, 0 < r →
      0 ≤ dz_enclosed_mass mvirial s1 c2 z H0 Om0 r := by
    intro r hrpos
    rw [hEq r hrpos]
    exact mul_nonneg
      (mul_nonneg hmu (Real.rpow_pos_of_pos (by norm_num) _).le)
      (Real.rpow_nonneg
        (div_nonneg (div_pos hrpos hrs).le (by positivity)) _)
  refine ⟨?_, hzero⟩
  intro r₁ r₂ h0 h12
  rcases eq_or_lt_of_le h0 with h0e | h0p
  · rcases eq_or_lt_of_le (le_trans h0 h12) with h2e | h2p
    · rw [← h0e, ← h2e]
    · rw [← h0e, hzero]
      exact hnn r₂ h2p
  · rw [hEq r₁ h0p, hEq r₂ (lt_of_lt_of_le h0p h12)]
    apply mul_le_mul_of_nonneg_left _
      (mul_nonneg hmu (Real.rpow_pos_of_pos (by norm_num) _).le)
    apply Real.rpow_le_rpow
      (div_nonneg (div_pos h0p hrs).le (by positivity)) _ hw.le
    exact dz_y_mono _ _ (div_pos h0p hrs).le
      ((div_le_div_iff_of_pos_right hrs).mpr h12)

/-- **C5 counterexample.** The DekelZhao profile with the in-bounds
parameters `mvirial = 12`, `s1 = 0.1` (bounds `(0, 2)`), `c2 = 39`
(bounds `(0, 40)`), at `z = 0` with the default cosmology, has a strictly
*decreasing* `enclosed_mass` between the radii `rvir/c` and `4·rvir/c`:
there `a(s1, c2) > 3`, so the exponent `3 − a` of the inner profile
factor is negative and the mass formula decreases in radius. -/
theorem dekelzhao_enclosed_mass_not_monotone :
    ∃ r₁ r₂ : ℝ, 0 ≤ r₁ ∧ r₁ ≤ r₂ ∧
      dz_enclosed_mass 12 (1/10) 39 0 70 (3/10) r₂ <
        dz_enclosed_mass 12 (1/10) 39 0 70 (3/10) r₁ := by
  have hs : Real.sqrt (1/100) = 1/10 := by
    rw [show (1/100:ℝ) = (1/10)^2 by norm_num, Real.sqrt_sq (by norm_num)]
  have hs39l : (62/10 : ℝ) ≤ Real.sqrt 39 := by
    rw [show (62/10:ℝ) = Real.sqrt ((62/10)^2) from
      (Real.sqrt_sq (by norm_num)).symm]
    exact Real.sqrt_le_sqrt (by norm_num)
  have hs39u : Real.sqrt 39 ≤ 63/10 := by
    rw [show (63/10:ℝ) = Real.sqrt ((63/10)^2) from
      (Real.sqrt_sq (by norm_num)).symm]
    exact Real.sqrt_le_sqrt (by norm_num)
  obtain ⟨s, hsd⟩ : ∃ s, Real.sqrt 39 = s := ⟨_, rfl⟩
  rw [hsd] at hs39l hs39u
  have hspos : (0:ℝ) < s := by linarith
  have hden : (3/2 : ℝ) - (7/2 - 1/10) * (1/10) * s < 0 := by nlinarith
  have ha3 : 3 < dz_calc_a (1/10) 39 := by
    unfold dz_calc_a
    rw [hs, hsd, lt_div_iff_of_neg hden]
    nlinarith
  have hcden : (0:ℝ) < (7/2 - 1/10) * (1/10) - 3/2 / s := by
    have h1 : 3/2 / s ≤ 1/4 := by
      rw [div_le_iff hspos]
      nlinarith
    linarith
  have hc0 : 0 < dz_calc_c (1/10) 39 := by
    unfold dz_calc_c
    rw [hs, hsd]
    exact pow_two_pos_of_ne_zero (div_ne_zero (by norm_num) hcden.ne')
  have hmu : 0 < dz_calc_mu (1/10) 39 := by
    unfold dz_calc_mu
    exact mul_pos (Real.rpow_pos_of_pos hc0 _)
      (Real.rpow_pos_of_pos
        (by positivity : (0:ℝ) < 1 + Real.sqrt (dz_calc_c (1/10) 39)) _)
  have hrv : 0 < calc_rvir 12 0 70 (3/10) :=
    calc_rvir_pos _ _ _ _ (by rw [cosmoH_70_z0]; norm_num)
  obtain ⟨a, hadef⟩ : ∃ a, dz_calc_a (1/10) 39 = a := ⟨_, rfl⟩
  obtain ⟨c, hcdef⟩ : ∃ c, dz_calc_c (1/10) 39 = c := ⟨_, rfl⟩
  obtain ⟨R, hRdef⟩ : ∃ R, calc_rvir 12 0 70 (3/10) = R := ⟨_, rfl⟩
  rw [hadef] at ha3
  rw [hcdef] at hc0
  rw [hRdef] at hrv
  have hg : 0 < a - 3 := by linarith
  have hrs : 0 < R / c := div_pos hrv hc0
  refine ⟨R/c, 4*(R/c), hrs.le, by linarith, ?_⟩
  unfold dz_enclosed_mass
  rw [hcdef, hRdef, hadef]
  rw [div_self hrs.ne', mul_div_cancel_right₀ 4 hrs.ne']
  rw [Real.sqrt_one, Real.one_rpow, one_mul]
  have hsf : Real.sqrt 4 = 2 := by
    rw [show (4:ℝ) = 2^2 by norm_num, Real.sqrt_sq (by norm_num)]
  rw [hsf, show (1:ℝ)+2 = 3 by norm_num, show (1:ℝ)+1 = 2 by norm_num]
  have e1 : (2:ℝ)^(2*(3-a)) = (1/4 : ℝ)^(a-3) := by
    rw [show 2*(3-a) = (-2)*(a-3) by ring,
      Real.rpow_mul (by norm_num : (0:ℝ) ≤ 2)]
    congr 1
    rw [show (-2:ℝ) = -(2:ℝ) by norm_num, Real.rpow_neg (by norm_num),
      Real.rpow_two]
    norm_num
  have e2 : (4:ℝ)^(a-3) * (3:ℝ)^(2*(3-a)) = (4/9 : ℝ)^(a-3) := by
    rw [show 2*(3-a) = (-2)*(a-3) by ring,
      Real.rpow_mul (by norm_num : (0:ℝ) ≤ 3)]
    rw [show ((3:ℝ)^(-2:ℝ)) = 1/9 by
      rw [show (-2:ℝ) = -(2:ℝ) by norm_num, Real.rpow_neg (by norm_num),
        Real.rpow_two]
      norm_num]
    rw [← Real.mul_rpow (by norm_num) (by norm_num)]
    norm_num
  rw [e1, e2]
  have hK : 0 < dz_calc_mu (1/10) 39 * (10:ℝ)^(12:ℝ) :=
    mul_pos hmu (Real.rpow_pos_of_pos (by norm_num) _)
  exact (div_lt_div_left hK
    (Real.rpow_pos_of_pos (by norm_num) _)
    (Real.rpow_pos_of_pos (by norm_num) _)).mpr
    (Real.rpow_lt_rpow (by norm_num) (by norm_num) hg)

/-- **C5.** (amended) For each of the seven mass profiles (Sersic, NFW,
TwoPowerHalo, Burkert, Einasto, DekelZhao, LinearNFW), `enclosed_mass`
is monotonically non-decreasing over `r ≥ 0` and `enclosed_mass 0 = 0`
— exactly, in real arithmetic — under positivity of the profile's scale
parameters (`reff`, `n`, `bn`, `conc`, `rB`, `nEinasto`, the virial
radius), with the TwoPowerHalo inner/outer slopes in the physical range
`0 ≤ α < 3`, `α + 1 ≤ β ≤ 3` (containing the defaults `α = 1`, `β = 3`),
and with the DekelZhao inner slope satisfying `a(s1, c2) < 3` (true at
the defaults `s1 = 1.5`, `c2 = 25`, where `a = 1/2`, but violated at
other in-bounds parameters — see the counterexample). -/
theorem mass_profiles_enclosed_mass_monotone_zero :
    (∀ total_mass r_eff n bn : ℝ, 0 < r_eff → 0 < n → 0 < bn →
      (∀ r₁ r₂ : ℝ, 0 ≤ r₁ → r₁ ≤ r₂ →
        sersic_enclosed_mass total_mass r_eff n bn r₁ ≤
          sersic_enclosed_mass total_mass r_eff n bn r₂) ∧
      sersic_enclosed_mass total_mass r_eff n bn 0 = 0) ∧
    (∀ mvirial conc z H0 Om0 : ℝ, 0 < conc →
      0 < calc_rvir mvirial z H0 Om0 →
      (∀ r₁ r₂ : ℝ, 0 ≤ r₁ → r₁ ≤ r₂ →
        nfw_enclosed_mass mvirial conc z H0 Om0 r₁ ≤
          nfw_enclosed_mass mvirial conc z H0 Om0 r₂) ∧
      nfw_enclosed_mass mvirial conc z H0 Om0 0 = 0) ∧
    (∀ mvirial conc alpha beta z H0 Om0 : ℝ, 0 ≤ alpha → alpha < 3 →
      alpha + 1 ≤ beta → beta ≤ 3 → 0 < conc →
      0 < calc_rvir mvirial z H0 Om0 →
      (∀ r₁ r₂ : ℝ, 0 ≤ r₁ → r₁ ≤ r₂ →
        twopower_enclosed_mass mvirial conc alpha beta z H0 Om0 r₁ ≤
          twopower_enclosed_mass mvirial conc alpha beta z H0 Om0 r₂) ∧
      twopower_enclosed_mass mvirial conc alpha beta z H0 Om0 0 = 0) ∧
    (∀ mvirial rB z H0 Om0 : ℝ, 0 < rB →
      0 < calc_rvir mvirial z H0 Om0 →
      (∀ r₁ r₂ : ℝ, 0 ≤ r₁ → r₁ ≤ r₂ →
        burkert_enclosed_mass mvirial rB z H0 Om0 r₁ ≤
          burkert_enclosed_mass mvirial rB z H0 Om0 r₂) ∧
      burkert_enclosed_mass mvirial rB z H0 Om0 0 = 0) ∧
    (∀ mvirial conc nE z H0 Om0 : ℝ, 0 < conc → 0 < nE →
      0 < calc_rvir mvirial z H0 Om0 →
      (∀ r₁ r₂ : ℝ, 0 ≤ r₁ → r₁ ≤ r₂ →
        einasto_enclosed_mass mvirial conc nE z H0 Om0 r₁ ≤
          einasto_enclosed_mass mvirial conc nE z H0 Om0 r₂) ∧
      einasto_enclosed_mass mvirial conc nE z H0 Om0 0 = 0) ∧
    (∀ mvirial s1 c2 z H0 Om0 : ℝ, dz_calc_a s1 c2 < 3 →
      0 < dz_calc_c s1 c2 → 0 < calc_rvir mvirial z H0 Om0 →
      (∀ r₁ r₂ : ℝ, 0 ≤ r₁ → r₁ ≤ r₂ →
        dz_enclosed_mass mvirial s1 c2 z H0 Om0 r₁ ≤
          dz_enclosed_mass mvirial s1 c2 z H0 Om0 r₂) ∧
      dz_enclosed_mass mvirial s1 c2 z H0 Om0 0 = 0) ∧
    (∀ mvirial conc z H0 Om0 : ℝ, 0 < mvirial → 0 < conc →
      0 < calc_rvir mvirial z H0 Om0 →
      (∀ r₁ r₂ : ℝ, 0 ≤ r₁ → r₁ ≤ r₂ →
        linearnfw_enclosed_mass mvirial conc z H0 Om0 r₁ ≤
          linearnfw_enclosed_mass mvirial conc z H0 Om0 r₂) ∧
      linearnfw_enclosed_mass mvirial conc z H0 Om0 0 = 0) :=
  ⟨fun tm re n bn h1 h2 h3 => sersic_profile tm re n bn h1 h2 h3,
   fun m c z H0 O h1 h2 => nfw_profile m c z H0 O h1 h2,
   fun m c al be z H0 O h1 h2 h3 h4 h5 h6 =>
     twopower_profile m c al be z H0 O h1 h2 h3 h4 h5 h6,
   fun m rB z H0 O h1 h2 => burkert_profile m rB z H0 O h1 h2,
   fun m c nE z H0 O h1 h2 h3 => einasto_profile m c nE z H0 O h1 h2 h3,
   fun m s1 c2 z H0 O h1 h2 h3 => dz_profile m s1 c2 z H0 O h1 h2 h3,
   fun m c z H0 O h1 h2 h3 => linearnfw_profile m c z H0 O h1 h2 h3⟩

/-- **C5 witness.** Each profile conjunct instantiated at concrete
in-bounds parameters (defaults where sensible, `z = 0`, default
cosmology) and at the concrete radii `r₁ = 1 ≤ 2 = r₂`. -/
theorem mass_profiles_enclosed_mass_monotone_zero_witness :
    (sersic_enclosed_mass 12 1 1 1 1 ≤ sersic_enclosed_mass 12 1 1 1 2 ∧
      sersic_enclosed_mass 12 1 1 1 0 = 0) ∧
    (nfw_enclosed_mass 12 5 0 70 (3/10) 1 ≤
        nfw_enclosed_mass 12 5 0 70 (3/10) 2 ∧
      nfw_enclosed_mass 12 5 0 70 (3/10) 0 = 0) ∧
    (twopower_enclosed_mass 12 5 1 3 0 70 (3/10) 1 ≤
        twopower_enclosed_mass 12 5 1 3 0 70 (3/10) 2 ∧
      twopower_enclosed_mass 12 5 1 3 0 70 (3/10) 0 = 0) ∧
    (burkert_enclosed_mass 12 1 0 70 (3/10) 1 ≤
        burkert_enclosed_mass 12 1 0 70 (3/10) 2 ∧
      burkert_enclosed_mass 12 1 0 70 (3/10) 0 = 0) ∧
    (einasto_enclosed_mass 12 5 1 0 70 (3/10) 1 ≤
        einasto_enclosed_mass 12 5 1 0 70 (3/10) 2 ∧
      einasto_enclosed_mass 12 5 1 0 70 (3/10) 0 = 0) ∧
    (dz_enclosed_mass 12 (3/2) 25 0 70 (3/10) 1 ≤
        dz_enclosed_mass 12 (3/2) 25 0 70 (3/10) 2 ∧
      dz_enclosed_mass 12 (3/2) 25 0 70 (3/10) 0 = 0) ∧
    (linearnfw_enclosed_mass 12 5 0 70 (3/10) 1 ≤
        linearnfw_enclosed_mass 12 5 0 70 (3/10) 2 ∧
      linearnfw_enclosed_mass 12 5 0 70 (3/10) 0 = 0) := by
  obtain ⟨hS, hN, hT, hB, hE, hD, hL⟩ :=
    mass_profiles_enclosed_mass_monotone_zero
  have hrv : 0 < calc_rvir 12 0 70 (3/10) :=
    calc_rvir_pos 12 0 70 (3/10) (by rw [cosmoH_70_z0]; norm_num)
  have ha : dz_calc_a (3/2) 25 < 3 := by rw [dz_defaults_a]; norm_num
  have hcz : (0:ℝ) < dz_calc_c (3/2) 25 := by rw [dz_defaults_c]; norm_num
  exact ⟨⟨(hS 12 1 1 1 one_pos one_pos one_pos).1 1 2 zero_le_one
        one_le_two,
      (hS 12 1 1 1 one_pos one_pos one_pos).2⟩,
    ⟨(hN 12 5 0 70 (3/10) (by norm_num) hrv).1 1 2 zero_le_one one_le_two,
      (hN 12 5 0 70 (3/10) (by norm_num) hrv).2⟩,
    ⟨(hT 12 5 1 3 0 70 (3/10) (by norm_num) (by norm_num) (by norm_num)
        (by norm_num) (by norm_num) hrv).1 1 2 zero_le_one one_le_two,
      (hT 12 5 1 3 0 70 (3/10) (by norm_num) (by norm_num) (by norm_num)
        (by norm_num) (by norm_num) hrv).2⟩,
    ⟨(hB 12 1 0 70 (3/10) one_pos hrv).1 1 2 zero_le_one one_le_two,
      (hB 12 1 0 70 (3/10) one_pos hrv).2⟩,
    ⟨(hE 12 5 1 0 70 (3/10) (by norm_num) one_pos hrv).1 1 2 zero_le_one
        one_le_two,
      (hE 12 5 1 0 70 (3/10) (by norm_num) one_pos hrv).2⟩,
    ⟨(hD 12 (3/2) 25 0 70 (3/10) ha hcz hrv).1 1 2 zero_le_one one_le_two,
      (hD 12 (3/2) 25 0 70 (3/10) ha hcz hrv).2⟩,
    ⟨(hL 12 5 0 70 (3/10) (by norm_num) (by norm_num) hrv).1 1 2
        zero_le_one one_le_two,
      (hL 12 5 0 70 (3/10) (by norm_num) (by norm_num) hrv).2⟩⟩

/-- **C7 witness.** The length check at the concrete one-free-parameter
state: `theta = [7]` has the matching length 1. -/
theorem update_parameters_length_check_witness :
    (update_parameters wState [7] = .error .valueError ↔
      ([7] : List ℚ).length ≠ wState.nparams_free) ∧
    (([7] : List ℚ).length = wState.nparams_free →
      ∃ s', update_parameters wState [7] = .ok s') :=
  update_parameters_length_check wState
    (ReachV.add wComp CompType.mass ReachV.init
      ⟨by decide, rfl, by decide⟩ (by simp [ModelState.init]) rfl) [7]

end Dysmalpy
